import Mathlib

/-!
# ArangoDB AQL: the limiting executor and the enumeration executor

A shallow embedding of `arangod/Aql/LimitExecutor.h`, of
`arangod/Aql/EnumerateCollectionExecutor.h` and of the pull protocol around
them, followed by the properties proved about it.

Conventions of the embedding:

* `size_t` is a 64-bit unsigned integer.  A `size_t` value is a `Nat`; every
  arithmetic operation the source performs on `size_t` is followed by an
  explicit `% 2 ^ 64`, and theorems state `x < 2 ^ 64` for the values that are
  stored in a `size_t` where that matters.
* `TRI_ASSERT` is an assertion: a member function that asserts returns
  `Option`, with `none` for a failed assertion.
* Members whose bodies are inline in the headers are translated from the
  headers.  Members that are only declared there (`produceRows`, `skipRows`,
  `fetchBlockForPassthrough`, `initializeCursor`) and the types the headers only
  include (`ExecutionState`, `LimitStats`, the Fetcher, blocks, the storage
  cursor) are modelled from the specification, and say so.
* Stateful members are functions from the executor before the call to a result
  that holds the executor after the call.
-/

namespace arangodb
namespace aql

/-! ## The data model and the inline members of `LimitExecutor.h` -/

/-- Modelled from the spec: `ExecutionState` (`Aql/ExecutionState.h` is not part
of the sources), the three-state control protocol of section 4.1 that every
pull operation returns. -/
inductive ExecutionState where
  | WAITING
  | HASMORE
  | DONE
deriving DecidableEq, Repr

/-- The stage parameters of `LimitExecutorInfos`: `_offset`, `_limit` (both
`size_t`) and `_fullCount`.  The register layout inherited from
`ExecutorInfos` plays no part in the members translated here. -/
structure LimitExecutorInfos where
  _offset : Nat
  _limit : Nat
  _fullCount : Bool
deriving DecidableEq, Repr

/-- Source: `size_t getOffset() const noexcept { return _offset; }` -/
def LimitExecutorInfos.getOffset (i : LimitExecutorInfos) : Nat :=
  i._offset

/-- Source: `size_t getLimit() const noexcept { return _limit; }` -/
def LimitExecutorInfos.getLimit (i : LimitExecutorInfos) : Nat :=
  i._limit

/-- Source: `size_t getLimitPlusOffset() const noexcept { return _offset + _limit; }`,
a `size_t` addition, so the sum wraps modulo `2 ^ 64`. -/
def LimitExecutorInfos.getLimitPlusOffset (i : LimitExecutorInfos) : Nat :=
  (i._offset + i._limit) % 2 ^ 64

/-- Source: `bool isFullCountEnabled() const noexcept { return _fullCount; }` -/
def LimitExecutorInfos.isFullCountEnabled (i : LimitExecutorInfos) : Bool :=
  i._fullCount

/-- Source: `enum class LimitState` of `LimitExecutor`. -/
inductive LimitState where
  | SKIPPING
  | RETURNING
  | RETURNING_LAST_ROW
  | COUNTING
  | LIMIT_REACHED
deriving DecidableEq, Repr

/-- Modelled from the spec: the `Fetcher` (`SingleRowFetcher`, only forward
declared in the header).  The upstream is the sequence of answers it will give
to successive pulls: `some r` is the input row `r`, `none` is a round in which
the upstream would block and the pull answers `WAITING`. -/
structure Fetcher (Row : Type) where
  pending : List (Option Row)
deriving DecidableEq, Repr

/-- The data members of `LimitExecutor`: `_infos`, `_fetcher`,
`_lastRowToOutput`, `_stateOfLastRowToOutput` and `_counter` (the number of
input lines seen, a `size_t`). -/
structure LimitExecutor (Row : Type) where
  _infos : LimitExecutorInfos
  _fetcher : Fetcher Row
  _lastRowToOutput : Option Row
  _stateOfLastRowToOutput : ExecutionState
  _counter : Nat
deriving DecidableEq, Repr

/-- Source: `Infos const& infos() const noexcept { return _infos; }` -/
def LimitExecutor.infos {Row : Type} (e : LimitExecutor Row) : LimitExecutorInfos :=
  e._infos

/-- Source: `maxRowsLeftToFetch()`, which asserts `getLimitPlusOffset() >= _counter` and
returns `getLimitPlusOffset() - _counter`. -/
def LimitExecutor.maxRowsLeftToFetch {Row : Type} (e : LimitExecutor Row) : Option Nat :=
  if e.infos.getLimitPlusOffset ≥ e._counter then
    some (e.infos.getLimitPlusOffset - e._counter)
  else
    none

/-- Source: `maxRowsLeftToSkip()`, which asserts `getOffset() >= _counter` and returns
`getOffset() - _counter`. -/
def LimitExecutor.maxRowsLeftToSkip {Row : Type} (e : LimitExecutor Row) : Option Nat :=
  if e.infos.getOffset ≥ e._counter then
    some (e.infos.getOffset - e._counter)
  else
    none

/-- Source: `LimitState currentState() const noexcept`, the four checks of the source
in the source's order.  `_counter + 1` is a `size_t` addition. -/
def LimitExecutor.currentState {Row : Type} (e : LimitExecutor Row) : LimitState :=
  if e._counter < e.infos.getOffset then
    LimitState.SKIPPING
  else if (e._counter + 1) % 2 ^ 64 = e.infos.getLimitPlusOffset then
    LimitState.RETURNING_LAST_ROW
  else if e._counter < e.infos.getLimitPlusOffset then
    LimitState.RETURNING
  else if e.infos.isFullCountEnabled then
    LimitState.COUNTING
  else
    LimitState.LIMIT_REACHED

/-- The executor `e` with `_counter` set to `c`: the executor after `c` input
lines have been seen. -/
def LimitExecutor.atCounter {Row : Type} (e : LimitExecutor Row) (c : Nat) :
    LimitExecutor Row :=
  { e with _counter := c }

/-- A freshly constructed `LimitExecutor`: `_counter = 0` is the member initialiser
of the header.  The constructor body is not part of the sources; the initial
values taken here for the two lookahead fields are read by nothing below. -/
def LimitExecutor.init {Row : Type} (infos : LimitExecutorInfos) (fetcher : Fetcher Row) :
    LimitExecutor Row :=
  { _infos := infos
    _fetcher := fetcher
    _lastRowToOutput := none
    _stateOfLastRowToOutput := ExecutionState.HASMORE
    _counter := 0 }

/-! ## The pull operations, modelled from the specification -/

/-- Modelled from the spec: `LimitStats` (`Aql/LimitStats.h` is not part of the
sources).  The spec's Stats is a small counter record holding the full-count
total, merged by addition. -/
structure LimitStats where
  _fullCount : Nat
deriving DecidableEq, Repr

/-- Modelled from the spec: one more row for the full-count total, counted only
when fullCount is enabled. -/
def LimitStats.incrFullCount (s : LimitStats) (enabled : Bool) : LimitStats :=
  if enabled then { _fullCount := s._fullCount + 1 } else s

/-- Modelled from the spec: merging the Stats of two calls adds the counters. -/
def LimitStats.merge (a b : LimitStats) : LimitStats :=
  { _fullCount := a._fullCount + b._fullCount }

/-- Modelled from the spec: the number of input rows the upstream still holds
(the `WAITING` rounds do not count). -/
def Fetcher.rowsLeft {Row : Type} (f : Fetcher Row) : Nat :=
  (f.pending.filter Option.isSome).length

/-- Modelled from the spec: the control state the Fetcher reports together with
a row, `DONE` when nothing is left behind it and `HASMORE` otherwise. -/
def Fetcher.stateAfterRow {Row : Type} (rest : List (Option Row)) : ExecutionState :=
  if rest.isEmpty then ExecutionState.DONE else ExecutionState.HASMORE

/-- The executor `e` whose Fetcher has the answers `pending` left to give. -/
def LimitExecutor.withPending {Row : Type} (e : LimitExecutor Row)
    (pending : List (Option Row)) : LimitExecutor Row :=
  { e with _fetcher := { pending := pending } }

/-- The statement `_counter++` of one more input line seen, on `size_t`. -/
def LimitExecutor.incrCounter {Row : Type} (e : LimitExecutor Row) : LimitExecutor Row :=
  { e with _counter := (e._counter + 1) % 2 ^ 64 }

/-- What `produceRows` hands back: the control state, the Stats of the call, the
row written to the output sink (at most one per call) and the executor after
the call. -/
structure ProduceResult (Row : Type) where
  state : ExecutionState
  stats : LimitStats
  output : Option Row
  executor : LimitExecutor Row
deriving DecidableEq, Repr

/-- What `skipRows` hands back: the control state, the Stats of the call, the
count of rows reported as skipped and the executor after the call. -/
structure SkipResult (Row : Type) where
  state : ExecutionState
  stats : LimitStats
  skipped : Nat
  executor : LimitExecutor Row
deriving DecidableEq, Repr

/-- Modelled from the spec: the body of `LimitExecutor::produceRows`
(`LimitExecutor.cpp` is not part of the sources), section 4.3 of the spec, run
on the answers `pending` of the upstream.  An empty `pending` is an exhausted
upstream (`DONE`, no row), a leading `none` is the answer `WAITING`, a leading
`some r` is the input row `r`.

* `SKIPPING`: pull and discard input rows, incrementing the counter, without
  writing output.
* `RETURNING` / `RETURNING_LAST_ROW`: pull one input row, write it to the
  output sink, increment the counter; in `RETURNING_LAST_ROW` the returned
  state is `DONE` if fullCount is disabled and `HASMORE` otherwise.
* `COUNTING`: pull and discard the remaining input rows solely to accumulate
  the full-count statistic, until the upstream is exhausted.
* `LIMIT_REACHED`: report `DONE` without touching the Fetcher.

A pull answered `WAITING` ends the call with `WAITING`.  The full-count
statistic counts the rows pulled at or past the offset.  The definition goes by
the next answer of the upstream first and by the derived state second. -/
def LimitExecutor.produceRowsLoop {Row : Type} :
    List (Option Row) → LimitExecutor Row → LimitStats → ProduceResult Row
  | [], e, stats =>
    -- the upstream is exhausted: `DONE` in every state, nothing is pulled
    { state := ExecutionState.DONE, stats := stats, output := none,
      executor := e.withPending [] }
  | none :: rest, e, stats =>
    match e.currentState with
    | LimitState.LIMIT_REACHED =>
      { state := ExecutionState.DONE, stats := stats, output := none,
        executor := e.withPending (none :: rest) }
    | _ =>
      { state := ExecutionState.WAITING, stats := stats, output := none,
        executor := e.withPending rest }
  | some r :: rest, e, stats =>
    match e.currentState with
    | LimitState.SKIPPING =>
      produceRowsLoop rest e.incrCounter stats
    | LimitState.RETURNING =>
      { state := Fetcher.stateAfterRow rest,
        stats := stats.incrFullCount e.infos.isFullCountEnabled,
        output := some r,
        executor := e.incrCounter.withPending rest }
    | LimitState.RETURNING_LAST_ROW =>
      { state := if e.infos.isFullCountEnabled then ExecutionState.HASMORE
                 else ExecutionState.DONE,
        stats := stats.incrFullCount e.infos.isFullCountEnabled,
        output := some r,
        executor := e.incrCounter.withPending rest }
    | LimitState.COUNTING =>
      produceRowsLoop rest e (stats.incrFullCount e.infos.isFullCountEnabled)
    | LimitState.LIMIT_REACHED =>
      { state := ExecutionState.DONE, stats := stats, output := none,
        executor := e.withPending (some r :: rest) }

/-- Modelled from the spec: `LimitExecutor::produceRows(output)`, one call on
the executor's own Fetcher, starting from empty Stats. -/
def LimitExecutor.produceRows {Row : Type} (e : LimitExecutor Row) : ProduceResult Row :=
  LimitExecutor.produceRowsLoop e._fetcher.pending e { _fullCount := 0 }

/-- Modelled from the spec: the body of `LimitExecutor::skipRows`
(`LimitExecutor.cpp` is not part of the sources), from the comment on its
declaration and section 4.3 of the spec, run on the answers `pending` of the
upstream; `skipped` is the count reported so far.

* First skip until the local offset (`SKIPPING`): the rows advance the counter
  and are not reported.
* Second (`RETURNING` / `RETURNING_LAST_ROW`) skip up to the number of rows
  requested, but at most up to the limit: each row advances the counter and is
  reported.
* `COUNTING` and `LIMIT_REACHED` are as in `produceRows`.

Once the requested number of rows is skipped the call ends with `HASMORE`
without pulling.  A pull answered `WAITING` ends the call with `WAITING` and the
count reported so far.  The definition goes by the next answer of the upstream
first and by the derived state second. -/
def LimitExecutor.skipRowsLoop {Row : Type} (toSkipRequested : Nat) :
    List (Option Row) → LimitExecutor Row → LimitStats → Nat → SkipResult Row
  | [], e, stats, skipped =>
    match e.currentState with
    | LimitState.RETURNING | LimitState.RETURNING_LAST_ROW =>
      { state := if skipped < toSkipRequested then ExecutionState.DONE
                 else ExecutionState.HASMORE,
        stats := stats, skipped := skipped, executor := e.withPending [] }
    | _ =>
      { state := ExecutionState.DONE, stats := stats, skipped := skipped,
        executor := e.withPending [] }
  | none :: rest, e, stats, skipped =>
    match e.currentState with
    | LimitState.LIMIT_REACHED =>
      { state := ExecutionState.DONE, stats := stats, skipped := skipped,
        executor := e.withPending (none :: rest) }
    | LimitState.RETURNING | LimitState.RETURNING_LAST_ROW =>
      if skipped < toSkipRequested then
        { state := ExecutionState.WAITING, stats := stats, skipped := skipped,
          executor := e.withPending rest }
      else
        { state := ExecutionState.HASMORE, stats := stats, skipped := skipped,
          executor := e.withPending (none :: rest) }
    | _ =>
      { state := ExecutionState.WAITING, stats := stats, skipped := skipped,
        executor := e.withPending rest }
  | some r :: rest, e, stats, skipped =>
    match e.currentState with
    | LimitState.SKIPPING =>
      skipRowsLoop toSkipRequested rest e.incrCounter stats skipped
    | LimitState.RETURNING | LimitState.RETURNING_LAST_ROW =>
      if skipped < toSkipRequested then
        skipRowsLoop toSkipRequested rest e.incrCounter
          (stats.incrFullCount e.infos.isFullCountEnabled) (skipped + 1)
      else
        { state := ExecutionState.HASMORE, stats := stats, skipped := skipped,
          executor := e.withPending (some r :: rest) }
    | LimitState.COUNTING =>
      skipRowsLoop toSkipRequested rest e
        (stats.incrFullCount e.infos.isFullCountEnabled) skipped
    | LimitState.LIMIT_REACHED =>
      { state := ExecutionState.DONE, stats := stats, skipped := skipped,
        executor := e.withPending (some r :: rest) }

/-- Modelled from the spec: `LimitExecutor::skipRows(toSkipRequested)`, one call
on the executor's own Fetcher, starting from empty Stats and a count of 0. -/
def LimitExecutor.skipRows {Row : Type} (e : LimitExecutor Row) (toSkipRequested : Nat) :
    SkipResult Row :=
  LimitExecutor.skipRowsLoop toSkipRequested e._fetcher.pending e { _fullCount := 0 } 0

/-- The executor after `n` successive `produceRows` calls. -/
def LimitExecutor.afterProduceCalls {Row : Type} : Nat → LimitExecutor Row → LimitExecutor Row
  | 0, e => e
  | n + 1, e => LimitExecutor.afterProduceCalls n e.produceRows.executor

/-- The answers of an upstream without its first `WAITING` round. -/
def dropFirstWaiting {Row : Type} : List (Option Row) → List (Option Row)
  | [] => []
  | none :: rest => rest
  | some r :: rest => some r :: dropFirstWaiting rest

/-- The value of `_counter` once `j` more input rows have been seen, following
the spec's account of the counter: a row seen while `SKIPPING`, `RETURNING` or
`RETURNING_LAST_ROW` increments the counter, a row seen while `COUNTING`
leaves it alone, and in `LIMIT_REACHED` no row is seen any more. -/
def LimitExecutor.counterAfterRows {Row : Type} : Nat → LimitExecutor Row → Nat
  | 0, e => e._counter
  | j + 1, e =>
    match e.currentState with
    | LimitState.COUNTING => e._counter
    | LimitState.LIMIT_REACHED => e._counter
    | _ => LimitExecutor.counterAfterRows j e.incrCounter

/-! ## Variants and static properties -/

/-- A variant of `currentState` with its first two checks in the other order
(the `RETURNING_LAST_ROW` check before the `SKIPPING` check).  It is not in the
source; the comment in `currentState` says the order of the first two checks
is important, and this is what the other order would compute. -/
def LimitExecutor.currentStateLastRowCheckFirst {Row : Type} (e : LimitExecutor Row) :
    LimitState :=
  if (e._counter + 1) % 2 ^ 64 = e.infos.getLimitPlusOffset then
    LimitState.RETURNING_LAST_ROW
  else if e._counter < e.infos.getOffset then
    LimitState.SKIPPING
  else if e._counter < e.infos.getLimitPlusOffset then
    LimitState.RETURNING
  else if e.infos.isFullCountEnabled then
    LimitState.COUNTING
  else
    LimitState.LIMIT_REACHED

/-- The three static members of the nested `struct Properties` that both
executors declare. -/
structure ExecutorProperties where
  preservesOrder : Bool
  allowsBlockPassthrough : Bool
  inputSizeRestrictsOutputSize : Bool
deriving DecidableEq, Repr

/-- Source: `LimitExecutor::Properties`, with `preservesOrder = true`,
`allowsBlockPassthrough = true` and `inputSizeRestrictsOutputSize = false`. -/
def LimitExecutor.Properties : ExecutorProperties :=
  { preservesOrder := true
    allowsBlockPassthrough := true
    inputSizeRestrictsOutputSize := false }

/-- Source: `using Fetcher = SingleRowFetcher<Properties::allowsBlockPassthrough>;`
in `LimitExecutor`.  The class template `SingleRowFetcher<bool>` is only forward
declared in the header and is a parameter here. -/
def LimitExecutor.FetcherVariant (SingleRowFetcher : Bool → Type) : Type :=
  SingleRowFetcher LimitExecutor.Properties.allowsBlockPassthrough

/-! ## Block passthrough, modelled from the specification -/

/-- Modelled from the spec: a block (`AqlItemBlock`, not part of the sources),
an ordered sequence of rows (section 3).  Blocks are shared by reference; `id`
stands for the identity of the physical block object, so two references are to
the identical block object exactly when their `id` agrees. -/
structure AqlItemBlock (Row : Type) where
  id : Nat
  rows : List Row
deriving DecidableEq, Repr

/-- Modelled from the spec: trimming a block to at most `n` rows.  The block
object stays the same, rows past the first `n` are cut off, and no row is
copied. -/
def AqlItemBlock.shrink {Row : Type} (b : AqlItemBlock Row) (n : Nat) : AqlItemBlock Row :=
  { b with rows := b.rows.take n }

/-- What `fetchBlockForPassthrough` hands back: the control state, the Stats
and the block reference (`SharedAqlItemBlockPtr`, `none` for `nullptr`). -/
structure PassthroughResult (Row : Type) where
  state : ExecutionState
  stats : LimitStats
  block : Option (AqlItemBlock Row)
deriving DecidableEq, Repr

/-- Modelled from the spec: the passthrough fast path of
`LimitExecutor::fetchBlockForPassthrough(atMost)` (`LimitExecutor.cpp` is not
part of the sources), sections 4.3 and 8.  `fetcherAnswer n` is what the
Fetcher's `fetchBlockForPassthrough(n)` gives back, a control state and a block
reference.

When passthrough is allowed, no lookahead row is buffered and no offset-skip is
pending, the executor asks the Fetcher for at most `maxRowsLeftToFetch()` rows
(and at most `atMost`) and hands back the upstream block, trimmed to at most
`maxRowsLeftToFetch()` rows.  A failed assertion of `maxRowsLeftToFetch` aborts
the call.  Outside the fast path the spec does not say what is handed back, and
neither does this definition (`none`); the effect of the call on the executor is
not described by the spec either and is left out. -/
def LimitExecutor.fetchBlockForPassthrough {Row : Type} (e : LimitExecutor Row) (atMost : Nat)
    (fetcherAnswer : Nat → ExecutionState × Option (AqlItemBlock Row)) :
    Option (PassthroughResult Row) :=
  if LimitExecutor.Properties.allowsBlockPassthrough = true ∧
      e._lastRowToOutput.isNone = true ∧ e.currentState ≠ LimitState.SKIPPING then
    match e.maxRowsLeftToFetch with
    | none => none
    | some left =>
      some { state := (fetcherAnswer (min atMost left)).1
             stats := { _fullCount := 0 }
             block := (fetcherAnswer (min atMost left)).2.map (fun b => b.shrink left) }
  else
    none

/-! ## The enumeration executor (`EnumerateCollectionExecutor.h`) -/

/-- Modelled from the spec: the collection behind the `Collection const*`
handle (the storage engine is an external collaborator).  `documents` are its
documents in natural order.  `anyOrder i` is the order in which the cursor
yields them the `i`-th time it is opened in random order; the random-order
contract of the spec is that this is the same multiset of documents. -/
structure Collection (Doc : Type) where
  documents : List Doc
  anyOrder : Nat → List Doc
  anyOrder_perm : ∀ i, List.Perm (anyOrder i) documents

/-- The documents a cursor yields when it is opened for the `i`-th time:
sequential order is the natural order, random order is `anyOrder i`. -/
def Collection.scan {Doc : Type} (c : Collection Doc) (random : Bool) (i : Nat) : List Doc :=
  if random then c.anyOrder i else c.documents

/-- The members of `EnumerateCollectionExecutorInfos`.  The pointers
`_engine`, `_outVariable` and `_trxPtr` are opaque handles. -/
structure EnumerateCollectionExecutorInfos (Doc : Type) where
  _engine : Nat
  _collection : Collection Doc
  _outVariable : Nat
  _trxPtr : Nat
  _projections : List String
  _coveringIndexAttributePositions : List Nat
  _outputRegisterId : Nat
  _useRawDocumentPointers : Bool
  _produceResult : Bool
  _random : Bool

/-- Source: `ExecutionEngine* getEngine() { return _engine; }` -/
def EnumerateCollectionExecutorInfos.getEngine {Doc : Type}
    (i : EnumerateCollectionExecutorInfos Doc) : Nat :=
  i._engine

/-- Source: `Collection const* getCollection() const { return _collection; }` -/
def EnumerateCollectionExecutorInfos.getCollection {Doc : Type}
    (i : EnumerateCollectionExecutorInfos Doc) : Collection Doc :=
  i._collection

/-- Source: `Variable const* getOutVariable() const { return _outVariable; }` -/
def EnumerateCollectionExecutorInfos.getOutVariable {Doc : Type}
    (i : EnumerateCollectionExecutorInfos Doc) : Nat :=
  i._outVariable

/-- Source: `getProjections() const noexcept { return _projections; }` -/
def EnumerateCollectionExecutorInfos.getProjections {Doc : Type}
    (i : EnumerateCollectionExecutorInfos Doc) : List String :=
  i._projections

/-- Source: `transaction::Methods* getTrxPtr() const { return _trxPtr; }` -/
def EnumerateCollectionExecutorInfos.getTrxPtr {Doc : Type}
    (i : EnumerateCollectionExecutorInfos Doc) : Nat :=
  i._trxPtr

/-- Source: `getCoveringIndexAttributePositions() const noexcept`, which returns
`_coveringIndexAttributePositions`. -/
def EnumerateCollectionExecutorInfos.getCoveringIndexAttributePositions {Doc : Type}
    (i : EnumerateCollectionExecutorInfos Doc) : List Nat :=
  i._coveringIndexAttributePositions

/-- Source: `bool getProduceResult() const { return _produceResult; }` -/
def EnumerateCollectionExecutorInfos.getProduceResult {Doc : Type}
    (i : EnumerateCollectionExecutorInfos Doc) : Bool :=
  i._produceResult

/-- Source: `bool getUseRawDocumentPointers() const { return _useRawDocumentPointers; }` -/
def EnumerateCollectionExecutorInfos.getUseRawDocumentPointers {Doc : Type}
    (i : EnumerateCollectionExecutorInfos Doc) : Bool :=
  i._useRawDocumentPointers

/-- Source: `bool getRandom() const { return _random; }` -/
def EnumerateCollectionExecutorInfos.getRandom {Doc : Type}
    (i : EnumerateCollectionExecutorInfos Doc) : Bool :=
  i._random

/-- Source: `RegisterId getOutputRegisterId() const { return _outputRegisterId; }` -/
def EnumerateCollectionExecutorInfos.getOutputRegisterId {Doc : Type}
    (i : EnumerateCollectionExecutorInfos Doc) : Nat :=
  i._outputRegisterId

/-- Modelled from the spec: the storage cursor (`OperationCursor`,
`Utils/OperationCursor.h` is not part of the sources), an iterator bound to one
collection.  `remaining` are the documents it will still yield; `opened` counts
how often it has been opened, which is the cursor's own state. -/
structure OperationCursor (Doc : Type) where
  remaining : List Doc
  opened : Nat
deriving DecidableEq, Repr

/-- Modelled from the spec: `hasMore()`, whether the cursor is `OPEN` (may yield
more documents) or `EXHAUSTED`. -/
def OperationCursor.hasMore {Doc : Type} (c : OperationCursor Doc) : Bool :=
  !c.remaining.isEmpty

/-- Modelled from the spec: opening a fresh cursor over the collection, in
sequential or in random order. -/
def OperationCursor.reset {Doc : Type} (c : OperationCursor Doc) (collection : Collection Doc)
    (random : Bool) : OperationCursor Doc :=
  { remaining := collection.scan random c.opened
    opened := c.opened + 1 }

/-- Modelled from the spec: `next(1)`, the next document and the cursor behind
it, or nothing when the cursor is exhausted. -/
def OperationCursor.next {Doc : Type} (c : OperationCursor Doc) :
    Option (Doc × OperationCursor Doc) :=
  match c.remaining with
  | [] => none
  | d :: rest => some (d, { c with remaining := rest })

/-- The data members of `EnumerateCollectionExecutor`: `_infos`, `_fetcher`,
`_state`, `_cursorHasMore`, `_input` and `_cursor`.  The two members of the
document-producing helper (`_documentProducer`,
`_documentProducingFunctionContext`) decide what is written into the output
register, not which rows are emitted, and are left out. -/
structure EnumerateCollectionExecutor (Row Doc : Type) where
  _infos : EnumerateCollectionExecutorInfos Doc
  _fetcher : Fetcher Row
  _state : ExecutionState
  _cursorHasMore : Bool
  _input : Option Row
  _cursor : OperationCursor Doc

/-- A freshly constructed `EnumerateCollectionExecutor`: no input row, no open
cursor.  The constructor body is not part of the sources. -/
def EnumerateCollectionExecutor.init {Row Doc : Type}
    (infos : EnumerateCollectionExecutorInfos Doc) (fetcher : Fetcher Row) :
    EnumerateCollectionExecutor Row Doc :=
  { _infos := infos
    _fetcher := fetcher
    _state := ExecutionState.HASMORE
    _cursorHasMore := false
    _input := none
    _cursor := { remaining := [], opened := 0 } }

/-- Source: `EnumerateCollectionExecutor::Properties`, with
`preservesOrder = true`, `allowsBlockPassthrough = false` and
`inputSizeRestrictsOutputSize = false`. -/
def EnumerateCollectionExecutor.Properties : ExecutorProperties :=
  { preservesOrder := true
    allowsBlockPassthrough := false
    inputSizeRestrictsOutputSize := false }

/-- Source: `using Fetcher = SingleRowFetcher<Properties::allowsBlockPassthrough>;`
in `EnumerateCollectionExecutor`, over the same class template parameter. -/
def EnumerateCollectionExecutor.FetcherVariant (SingleRowFetcher : Bool → Type) : Type :=
  SingleRowFetcher EnumerateCollectionExecutor.Properties.allowsBlockPassthrough

/-- Source: `bool waitForSatellites(ExecutionEngine* engine, Collection const*
collection) const;`.  The body is not part of the sources: the answer of the
readiness check is the parameter `inSync`.  The member is `const`, so the
executor it hands back is the executor it was called on. -/
def EnumerateCollectionExecutor.waitForSatellites {Row Doc : Type}
    (e : EnumerateCollectionExecutor Row Doc) (_engine : Nat) (_collection : Collection Doc)
    (inSync : Bool) : Bool × EnumerateCollectionExecutor Row Doc :=
  (inSync, e)

/-- Modelled from the spec: `initializeCursor()` binds the executor to the
current input row and opens a fresh cursor, discarding any previous cursor
(section 4.4). -/
def EnumerateCollectionExecutor.initializeCursor {Row Doc : Type}
    (e : EnumerateCollectionExecutor Row Doc) : EnumerateCollectionExecutor Row Doc :=
  { e with
    _cursor := e._cursor.reset e._infos.getCollection e._infos.getRandom
    _cursorHasMore := (e._cursor.reset e._infos.getCollection e._infos.getRandom).hasMore }

/-- What `produceRows` of the enumeration executor hands back: the control
state, the output row written (the input row joined with one document, at most
one per call) and the executor after the call.  The Stats of the call, of which
the spec says nothing for this executor, are left out. -/
structure EnumerateProduceResult (Row Doc : Type) where
  state : ExecutionState
  output : Option (Row × Doc)
  executor : EnumerateCollectionExecutor Row Doc

/-- Modelled from the spec: a produce call with an open cursor advances the
cursor by one document and emits the input row joined with it.  The call
reports `HASMORE` while the cursor has more, and the state of the upstream once
the cursor is exhausted. -/
def EnumerateCollectionExecutor.produceDocument {Row Doc : Type}
    (e : EnumerateCollectionExecutor Row Doc) : EnumerateProduceResult Row Doc :=
  match e._input, e._cursor.next with
  | some row, some (doc, cursor) =>
    { state := if cursor.hasMore then ExecutionState.HASMORE else e._state
      output := some (row, doc)
      executor := { e with _cursor := cursor, _cursorHasMore := cursor.hasMore } }
  | _, _ =>
    { state := e._state, output := none, executor := { e with _cursorHasMore := false } }

/-- Modelled from the spec: `EnumerateCollectionExecutor::produceRows(output)`
(`EnumerateCollectionExecutor.cpp` is not part of the sources), section 4.4.

* With an open cursor the call advances it by one document.
* When the cursor is exhausted the executor must open a cursor for a new input
  row.  Before opening a cursor it confirms that the replicated copies are ready
  (`waitForSatellites`); if they are not, the call returns `WAITING`.  Then it
  pulls a new input row: an exhausted upstream is `DONE`, an upstream answering
  `WAITING` is `WAITING`, and a row is bound by `initializeCursor`, after which
  the first document, when there is one, is emitted. -/
def EnumerateCollectionExecutor.produceRows {Row Doc : Type}
    (e : EnumerateCollectionExecutor Row Doc) (inSync : Bool) :
    EnumerateProduceResult Row Doc :=
  if e._cursorHasMore then
    e.produceDocument
  else
    match e.waitForSatellites e._infos.getEngine e._infos.getCollection inSync with
    | (false, e1) =>
      { state := ExecutionState.WAITING, output := none, executor := e1 }
    | (true, e1) =>
      match e1._fetcher.pending with
      | [] =>
        { state := ExecutionState.DONE, output := none, executor := e1 }
      | none :: rest =>
        { state := ExecutionState.WAITING, output := none,
          executor := { e1 with _fetcher := { pending := rest } } }
      | some row :: rest =>
        if (EnumerateCollectionExecutor.initializeCursor
            { e1 with _fetcher := { pending := rest }
                      _state := Fetcher.stateAfterRow rest
                      _input := some row })._cursorHasMore then
          (EnumerateCollectionExecutor.initializeCursor
            { e1 with _fetcher := { pending := rest }
                      _state := Fetcher.stateAfterRow rest
                      _input := some row }).produceDocument
        else
          { state := Fetcher.stateAfterRow rest, output := none,
            executor := EnumerateCollectionExecutor.initializeCursor
              { e1 with _fetcher := { pending := rest }
                        _state := Fetcher.stateAfterRow rest
                        _input := some row } }

/-- The driver of section 2: it calls `produceRows` again on `HASMORE` and on
`WAITING` and stops calling on `DONE`, for at most `calls` calls, with the
replicated copies ready.  It gives the output rows in the order written and the
last control state (`HASMORE` when the calls ran out before `DONE`). -/
def EnumerateCollectionExecutor.drive {Row Doc : Type} :
    Nat → EnumerateCollectionExecutor Row Doc → List (Row × Doc) × ExecutionState
  | 0, _ => ([], ExecutionState.HASMORE)
  | calls + 1, e =>
    match (e.produceRows true).state with
    | ExecutionState.DONE => ((e.produceRows true).output.toList, ExecutionState.DONE)
    | _ =>
      ((e.produceRows true).output.toList ++
          (EnumerateCollectionExecutor.drive calls (e.produceRows true).executor).1,
        (EnumerateCollectionExecutor.drive calls (e.produceRows true).executor).2)

/-- The input rows the upstream will give, in order. -/
def Fetcher.rows {Row : Type} (f : Fetcher Row) : List Row :=
  f.pending.filterMap id

/-- The output the enumeration is to give for the answers `pending` of the
upstream when the next cursor is the `i`-th to be opened: for each input row in
turn, the row joined with each document the cursor opened for it yields. -/
def joinWithDocuments {Row Doc : Type} (scan : Nat → List Doc) :
    Nat → List (Option Row) → List (Row × Doc)
  | _, [] => []
  | i, none :: rest => joinWithDocuments scan i rest
  | i, some row :: rest => (scan i).map (fun d => (row, d)) ++ joinWithDocuments scan (i + 1) rest

/-- The output still to come from the executor `e`: what is left of the open
cursor, then the join for the rows still upstream. -/
def EnumerateCollectionExecutor.outputToCome {Row Doc : Type}
    (e : EnumerateCollectionExecutor Row Doc) : List (Row × Doc) :=
  (match e._cursorHasMore, e._input with
    | true, some row => e._cursor.remaining.map (fun d => (row, d))
    | _, _ => []) ++
  joinWithDocuments (e._infos.getCollection.scan e._infos.getRandom) e._cursor.opened
    e._fetcher.pending

/-! ## Sample values -/

/-- A collection of two documents with a random order that swaps them. -/
def sampleCollection : Collection Nat :=
  { documents := [7, 8]
    anyOrder := fun _ => [8, 7]
    anyOrder_perm := fun _ => List.Perm.swap 7 8 [] }

/-- The configuration of an enumeration over `sampleCollection`. -/
def sampleInfos (random : Bool) : EnumerateCollectionExecutorInfos Nat :=
  { _engine := 0
    _collection := sampleCollection
    _outVariable := 0
    _trxPtr := 0
    _projections := []
    _coveringIndexAttributePositions := []
    _outputRegisterId := 1
    _useRawDocumentPointers := false
    _produceResult := true
    _random := random }

/-- The invariant of the modelled enumeration executor: while `_cursorHasMore`
is set, the executor is bound to an input row, its cursor has a document left,
and an upstream that was reported `DONE` has nothing left to give. -/
def EnumerateCollectionExecutor.Consistent {Row Doc : Type}
    (e : EnumerateCollectionExecutor Row Doc) : Prop :=
  e._cursorHasMore = true →
    (e._input.isSome = true ∧ e._cursor.remaining ≠ [] ∧
      (e._state = ExecutionState.DONE → e._fetcher.pending = []))

/-! ## The order of the derived states -/

/-- The ranking of the derived states by the progress of the counter:
`SKIPPING < RETURNING < RETURNING_LAST_ROW < COUNTING = LIMIT_REACHED`.  It is
a measure for stating how `currentState` moves as `_counter` grows, not a
member of the source. -/
def LimitState.rank : LimitState → Nat
  | LimitState.SKIPPING => 0
  | LimitState.RETURNING => 1
  | LimitState.RETURNING_LAST_ROW => 2
  | LimitState.COUNTING => 3
  | LimitState.LIMIT_REACHED => 3

/-! ## Runs of the limiting executor -/

/-- Modelled from the spec: the driver of section 2 on the limiting executor.
It invokes `produceRows` for at most `calls` calls; it calls again on `HASMORE`
and on `WAITING` and stops calling on `DONE`.  It gives what each call handed
back, in the order of the calls. -/
def LimitExecutor.run {Row : Type} : Nat → LimitExecutor Row → List (ProduceResult Row)
  | 0, _ => []
  | calls + 1, e =>
    if e.produceRows.state = ExecutionState.DONE then [e.produceRows]
    else e.produceRows :: LimitExecutor.run calls e.produceRows.executor

/-- The rows a sequence of calls wrote to the output sink, in the order
written. -/
def emittedRows {Row : Type} (results : List (ProduceResult Row)) : List Row :=
  results.filterMap (fun r => r.output)

/-- The Stats of a sequence of calls, merged into one total. -/
def mergedStats {Row : Type} : List (ProduceResult Row) → LimitStats
  | [] => { _fullCount := 0 }
  | r :: rest => r.stats.merge (mergedStats rest)

/-- Of the input rows `rows` still upstream, the rows the limiting executor is
to write when its counter is `counter`: what is left of the offset is dropped,
and what is left of the limit is taken. -/
def rowsInWindow {Row : Type} (offset limit counter : Nat) (rows : List Row) : List Row :=
  (rows.drop (offset - counter)).take (offset + limit - max counter offset)

/-- What the input rows `rows` still upstream are to add to the full-count
statistic when the counter is `counter`: every row past what is left of the
offset, when fullCount is enabled. -/
def fullCountInWindow {Row : Type} (offset counter : Nat) (fullCount : Bool)
    (rows : List Row) : Nat :=
  if fullCount then rows.length - (offset - counter) else 0

/-- A call of the driver on the limiting executor: `produceRows(output)` or
`skipRows(toSkipRequested)`. -/
inductive LimitCall where
  | produceRows
  | skipRows (toSkipRequested : Nat)
deriving DecidableEq, Repr

/-- The executor after one call of the driver. -/
def LimitExecutor.afterCall {Row : Type} (e : LimitExecutor Row) : LimitCall → LimitExecutor Row
  | LimitCall.produceRows => e.produceRows.executor
  | LimitCall.skipRows toSkipRequested => (e.skipRows toSkipRequested).executor

/-- The executor after a sequence of calls of the driver, first call first. -/
def LimitExecutor.afterCalls {Row : Type} :
    List LimitCall → LimitExecutor Row → LimitExecutor Row
  | [], e => e
  | call :: rest, e => LimitExecutor.afterCalls rest (e.afterCall call)

/-- An upstream of seven input rows with two `WAITING` rounds among its
answers. -/
def sampleUpstream : List (Option Nat) :=
  [some 10, some 11, none, some 12, some 13, some 14, none, some 15, some 16]

/-! ## General lemmas -/

section Lemmas

variable {Row : Type}

theorem currentState_unfold (e : LimitExecutor Row) :
    e.currentState =
      if e._counter < e._infos._offset then LimitState.SKIPPING
      else if (e._counter + 1) % 2 ^ 64 = (e._infos._offset + e._infos._limit) % 2 ^ 64 then
        LimitState.RETURNING_LAST_ROW
      else if e._counter < (e._infos._offset + e._infos._limit) % 2 ^ 64 then
        LimitState.RETURNING
      else if e._infos._fullCount then LimitState.COUNTING
      else LimitState.LIMIT_REACHED := rfl

/-- The counters below `N` that lie in the window `[a, b)` are, in increasing
order, `a, a + 1, ...`, and there are `min b N - a` of them. -/
theorem filter_range_window (a b N : Nat) :
    (List.range N).filter (fun c => decide (a ≤ c ∧ c < b)) =
      List.range' a (min b N - a) := by
  induction N with
  | zero => simp
  | succ n ih =>
    rw [List.range_succ, List.filter_append, ih]
    by_cases h : a ≤ n ∧ n < b
    · have h1 : min b n - a = n - a := by omega
      have h2 : min b (n + 1) - a = (n - a) + 1 := by omega
      rw [h1, h2, List.range'_concat]
      simp [h]
    · have h1 : min b (n + 1) - a = min b n - a := by omega
      rw [h1]
      simp [h]

/-- When neither `_counter + 1` nor `_offset + _limit` wraps, the checks of
`currentState` compare the exact sums. -/
theorem currentState_exact (e : LimitExecutor Row)
    (hc : e._counter + 1 < 2 ^ 64) (hs : e._infos._offset + e._infos._limit < 2 ^ 64) :
    e.currentState =
      if e._counter < e._infos._offset then LimitState.SKIPPING
      else if e._counter + 1 = e._infos._offset + e._infos._limit then
        LimitState.RETURNING_LAST_ROW
      else if e._counter < e._infos._offset + e._infos._limit then LimitState.RETURNING
      else if e._infos._fullCount then LimitState.COUNTING
      else LimitState.LIMIT_REACHED := by
  rw [currentState_unfold, Nat.mod_eq_of_lt hc, Nat.mod_eq_of_lt hs]

@[simp] theorem atCounter_counter (e : LimitExecutor Row) (c : Nat) :
    (e.atCounter c)._counter = c := rfl

@[simp] theorem atCounter_infos (e : LimitExecutor Row) (c : Nat) :
    (e.atCounter c)._infos = e._infos := rfl

/-- Without wraparound a row is being returned exactly in the window
`[_offset, _offset + _limit)`. -/
theorem returning_iff_window (e : LimitExecutor Row)
    (hc : e._counter + 1 < 2 ^ 64) (hs : e._infos._offset + e._infos._limit < 2 ^ 64) :
    (e.currentState = LimitState.RETURNING ∨ e.currentState = LimitState.RETURNING_LAST_ROW) ↔
      (e._infos._offset ≤ e._counter ∧ e._counter < e._infos._offset + e._infos._limit) := by
  rw [currentState_exact e hc hs]
  split_ifs <;> simp <;> omega


/-! ### Steps of the modelled loops -/

@[simp] theorem withPending_currentState (e : LimitExecutor Row) (q : List (Option Row)) :
    (e.withPending q).currentState = e.currentState := rfl

@[simp] theorem withPending_withPending (e : LimitExecutor Row) (p q : List (Option Row)) :
    (e.withPending p).withPending q = e.withPending q := rfl

@[simp] theorem withPending_counter (e : LimitExecutor Row) (q : List (Option Row)) :
    (e.withPending q)._counter = e._counter := rfl

@[simp] theorem withPending_infos (e : LimitExecutor Row) (q : List (Option Row)) :
    (e.withPending q)._infos = e._infos := rfl

@[simp] theorem withPending_pending (e : LimitExecutor Row) (q : List (Option Row)) :
    (e.withPending q)._fetcher.pending = q := rfl

@[simp] theorem incrCounter_infos (e : LimitExecutor Row) :
    e.incrCounter._infos = e._infos := rfl

theorem incrCounter_counter (e : LimitExecutor Row) (h : e._counter + 1 < 2 ^ 64) :
    e.incrCounter._counter = e._counter + 1 := by
  show (e._counter + 1) % 2 ^ 64 = e._counter + 1
  exact Nat.mod_eq_of_lt h

theorem produceRowsLoop_nil (e : LimitExecutor Row) (st : LimitStats) :
    LimitExecutor.produceRowsLoop [] e st =
      { state := ExecutionState.DONE, stats := st, output := none,
        executor := e.withPending [] } := by
  rw [LimitExecutor.produceRowsLoop]

theorem produceRowsLoop_limit (p : List (Option Row)) (e : LimitExecutor Row) (st : LimitStats)
    (h : e.currentState = LimitState.LIMIT_REACHED) :
    LimitExecutor.produceRowsLoop p e st =
      { state := ExecutionState.DONE, stats := st, output := none,
        executor := e.withPending p } := by
  match p with
  | [] => rw [LimitExecutor.produceRowsLoop]
  | none :: rest => rw [LimitExecutor.produceRowsLoop, h]
  | some r :: rest => rw [LimitExecutor.produceRowsLoop, h]

theorem produceRowsLoop_waiting (rest : List (Option Row)) (e : LimitExecutor Row)
    (st : LimitStats) (h : e.currentState ≠ LimitState.LIMIT_REACHED) :
    LimitExecutor.produceRowsLoop (none :: rest) e st =
      { state := ExecutionState.WAITING, stats := st, output := none,
        executor := e.withPending rest } := by
  rw [LimitExecutor.produceRowsLoop]
  revert h
  cases e.currentState <;> simp

theorem produceRowsLoop_skipping (r : Row) (rest : List (Option Row)) (e : LimitExecutor Row)
    (st : LimitStats) (h : e.currentState = LimitState.SKIPPING) :
    LimitExecutor.produceRowsLoop (some r :: rest) e st =
      LimitExecutor.produceRowsLoop rest e.incrCounter st := by
  rw [LimitExecutor.produceRowsLoop, h]

theorem produceRowsLoop_counting (r : Row) (rest : List (Option Row)) (e : LimitExecutor Row)
    (st : LimitStats) (h : e.currentState = LimitState.COUNTING) :
    LimitExecutor.produceRowsLoop (some r :: rest) e st =
      LimitExecutor.produceRowsLoop rest e (st.incrFullCount e._infos._fullCount) := by
  rw [LimitExecutor.produceRowsLoop, h]
  rfl

theorem produceRowsLoop_returning (r : Row) (rest : List (Option Row)) (e : LimitExecutor Row)
    (st : LimitStats) (h : e.currentState = LimitState.RETURNING) :
    LimitExecutor.produceRowsLoop (some r :: rest) e st =
      { state := Fetcher.stateAfterRow rest,
        stats := st.incrFullCount e._infos._fullCount,
        output := some r,
        executor := e.incrCounter.withPending rest } := by
  rw [LimitExecutor.produceRowsLoop, h]
  rfl

theorem produceRowsLoop_last_row (r : Row) (rest : List (Option Row)) (e : LimitExecutor Row)
    (st : LimitStats) (h : e.currentState = LimitState.RETURNING_LAST_ROW) :
    LimitExecutor.produceRowsLoop (some r :: rest) e st =
      { state := if e._infos._fullCount then ExecutionState.HASMORE else ExecutionState.DONE,
        stats := st.incrFullCount e._infos._fullCount,
        output := some r,
        executor := e.incrCounter.withPending rest } := by
  rw [LimitExecutor.produceRowsLoop, h]
  rfl

/-- On an exhausted upstream `skipRows` pulls nothing and does not wait. -/
theorem skipRowsLoop_nil (k : Nat) (e : LimitExecutor Row) (st : LimitStats)
    (sk : Nat) :
    (LimitExecutor.skipRowsLoop k [] e st sk).executor = e.withPending [] ∧
    (LimitExecutor.skipRowsLoop k [] e st sk).skipped = sk ∧
    (LimitExecutor.skipRowsLoop k [] e st sk).stats = st ∧
    (LimitExecutor.skipRowsLoop k [] e st sk).state ≠ ExecutionState.WAITING := by
  rw [LimitExecutor.skipRowsLoop]
  cases e.currentState <;> simp <;> split_ifs <;> simp

theorem skipRowsLoop_limit (k : Nat) (p : List (Option Row)) (e : LimitExecutor Row)
    (st : LimitStats) (sk : Nat) (h : e.currentState = LimitState.LIMIT_REACHED) :
    LimitExecutor.skipRowsLoop k p e st sk =
      { state := ExecutionState.DONE, stats := st, skipped := sk,
        executor := e.withPending p } := by
  match p with
  | [] => rw [LimitExecutor.skipRowsLoop, h]
  | none :: rest => rw [LimitExecutor.skipRowsLoop, h]
  | some r :: rest => rw [LimitExecutor.skipRowsLoop, h]

/-- In `RETURNING` and `RETURNING_LAST_ROW`, once the requested number of rows
is skipped, the call ends without pulling. -/
theorem skipRowsLoop_enough (k : Nat) (p : List (Option Row)) (e : LimitExecutor Row)
    (st : LimitStats) (sk : Nat)
    (h : e.currentState = LimitState.RETURNING ∨
      e.currentState = LimitState.RETURNING_LAST_ROW) (hk : ¬ sk < k) :
    LimitExecutor.skipRowsLoop k p e st sk =
      { state := ExecutionState.HASMORE, stats := st, skipped := sk,
        executor := e.withPending p } := by
  match p with
  | [] => rcases h with h | h <;> rw [LimitExecutor.skipRowsLoop, h] <;> simp [hk]
  | none :: rest => rcases h with h | h <;> rw [LimitExecutor.skipRowsLoop, h] <;> simp [hk]
  | some r :: rest => rcases h with h | h <;> rw [LimitExecutor.skipRowsLoop, h] <;> simp [hk]

/-- A `WAITING` answer ends `skipRows` with `WAITING` and the count so far,
unless the call ends without pulling. -/
theorem skipRowsLoop_waiting (k : Nat) (rest : List (Option Row)) (e : LimitExecutor Row)
    (st : LimitStats) (sk : Nat)
    (h : e.currentState = LimitState.SKIPPING ∨ e.currentState = LimitState.COUNTING ∨
      ((e.currentState = LimitState.RETURNING ∨
        e.currentState = LimitState.RETURNING_LAST_ROW) ∧ sk < k)) :
    LimitExecutor.skipRowsLoop k (none :: rest) e st sk =
      { state := ExecutionState.WAITING, stats := st, skipped := sk,
        executor := e.withPending rest } := by
  rw [LimitExecutor.skipRowsLoop]
  rcases h with h | h | ⟨h | h, hk⟩ <;> rw [h] <;> simp [hk]

theorem skipRowsLoop_skipping (k : Nat) (r : Row) (rest : List (Option Row))
    (e : LimitExecutor Row) (st : LimitStats) (sk : Nat)
    (h : e.currentState = LimitState.SKIPPING) :
    LimitExecutor.skipRowsLoop k (some r :: rest) e st sk =
      LimitExecutor.skipRowsLoop k rest e.incrCounter st sk := by
  rw [LimitExecutor.skipRowsLoop, h]

theorem skipRowsLoop_counting (k : Nat) (r : Row) (rest : List (Option Row))
    (e : LimitExecutor Row) (st : LimitStats) (sk : Nat)
    (h : e.currentState = LimitState.COUNTING) :
    LimitExecutor.skipRowsLoop k (some r :: rest) e st sk =
      LimitExecutor.skipRowsLoop k rest e (st.incrFullCount e._infos._fullCount) sk := by
  rw [LimitExecutor.skipRowsLoop, h]
  rfl

theorem skipRowsLoop_reporting (k : Nat) (r : Row) (rest : List (Option Row))
    (e : LimitExecutor Row) (st : LimitStats) (sk : Nat)
    (h : e.currentState = LimitState.RETURNING ∨
      e.currentState = LimitState.RETURNING_LAST_ROW) (hk : sk < k) :
    LimitExecutor.skipRowsLoop k (some r :: rest) e st sk =
      LimitExecutor.skipRowsLoop k rest e.incrCounter
        (st.incrFullCount e._infos._fullCount) (sk + 1) := by
  rw [LimitExecutor.skipRowsLoop]
  rcases h with h | h <;> rw [h] <;> simp [hk] <;> rfl


/-! ### What the modelled loops preserve -/

@[simp] theorem rowsLeft_nil : Fetcher.rowsLeft ({ pending := [] } : Fetcher Row) = 0 := rfl

@[simp] theorem rowsLeft_cons_none (rest : List (Option Row)) :
    Fetcher.rowsLeft { pending := none :: rest } = Fetcher.rowsLeft { pending := rest } := by
  simp [Fetcher.rowsLeft]

@[simp] theorem rowsLeft_cons_some (r : Row) (rest : List (Option Row)) :
    Fetcher.rowsLeft { pending := some r :: rest } =
      Fetcher.rowsLeft { pending := rest } + 1 := by
  simp [Fetcher.rowsLeft]

@[simp] theorem withPending_rowsLeft (e : LimitExecutor Row) (q : List (Option Row)) :
    (e.withPending q)._fetcher.rowsLeft = Fetcher.rowsLeft { pending := q } := rfl

/-- The derived state reads only `_infos` and `_counter`. -/
theorem currentState_congr (e1 e2 : LimitExecutor Row) (hi : e1._infos = e2._infos)
    (hc : e1._counter = e2._counter) : e1.currentState = e2.currentState := by
  rw [currentState_unfold, currentState_unfold, hi, hc]

theorem counterAfterRows_congr (j : Nat) (e1 e2 : LimitExecutor Row)
    (hi : e1._infos = e2._infos) (hc : e1._counter = e2._counter) :
    e1.counterAfterRows j = e2.counterAfterRows j := by
  induction j generalizing e1 e2 with
  | zero => exact hc
  | succ j ih =>
    rw [LimitExecutor.counterAfterRows, LimitExecutor.counterAfterRows,
      currentState_congr e1 e2 hi hc]
    have h := ih e1.incrCounter e2.incrCounter hi
      (by show (e1._counter + 1) % 2 ^ 64 = (e2._counter + 1) % 2 ^ 64; rw [hc])
    cases e2.currentState <;> simp only [hc, h]

/-- In `COUNTING` and `LIMIT_REACHED` the counter stays where it is. -/
theorem counterAfterRows_terminal (j : Nat) (e : LimitExecutor Row)
    (h : e.currentState = LimitState.COUNTING ∨ e.currentState = LimitState.LIMIT_REACHED) :
    e.counterAfterRows j = e._counter := by
  cases j with
  | zero => rfl
  | succ j => rcases h with h | h <;> rw [LimitExecutor.counterAfterRows, h]

/-- In `SKIPPING`, `RETURNING` and `RETURNING_LAST_ROW` one more row is one
more `_counter++`. -/
theorem counterAfterRows_step (j : Nat) (e : LimitExecutor Row)
    (h : e.currentState = LimitState.SKIPPING ∨ e.currentState = LimitState.RETURNING ∨
      e.currentState = LimitState.RETURNING_LAST_ROW) :
    e.counterAfterRows (j + 1) = e.incrCounter.counterAfterRows j := by
  rcases h with h | h | h <;> rw [LimitExecutor.counterAfterRows, h]

/-- Seeing `a + b` rows is seeing `a` rows and then `b` rows. -/
theorem counterAfterRows_add (a b : Nat) (e : LimitExecutor Row) :
    e.counterAfterRows (a + b) = (e.atCounter (e.counterAfterRows a)).counterAfterRows b := by
  induction a generalizing e with
  | zero =>
    rw [Nat.zero_add]
    exact counterAfterRows_congr b _ _ rfl rfl
  | succ a ih =>
    have hab : a + 1 + b = (a + b) + 1 := by omega
    rw [hab]
    cases hst : e.currentState with
    | COUNTING =>
      rw [counterAfterRows_terminal _ e (Or.inl hst), counterAfterRows_terminal _ e (Or.inl hst)]
      exact (counterAfterRows_terminal b _
        (by rw [← hst]; exact Or.inl (currentState_congr _ _ rfl rfl))).symm
    | LIMIT_REACHED =>
      rw [counterAfterRows_terminal _ e (Or.inr hst), counterAfterRows_terminal _ e (Or.inr hst)]
      exact (counterAfterRows_terminal b _
        (by rw [← hst]; exact Or.inr (currentState_congr _ _ rfl rfl))).symm
    | SKIPPING =>
      rw [counterAfterRows_step _ e (Or.inl hst), counterAfterRows_step _ e (Or.inl hst), ih]
      exact counterAfterRows_congr b _ _ rfl rfl
    | RETURNING =>
      rw [counterAfterRows_step _ e (Or.inr (Or.inl hst)),
        counterAfterRows_step _ e (Or.inr (Or.inl hst)), ih]
      exact counterAfterRows_congr b _ _ rfl rfl
    | RETURNING_LAST_ROW =>
      rw [counterAfterRows_step _ e (Or.inr (Or.inr hst)),
        counterAfterRows_step _ e (Or.inr (Or.inr hst)), ih]
      exact counterAfterRows_congr b _ _ rfl rfl

/-- One run of the `produceRows` loop changes only `_counter` and the Fetcher;
it consumes answers from the front of the upstream, and the counter after it is
the counter after the rows it consumed. -/
theorem produceRowsLoop_inv (p : List (Option Row)) (e : LimitExecutor Row) (st : LimitStats) :
    (LimitExecutor.produceRowsLoop p e st).executor._infos = e._infos ∧
    (LimitExecutor.produceRowsLoop p e st).executor._fetcher.rowsLeft ≤
      Fetcher.rowsLeft { pending := p } ∧
    (LimitExecutor.produceRowsLoop p e st).executor._fetcher.pending.length ≤ p.length ∧
    (LimitExecutor.produceRowsLoop p e st).executor._counter =
      e.counterAfterRows (Fetcher.rowsLeft { pending := p } -
        (LimitExecutor.produceRowsLoop p e st).executor._fetcher.rowsLeft) := by
  induction p generalizing e st with
  | nil =>
    rw [produceRowsLoop_nil]
    simp [LimitExecutor.counterAfterRows]
  | cons a rest ih =>
    cases a with
    | none =>
      by_cases h : e.currentState = LimitState.LIMIT_REACHED
      · rw [produceRowsLoop_limit _ _ _ h]
        simp [LimitExecutor.counterAfterRows]
      · rw [produceRowsLoop_waiting _ _ _ h]
        simp [LimitExecutor.counterAfterRows]
    | some r =>
      cases hst : e.currentState with
      | LIMIT_REACHED =>
        rw [produceRowsLoop_limit _ _ _ hst]
        simp [LimitExecutor.counterAfterRows]
      | SKIPPING =>
        rw [produceRowsLoop_skipping _ _ _ _ hst]
        obtain ⟨h1, h2, h3, h4⟩ := ih e.incrCounter st
        refine ⟨h1, ?_, by simp only [List.length_cons]; omega, ?_⟩
        · rw [rowsLeft_cons_some]; omega
        · rw [rowsLeft_cons_some, h4]
          have : Fetcher.rowsLeft { pending := rest } + 1 -
              (LimitExecutor.produceRowsLoop rest e.incrCounter st).executor._fetcher.rowsLeft =
              (Fetcher.rowsLeft { pending := rest } -
              (LimitExecutor.produceRowsLoop rest e.incrCounter st).executor._fetcher.rowsLeft) + 1 := by
            omega
          rw [this, counterAfterRows_step _ e (Or.inl hst)]
      | COUNTING =>
        rw [produceRowsLoop_counting _ _ _ _ hst]
        obtain ⟨h1, h2, h3, h4⟩ := ih e (st.incrFullCount e._infos._fullCount)
        refine ⟨h1, ?_, by simp only [List.length_cons]; omega, ?_⟩
        · rw [rowsLeft_cons_some]; omega
        · rw [h4, counterAfterRows_terminal _ e (Or.inl hst),
            counterAfterRows_terminal _ e (Or.inl hst)]
      | RETURNING =>
        rw [produceRowsLoop_returning _ _ _ _ hst]
        refine ⟨rfl, by simp, by simp, ?_⟩
        simp only [withPending_counter, withPending_rowsLeft, rowsLeft_cons_some,
          Nat.add_sub_cancel_left]
        rw [counterAfterRows_step 0 e (Or.inr (Or.inl hst))]
        rfl
      | RETURNING_LAST_ROW =>
        rw [produceRowsLoop_last_row _ _ _ _ hst]
        refine ⟨rfl, by simp, by simp, ?_⟩
        simp only [withPending_counter, withPending_rowsLeft, rowsLeft_cons_some,
          Nat.add_sub_cancel_left]
        rw [counterAfterRows_step 0 e (Or.inr (Or.inr hst))]
        rfl


/-- What each derived state says about the counter when `_counter + 1` does not
wrap; `getLimitPlusOffset` is the `size_t` sum. -/
theorem currentState_facts (e : LimitExecutor Row) (hc : e._counter + 1 < 2 ^ 64) :
    (e.currentState = LimitState.SKIPPING → e._counter < e._infos._offset) ∧
    (e.currentState = LimitState.RETURNING →
      e._infos._offset ≤ e._counter ∧ e._counter + 1 < e._infos.getLimitPlusOffset) ∧
    (e.currentState = LimitState.RETURNING_LAST_ROW →
      e._infos._offset ≤ e._counter ∧ e._counter + 1 = e._infos.getLimitPlusOffset) ∧
    (e.currentState = LimitState.COUNTING →
      e._infos._offset ≤ e._counter ∧ e._infos.getLimitPlusOffset ≤ e._counter) ∧
    (e.currentState = LimitState.LIMIT_REACHED →
      e._infos._offset ≤ e._counter ∧ e._infos.getLimitPlusOffset ≤ e._counter) := by
  have hmod : (e._counter + 1) % 2 ^ 64 = e._counter + 1 := Nat.mod_eq_of_lt hc
  rw [currentState_unfold, hmod]
  show _ ∧ (_ → _ ∧ _ < (e._infos._offset + e._infos._limit) % 2 ^ 64) ∧
    (_ → _ ∧ _ = (e._infos._offset + e._infos._limit) % 2 ^ 64) ∧
    (_ → _ ∧ (e._infos._offset + e._infos._limit) % 2 ^ 64 ≤ _) ∧
    (_ → _ ∧ (e._infos._offset + e._infos._limit) % 2 ^ 64 ≤ _)
  generalize (e._infos._offset + e._infos._limit) % 2 ^ 64 = s
  split_ifs <;> simp <;> omega

/-- One run of the `skipRows` loop changes only `_counter` and the Fetcher; it
consumes answers from the front of the upstream, and the counter after it is the
counter after the rows it consumed. -/
theorem skipRowsLoop_inv (k : Nat) (p : List (Option Row)) (e : LimitExecutor Row)
    (st : LimitStats) (sk : Nat) :
    (LimitExecutor.skipRowsLoop k p e st sk).executor._infos = e._infos ∧
    (LimitExecutor.skipRowsLoop k p e st sk).executor._fetcher.rowsLeft ≤
      Fetcher.rowsLeft { pending := p } ∧
    (LimitExecutor.skipRowsLoop k p e st sk).executor._fetcher.pending.length ≤ p.length ∧
    (LimitExecutor.skipRowsLoop k p e st sk).executor._counter =
      e.counterAfterRows (Fetcher.rowsLeft { pending := p } -
        (LimitExecutor.skipRowsLoop k p e st sk).executor._fetcher.rowsLeft) := by
  induction p generalizing e st sk with
  | nil =>
    rw [(skipRowsLoop_nil k e st sk).1]
    simp [LimitExecutor.counterAfterRows]
  | cons a rest ih =>
    cases hst : e.currentState with
    | LIMIT_REACHED =>
      rw [skipRowsLoop_limit _ _ _ _ _ hst]
      simp [LimitExecutor.counterAfterRows]
    | SKIPPING =>
      cases a with
      | none =>
        rw [skipRowsLoop_waiting _ _ _ _ _ (Or.inl hst)]
        simp [LimitExecutor.counterAfterRows]
      | some r =>
        rw [skipRowsLoop_skipping _ _ _ _ _ _ hst]
        obtain ⟨h1, h2, h3, h4⟩ := ih e.incrCounter st sk
        refine ⟨h1, ?_, by simp only [List.length_cons]; omega, ?_⟩
        · rw [rowsLeft_cons_some]; omega
        · rw [rowsLeft_cons_some, h4]
          have : Fetcher.rowsLeft { pending := rest } + 1 -
              (LimitExecutor.skipRowsLoop k rest e.incrCounter st sk).executor._fetcher.rowsLeft =
              (Fetcher.rowsLeft { pending := rest } -
              (LimitExecutor.skipRowsLoop k rest e.incrCounter st sk).executor._fetcher.rowsLeft)
                + 1 := by
            omega
          rw [this, counterAfterRows_step _ e (Or.inl hst)]
    | COUNTING =>
      cases a with
      | none =>
        rw [skipRowsLoop_waiting _ _ _ _ _ (Or.inr (Or.inl hst))]
        simp [LimitExecutor.counterAfterRows]
      | some r =>
        rw [skipRowsLoop_counting _ _ _ _ _ _ hst]
        obtain ⟨h1, h2, h3, h4⟩ := ih e (st.incrFullCount e._infos._fullCount) sk
        refine ⟨h1, ?_, by simp only [List.length_cons]; omega, ?_⟩
        · rw [rowsLeft_cons_some]; omega
        · rw [h4, counterAfterRows_terminal _ e (Or.inl hst),
            counterAfterRows_terminal _ e (Or.inl hst)]
    | RETURNING =>
      by_cases hk : sk < k
      · cases a with
        | none =>
          rw [skipRowsLoop_waiting _ _ _ _ _ (Or.inr (Or.inr ⟨Or.inl hst, hk⟩))]
          simp [LimitExecutor.counterAfterRows]
        | some r =>
          rw [skipRowsLoop_reporting _ _ _ _ _ _ (Or.inl hst) hk]
          obtain ⟨h1, h2, h3, h4⟩ :=
            ih e.incrCounter (st.incrFullCount e._infos._fullCount) (sk + 1)
          refine ⟨h1, ?_, by simp only [List.length_cons]; omega, ?_⟩
          · rw [rowsLeft_cons_some]; omega
          · rw [rowsLeft_cons_some, h4]
            have : Fetcher.rowsLeft { pending := rest } + 1 -
                (LimitExecutor.skipRowsLoop k rest e.incrCounter
                  (st.incrFullCount e._infos._fullCount) (sk + 1)).executor._fetcher.rowsLeft =
                (Fetcher.rowsLeft { pending := rest } -
                (LimitExecutor.skipRowsLoop k rest e.incrCounter
                  (st.incrFullCount e._infos._fullCount) (sk + 1)).executor._fetcher.rowsLeft)
                  + 1 := by
              omega
            rw [this, counterAfterRows_step _ e (Or.inr (Or.inl hst))]
      · rw [skipRowsLoop_enough _ _ _ _ _ (Or.inl hst) hk]
        simp [LimitExecutor.counterAfterRows]
    | RETURNING_LAST_ROW =>
      by_cases hk : sk < k
      · cases a with
        | none =>
          rw [skipRowsLoop_waiting _ _ _ _ _ (Or.inr (Or.inr ⟨Or.inr hst, hk⟩))]
          simp [LimitExecutor.counterAfterRows]
        | some r =>
          rw [skipRowsLoop_reporting _ _ _ _ _ _ (Or.inr hst) hk]
          obtain ⟨h1, h2, h3, h4⟩ :=
            ih e.incrCounter (st.incrFullCount e._infos._fullCount) (sk + 1)
          refine ⟨h1, ?_, by simp only [List.length_cons]; omega, ?_⟩
          · rw [rowsLeft_cons_some]; omega
          · rw [rowsLeft_cons_some, h4]
            have : Fetcher.rowsLeft { pending := rest } + 1 -
                (LimitExecutor.skipRowsLoop k rest e.incrCounter
                  (st.incrFullCount e._infos._fullCount) (sk + 1)).executor._fetcher.rowsLeft =
                (Fetcher.rowsLeft { pending := rest } -
                (LimitExecutor.skipRowsLoop k rest e.incrCounter
                  (st.incrFullCount e._infos._fullCount) (sk + 1)).executor._fetcher.rowsLeft)
                  + 1 := by
              omega
            rw [this, counterAfterRows_step _ e (Or.inr (Or.inr hst))]
      · rw [skipRowsLoop_enough _ _ _ _ _ (Or.inr hst) hk]
        simp [LimitExecutor.counterAfterRows]

/-- The count `skipRows` reports: with fewer than `2 ^ 64` rows in sight, the
counter only grows and stops at the end of the window, and the rows reported are
those consumed at a counter at or past the offset and below
`getLimitPlusOffset`; the count never passes the number requested. -/
theorem skipRowsLoop_count (k : Nat) (p : List (Option Row)) (e : LimitExecutor Row)
    (st : LimitStats) (sk : Nat) (hb : e._counter + p.length < 2 ^ 64) :
    e._counter ≤ (LimitExecutor.skipRowsLoop k p e st sk).executor._counter ∧
    (LimitExecutor.skipRowsLoop k p e st sk).executor._counter +
        (LimitExecutor.skipRowsLoop k p e st sk).executor._fetcher.pending.length ≤
      e._counter + p.length ∧
    (LimitExecutor.skipRowsLoop k p e st sk).skipped =
      sk + (min (LimitExecutor.skipRowsLoop k p e st sk).executor._counter
              e._infos.getLimitPlusOffset - max e._counter e._infos._offset) ∧
    (sk ≤ k → (LimitExecutor.skipRowsLoop k p e st sk).skipped ≤ k) ∧
    (LimitExecutor.skipRowsLoop k p e st sk).executor._counter ≤
      max e._counter (max e._infos._offset e._infos.getLimitPlusOffset) := by
  induction p generalizing e st sk with
  | nil =>
    obtain ⟨h1, h2, -, -⟩ := skipRowsLoop_nil k e st sk
    rw [h1, h2]
    simp only [withPending_counter, withPending_pending]
    refine ⟨le_refl _, le_refl _, by omega, fun h => h, by omega⟩
  | cons a rest ih =>
    have hc : e._counter + 1 < 2 ^ 64 := by simp only [List.length_cons] at hb; omega
    obtain ⟨f1, f2, f3, f4, f5⟩ := currentState_facts e hc
    have hinc : e.incrCounter._counter = e._counter + 1 := incrCounter_counter e hc
    have hb2 : e.incrCounter._counter + rest.length < 2 ^ 64 := by
      simp only [List.length_cons] at hb; omega
    have hb3 : e._counter + rest.length < 2 ^ 64 := by
      simp only [List.length_cons] at hb; omega
    cases hst : e.currentState with
    | LIMIT_REACHED =>
      rw [skipRowsLoop_limit _ _ _ _ _ hst]
      simp only [withPending_counter, withPending_pending]
      have := f5 hst
      refine ⟨le_refl _, le_refl _, by omega, fun h => h, by omega⟩
    | SKIPPING =>
      have := f1 hst
      cases a with
      | none =>
        rw [skipRowsLoop_waiting _ _ _ _ _ (Or.inl hst)]
        simp only [withPending_counter, withPending_pending, List.length_cons]
        refine ⟨le_refl _, by omega, by omega, fun h => h, by omega⟩
      | some r =>
        rw [skipRowsLoop_skipping _ _ _ _ _ _ hst]
        obtain ⟨h1, h2, h3, h4, h5⟩ := ih e.incrCounter st sk hb2
        simp only [incrCounter_infos, hinc, List.length_cons] at h1 h2 h3 h4 h5 ⊢
        refine ⟨by omega, by omega, ?_, h4, by omega⟩
        rw [h3]; omega
    | COUNTING =>
      have := f4 hst
      cases a with
      | none =>
        rw [skipRowsLoop_waiting _ _ _ _ _ (Or.inr (Or.inl hst))]
        simp only [withPending_counter, withPending_pending, List.length_cons]
        refine ⟨le_refl _, by omega, by omega, fun h => h, by omega⟩
      | some r =>
        rw [skipRowsLoop_counting _ _ _ _ _ _ hst]
        obtain ⟨h1, h2, h3, h4, h5⟩ := ih e (st.incrFullCount e._infos._fullCount) sk hb3
        simp only [List.length_cons] at h1 h2 h3 h4 h5 ⊢
        exact ⟨h1, by omega, h3, h4, h5⟩
    | RETURNING =>
      have := f2 hst
      by_cases hk : sk < k
      · cases a with
        | none =>
          rw [skipRowsLoop_waiting _ _ _ _ _ (Or.inr (Or.inr ⟨Or.inl hst, hk⟩))]
          simp only [withPending_counter, withPending_pending, List.length_cons]
          refine ⟨le_refl _, by omega, by omega, fun h => h, by omega⟩
        | some r =>
          rw [skipRowsLoop_reporting _ _ _ _ _ _ (Or.inl hst) hk]
          obtain ⟨h1, h2, h3, h4, h5⟩ :=
            ih e.incrCounter (st.incrFullCount e._infos._fullCount) (sk + 1) hb2
          simp only [incrCounter_infos, hinc, List.length_cons] at h1 h2 h3 h4 h5 ⊢
          refine ⟨by omega, by omega, ?_, fun _ => h4 (by omega), by omega⟩
          rw [h3]; omega
      · rw [skipRowsLoop_enough _ _ _ _ _ (Or.inl hst) hk]
        simp only [withPending_counter, withPending_pending]
        refine ⟨le_refl _, le_refl _, by omega, fun h => h, by omega⟩
    | RETURNING_LAST_ROW =>
      have := f3 hst
      by_cases hk : sk < k
      · cases a with
        | none =>
          rw [skipRowsLoop_waiting _ _ _ _ _ (Or.inr (Or.inr ⟨Or.inr hst, hk⟩))]
          simp only [withPending_counter, withPending_pending, List.length_cons]
          refine ⟨le_refl _, by omega, by omega, fun h => h, by omega⟩
        | some r =>
          rw [skipRowsLoop_reporting _ _ _ _ _ _ (Or.inr hst) hk]
          obtain ⟨h1, h2, h3, h4, h5⟩ :=
            ih e.incrCounter (st.incrFullCount e._infos._fullCount) (sk + 1) hb2
          simp only [incrCounter_infos, hinc, List.length_cons] at h1 h2 h3 h4 h5 ⊢
          refine ⟨by omega, by omega, ?_, fun _ => h4 (by omega), by omega⟩
          rw [h3]; omega
      · rw [skipRowsLoop_enough _ _ _ _ _ (Or.inr hst) hk]
        simp only [withPending_counter, withPending_pending]
        refine ⟨le_refl _, le_refl _, by omega, fun h => h, by omega⟩


/-- The counters of `s, s + 1, ..., s + n - 1` that lie in the window `[a, b)`
number `min b (s + n) - max a s`. -/
theorem filter_shifted_window (a b s n : Nat) :
    ((List.range' s n).filter (fun c => decide (a ≤ c ∧ c < b))).length =
      min b (s + n) - max a s := by
  induction n with
  | zero => simp
  | succ n ih =>
    rw [List.range'_concat, List.filter_append, List.length_append, ih]
    by_cases h : a ≤ s + n ∧ s + n < b
    · simp [h]; omega
    · simp [h]; omega

/-- When `_counter + 1` does not wrap, a row is returned exactly at the
counters at or past the offset and below `getLimitPlusOffset`. -/
theorem returning_iff_below_sum (e : LimitExecutor Row) (hc : e._counter + 1 < 2 ^ 64) :
    (e.currentState = LimitState.RETURNING ∨ e.currentState = LimitState.RETURNING_LAST_ROW) ↔
      (e._infos._offset ≤ e._counter ∧ e._counter < e._infos.getLimitPlusOffset) := by
  have hmod : (e._counter + 1) % 2 ^ 64 = e._counter + 1 := Nat.mod_eq_of_lt hc
  rw [currentState_unfold, hmod]
  show _ ↔ _ ∧ _ < (e._infos._offset + e._infos._limit) % 2 ^ 64
  generalize (e._infos._offset + e._infos._limit) % 2 ^ 64 = s
  split_ifs <;> simp <;> omega

theorem getLimitPlusOffset_le (i : LimitExecutorInfos) :
    i.getLimitPlusOffset ≤ i._offset + i._limit :=
  Nat.mod_le _ _

theorem state_SKIPPING_iff_lt (e : LimitExecutor Row) :
    e.currentState = LimitState.SKIPPING ↔ e._counter < e._infos._offset := by
  rw [currentState_unfold]
  split_ifs <;> simp <;> omega


/-! ### The loops do not read the Fetcher field, and thread the Stats -/

theorem produceRowsLoop_withPending (p q : List (Option Row)) (e : LimitExecutor Row)
    (st : LimitStats) :
    LimitExecutor.produceRowsLoop p (e.withPending q) st =
      LimitExecutor.produceRowsLoop p e st := by
  induction p generalizing e st with
  | nil => rw [produceRowsLoop_nil, produceRowsLoop_nil]; rfl
  | cons a rest ih =>
    cases a with
    | none =>
      by_cases h : e.currentState = LimitState.LIMIT_REACHED
      · rw [produceRowsLoop_limit _ _ _ h, produceRowsLoop_limit _ (e.withPending q) _ h]; rfl
      · rw [produceRowsLoop_waiting _ _ _ h, produceRowsLoop_waiting _ (e.withPending q) _ h]
        rfl
    | some r =>
      cases hst : e.currentState with
      | LIMIT_REACHED =>
        rw [produceRowsLoop_limit _ _ _ hst, produceRowsLoop_limit _ (e.withPending q) _ hst]
        rfl
      | SKIPPING =>
        rw [produceRowsLoop_skipping _ _ _ _ hst,
          produceRowsLoop_skipping _ _ (e.withPending q) _ hst]
        exact ih e.incrCounter st
      | COUNTING =>
        rw [produceRowsLoop_counting _ _ _ _ hst,
          produceRowsLoop_counting _ _ (e.withPending q) _ hst]
        exact ih e _
      | RETURNING =>
        rw [produceRowsLoop_returning _ _ _ _ hst,
          produceRowsLoop_returning _ _ (e.withPending q) _ hst]
        rfl
      | RETURNING_LAST_ROW =>
        rw [produceRowsLoop_last_row _ _ _ _ hst,
          produceRowsLoop_last_row _ _ (e.withPending q) _ hst]
        rfl

theorem skipRowsLoop_withPending (k : Nat) (p q : List (Option Row)) (e : LimitExecutor Row)
    (st : LimitStats) (sk : Nat) :
    LimitExecutor.skipRowsLoop k p (e.withPending q) st sk =
      LimitExecutor.skipRowsLoop k p e st sk := by
  induction p generalizing e st sk with
  | nil =>
    rw [LimitExecutor.skipRowsLoop, LimitExecutor.skipRowsLoop]
    rfl
  | cons a rest ih =>
    cases hst : e.currentState with
    | LIMIT_REACHED =>
      rw [skipRowsLoop_limit _ _ _ _ _ hst, skipRowsLoop_limit _ _ (e.withPending q) _ _ hst]
      rfl
    | SKIPPING =>
      cases a with
      | none =>
        rw [skipRowsLoop_waiting _ _ _ _ _ (Or.inl hst),
          skipRowsLoop_waiting _ _ (e.withPending q) _ _ (Or.inl hst)]
        rfl
      | some r =>
        rw [skipRowsLoop_skipping _ _ _ _ _ _ hst,
          skipRowsLoop_skipping _ _ _ (e.withPending q) _ _ hst]
        exact ih e.incrCounter st sk
    | COUNTING =>
      cases a with
      | none =>
        rw [skipRowsLoop_waiting _ _ _ _ _ (Or.inr (Or.inl hst)),
          skipRowsLoop_waiting _ _ (e.withPending q) _ _ (Or.inr (Or.inl hst))]
        rfl
      | some r =>
        rw [skipRowsLoop_counting _ _ _ _ _ _ hst,
          skipRowsLoop_counting _ _ _ (e.withPending q) _ _ hst]
        exact ih e _ sk
    | RETURNING =>
      by_cases hk : sk < k
      · cases a with
        | none =>
          rw [skipRowsLoop_waiting _ _ _ _ _ (Or.inr (Or.inr ⟨Or.inl hst, hk⟩)),
            skipRowsLoop_waiting _ _ (e.withPending q) _ _ (Or.inr (Or.inr ⟨Or.inl hst, hk⟩))]
          rfl
        | some r =>
          rw [skipRowsLoop_reporting _ _ _ _ _ _ (Or.inl hst) hk,
            skipRowsLoop_reporting _ _ _ (e.withPending q) _ _ (Or.inl hst) hk]
          exact ih e.incrCounter _ _
      · rw [skipRowsLoop_enough _ _ _ _ _ (Or.inl hst) hk,
          skipRowsLoop_enough _ _ (e.withPending q) _ _ (Or.inl hst) hk]
        rfl
    | RETURNING_LAST_ROW =>
      by_cases hk : sk < k
      · cases a with
        | none =>
          rw [skipRowsLoop_waiting _ _ _ _ _ (Or.inr (Or.inr ⟨Or.inr hst, hk⟩)),
            skipRowsLoop_waiting _ _ (e.withPending q) _ _ (Or.inr (Or.inr ⟨Or.inr hst, hk⟩))]
          rfl
        | some r =>
          rw [skipRowsLoop_reporting _ _ _ _ _ _ (Or.inr hst) hk,
            skipRowsLoop_reporting _ _ _ (e.withPending q) _ _ (Or.inr hst) hk]
          exact ih e.incrCounter _ _
      · rw [skipRowsLoop_enough _ _ _ _ _ (Or.inr hst) hk,
          skipRowsLoop_enough _ _ (e.withPending q) _ _ (Or.inr hst) hk]
        rfl

theorem merge_incrFullCount (a b : LimitStats) (enabled : Bool) :
    (a.merge b).incrFullCount enabled = a.merge (b.incrFullCount enabled) := by
  cases enabled <;> simp [LimitStats.merge, LimitStats.incrFullCount, Nat.add_assoc]

theorem merge_zero (a : LimitStats) : a.merge { _fullCount := 0 } = a := rfl

/-- Starting the `produceRows` loop with Stats already collected only adds them
to the Stats of the result. -/
theorem produceRowsLoop_stats (p : List (Option Row)) (e : LimitExecutor Row)
    (st0 st : LimitStats) :
    LimitExecutor.produceRowsLoop p e (st0.merge st) =
      { LimitExecutor.produceRowsLoop p e st with
        stats := st0.merge (LimitExecutor.produceRowsLoop p e st).stats } := by
  induction p generalizing e st with
  | nil => rw [produceRowsLoop_nil, produceRowsLoop_nil]
  | cons a rest ih =>
    cases a with
    | none =>
      by_cases h : e.currentState = LimitState.LIMIT_REACHED
      · rw [produceRowsLoop_limit _ _ _ h, produceRowsLoop_limit _ _ _ h]
      · rw [produceRowsLoop_waiting _ _ _ h, produceRowsLoop_waiting _ _ _ h]
    | some r =>
      cases hst : e.currentState with
      | LIMIT_REACHED =>
        rw [produceRowsLoop_limit _ _ _ hst, produceRowsLoop_limit _ _ _ hst]
      | SKIPPING =>
        rw [produceRowsLoop_skipping _ _ _ _ hst, produceRowsLoop_skipping _ _ _ _ hst]
        exact ih e.incrCounter st
      | COUNTING =>
        rw [produceRowsLoop_counting _ _ _ _ hst, produceRowsLoop_counting _ _ _ _ hst,
          merge_incrFullCount]
        exact ih e _
      | RETURNING =>
        rw [produceRowsLoop_returning _ _ _ _ hst, produceRowsLoop_returning _ _ _ _ hst,
          merge_incrFullCount]
      | RETURNING_LAST_ROW =>
        rw [produceRowsLoop_last_row _ _ _ _ hst, produceRowsLoop_last_row _ _ _ _ hst,
          merge_incrFullCount]

/-- The executor a `produceRows` loop leaves does not depend on the Stats it
started with. -/
theorem produceRowsLoop_executor_stats (p : List (Option Row)) (e : LimitExecutor Row)
    (st st2 : LimitStats) :
    (LimitExecutor.produceRowsLoop p e st).executor =
      (LimitExecutor.produceRowsLoop p e st2).executor := by
  have h1 := produceRowsLoop_stats p e st { _fullCount := 0 }
  have h2 := produceRowsLoop_stats p e st2 { _fullCount := 0 }
  rw [merge_zero] at h1 h2
  rw [h1, h2]

/-- A `produceRows` call on the upstream `p`. -/
theorem produceRows_withPending (p : List (Option Row)) (e : LimitExecutor Row) :
    (e.withPending p).produceRows =
      LimitExecutor.produceRowsLoop p e { _fullCount := 0 } :=
  produceRowsLoop_withPending p p e _

theorem afterProduceCalls_succ (n : Nat) (e : LimitExecutor Row) :
    e.afterProduceCalls (n + 1) = e.produceRows.executor.afterProduceCalls n := rfl


/-! ### Skipping against producing -/

/-- Whatever `skipRows` followed by `produceRows` leaves behind is also left
behind by some number of plain `produceRows` calls. -/
theorem skip_then_produce_reachable (k : Nat) (p : List (Option Row)) (e : LimitExecutor Row)
    (st : LimitStats) (sk : Nat) :
    ∃ n, (e.withPending p).afterProduceCalls (n + 1) =
      (LimitExecutor.skipRowsLoop k p e st sk).executor.produceRows.executor := by
  induction p generalizing e st sk with
  | nil =>
    refine ⟨0, ?_⟩
    rw [(skipRowsLoop_nil k e st sk).1]
    rfl
  | cons a rest ih =>
    cases hst : e.currentState with
    | LIMIT_REACHED =>
      refine ⟨0, ?_⟩
      rw [skipRowsLoop_limit _ _ _ _ _ hst]
      rfl
    | SKIPPING =>
      cases a with
      | none =>
        refine ⟨1, ?_⟩
        rw [skipRowsLoop_waiting _ _ _ _ _ (Or.inl hst), afterProduceCalls_succ,
          produceRows_withPending,
          produceRowsLoop_waiting _ _ _ (by rw [hst]; exact LimitState.noConfusion)]
        rfl
      | some r =>
        obtain ⟨n, hn⟩ := ih e.incrCounter st sk
        refine ⟨n, ?_⟩
        rw [skipRowsLoop_skipping _ _ _ _ _ _ hst, ← hn, afterProduceCalls_succ,
          afterProduceCalls_succ, produceRows_withPending, produceRows_withPending,
          produceRowsLoop_skipping _ _ _ _ hst]
    | COUNTING =>
      cases a with
      | none =>
        refine ⟨1, ?_⟩
        rw [skipRowsLoop_waiting _ _ _ _ _ (Or.inr (Or.inl hst)), afterProduceCalls_succ,
          produceRows_withPending,
          produceRowsLoop_waiting _ _ _ (by rw [hst]; exact LimitState.noConfusion)]
        rfl
      | some r =>
        obtain ⟨n, hn⟩ := ih e (st.incrFullCount e._infos._fullCount) sk
        refine ⟨n, ?_⟩
        rw [skipRowsLoop_counting _ _ _ _ _ _ hst, ← hn, afterProduceCalls_succ,
          afterProduceCalls_succ, produceRows_withPending, produceRows_withPending,
          produceRowsLoop_counting _ _ _ _ hst,
          produceRowsLoop_executor_stats rest e _ { _fullCount := 0 }]
    | RETURNING =>
      by_cases hk : sk < k
      · cases a with
        | none =>
          refine ⟨1, ?_⟩
          rw [skipRowsLoop_waiting _ _ _ _ _ (Or.inr (Or.inr ⟨Or.inl hst, hk⟩)),
            afterProduceCalls_succ, produceRows_withPending,
            produceRowsLoop_waiting _ _ _ (by rw [hst]; exact LimitState.noConfusion)]
          rfl
        | some r =>
          obtain ⟨n, hn⟩ := ih e.incrCounter (st.incrFullCount e._infos._fullCount) (sk + 1)
          refine ⟨n + 1, ?_⟩
          rw [skipRowsLoop_reporting _ _ _ _ _ _ (Or.inl hst) hk, ← hn,
            afterProduceCalls_succ _ (e.withPending (some r :: rest)),
            produceRows_withPending, produceRowsLoop_returning _ _ _ _ hst]
      · refine ⟨0, ?_⟩
        rw [skipRowsLoop_enough _ _ _ _ _ (Or.inl hst) hk]
        rfl
    | RETURNING_LAST_ROW =>
      by_cases hk : sk < k
      · cases a with
        | none =>
          refine ⟨1, ?_⟩
          rw [skipRowsLoop_waiting _ _ _ _ _ (Or.inr (Or.inr ⟨Or.inr hst, hk⟩)),
            afterProduceCalls_succ, produceRows_withPending,
            produceRowsLoop_waiting _ _ _ (by rw [hst]; exact LimitState.noConfusion)]
          rfl
        | some r =>
          obtain ⟨n, hn⟩ := ih e.incrCounter (st.incrFullCount e._infos._fullCount) (sk + 1)
          refine ⟨n + 1, ?_⟩
          rw [skipRowsLoop_reporting _ _ _ _ _ _ (Or.inr hst) hk, ← hn,
            afterProduceCalls_succ _ (e.withPending (some r :: rest)),
            produceRows_withPending, produceRowsLoop_last_row _ _ _ _ hst]
      · refine ⟨0, ?_⟩
        rw [skipRowsLoop_enough _ _ _ _ _ (Or.inr hst) hk]
        rfl

/-- After any number of `produceRows` calls the counter is the counter after
the rows consumed so far. -/
theorem afterProduceCalls_inv (n : Nat) (e : LimitExecutor Row) :
    (e.afterProduceCalls n)._infos = e._infos ∧
    (e.afterProduceCalls n)._fetcher.rowsLeft ≤ e._fetcher.rowsLeft ∧
    (e.afterProduceCalls n)._counter =
      e.counterAfterRows (e._fetcher.rowsLeft - (e.afterProduceCalls n)._fetcher.rowsLeft) := by
  induction n generalizing e with
  | zero =>
    refine ⟨rfl, le_refl _, ?_⟩
    show e._counter = e.counterAfterRows (e._fetcher.rowsLeft - e._fetcher.rowsLeft)
    rw [Nat.sub_self]; rfl
  | succ n ih =>
    rw [afterProduceCalls_succ]
    obtain ⟨i1, i2, i3⟩ := ih e.produceRows.executor
    obtain ⟨p1, p2, -, p4⟩ := produceRowsLoop_inv e._fetcher.pending e { _fullCount := 0 }
    have p1' : e.produceRows.executor._infos = e._infos := p1
    have p2' : e.produceRows.executor._fetcher.rowsLeft ≤ e._fetcher.rowsLeft := p2
    have p4' : e.produceRows.executor._counter =
        e.counterAfterRows (e._fetcher.rowsLeft - e.produceRows.executor._fetcher.rowsLeft) := p4
    refine ⟨i1.trans p1', le_trans i2 p2', ?_⟩
    have hsplit : e._fetcher.rowsLeft -
        (e.produceRows.executor.afterProduceCalls n)._fetcher.rowsLeft =
        (e._fetcher.rowsLeft - e.produceRows.executor._fetcher.rowsLeft) +
        (e.produceRows.executor._fetcher.rowsLeft -
          (e.produceRows.executor.afterProduceCalls n)._fetcher.rowsLeft) := by omega
    rw [i3, hsplit, counterAfterRows_add]
    exact counterAfterRows_congr _ _ _ p1' (by rw [p4']; rfl)

/-- After `skipRows` followed by `produceRows` the counter is the counter after
the rows the two calls consumed. -/
theorem skip_then_produce_inv (k : Nat) (e : LimitExecutor Row) :
    (e.skipRows k).executor.produceRows.executor._fetcher.rowsLeft ≤ e._fetcher.rowsLeft ∧
    (e.skipRows k).executor.produceRows.executor._counter =
      e.counterAfterRows (e._fetcher.rowsLeft -
        (e.skipRows k).executor.produceRows.executor._fetcher.rowsLeft) := by
  obtain ⟨s1, s2, -, s4⟩ := skipRowsLoop_inv k e._fetcher.pending e { _fullCount := 0 } 0
  have s1' : (e.skipRows k).executor._infos = e._infos := s1
  have s2' : (e.skipRows k).executor._fetcher.rowsLeft ≤ e._fetcher.rowsLeft := s2
  have s4' : (e.skipRows k).executor._counter =
      e.counterAfterRows (e._fetcher.rowsLeft - (e.skipRows k).executor._fetcher.rowsLeft) := s4
  obtain ⟨-, p2, -, p4⟩ := produceRowsLoop_inv (e.skipRows k).executor._fetcher.pending
    (e.skipRows k).executor { _fullCount := 0 }
  have p2' : (e.skipRows k).executor.produceRows.executor._fetcher.rowsLeft ≤
      (e.skipRows k).executor._fetcher.rowsLeft := p2
  have p4' : (e.skipRows k).executor.produceRows.executor._counter =
      (e.skipRows k).executor.counterAfterRows ((e.skipRows k).executor._fetcher.rowsLeft -
        (e.skipRows k).executor.produceRows.executor._fetcher.rowsLeft) := p4
  refine ⟨le_trans p2' s2', ?_⟩
  have hsplit : e._fetcher.rowsLeft -
      (e.skipRows k).executor.produceRows.executor._fetcher.rowsLeft =
      (e._fetcher.rowsLeft - (e.skipRows k).executor._fetcher.rowsLeft) +
      ((e.skipRows k).executor._fetcher.rowsLeft -
        (e.skipRows k).executor.produceRows.executor._fetcher.rowsLeft) := by omega
  rw [p4', hsplit, counterAfterRows_add]
  exact counterAfterRows_congr _ _ _ s1' (by rw [s4']; rfl)


/-! ### A `WAITING` round -/

@[simp] theorem stateAfterRow_ne_waiting (rest : List (Option Row)) :
    Fetcher.stateAfterRow rest ≠ ExecutionState.WAITING := by
  unfold Fetcher.stateAfterRow
  split_ifs <;> simp

/-- A `produceRows` loop that ends with `WAITING` has written no row, and
running it again from where it stopped gives what the loop gives on the upstream
without that `WAITING` round. -/
theorem produceRowsLoop_resume (p : List (Option Row)) (e : LimitExecutor Row)
    (st : LimitStats)
    (hw : (LimitExecutor.produceRowsLoop p e st).state = ExecutionState.WAITING) :
    (LimitExecutor.produceRowsLoop p e st).output = none ∧
    LimitExecutor.produceRowsLoop
        (LimitExecutor.produceRowsLoop p e st).executor._fetcher.pending
        (LimitExecutor.produceRowsLoop p e st).executor
        (LimitExecutor.produceRowsLoop p e st).stats =
      LimitExecutor.produceRowsLoop (dropFirstWaiting p) e st := by
  induction p generalizing e st with
  | nil => rw [produceRowsLoop_nil] at hw; cases hw
  | cons a rest ih =>
    cases a with
    | none =>
      by_cases h : e.currentState = LimitState.LIMIT_REACHED
      · rw [produceRowsLoop_limit _ _ _ h] at hw; cases hw
      · rw [produceRowsLoop_waiting _ _ _ h]
        exact ⟨rfl, produceRowsLoop_withPending rest rest e st⟩
    | some r =>
      cases hst : e.currentState with
      | LIMIT_REACHED => rw [produceRowsLoop_limit _ _ _ hst] at hw; cases hw
      | SKIPPING =>
        rw [produceRowsLoop_skipping _ _ _ _ hst] at hw ⊢
        obtain ⟨h1, h2⟩ := ih e.incrCounter st hw
        refine ⟨h1, ?_⟩
        rw [h2]
        show _ = LimitExecutor.produceRowsLoop (some r :: dropFirstWaiting rest) e st
        rw [produceRowsLoop_skipping _ _ _ _ hst]
      | COUNTING =>
        rw [produceRowsLoop_counting _ _ _ _ hst] at hw ⊢
        obtain ⟨h1, h2⟩ := ih e _ hw
        refine ⟨h1, ?_⟩
        rw [h2]
        show _ = LimitExecutor.produceRowsLoop (some r :: dropFirstWaiting rest) e st
        rw [produceRowsLoop_counting _ _ _ _ hst]
      | RETURNING =>
        rw [produceRowsLoop_returning _ _ _ _ hst] at hw
        exact absurd hw (stateAfterRow_ne_waiting rest)
      | RETURNING_LAST_ROW =>
        rw [produceRowsLoop_last_row _ _ _ _ hst] at hw
        revert hw
        cases e._infos._fullCount <;> simp

/-- A `skipRows` loop that ends with `WAITING`, run again from where it stopped
with the count it had reached, gives what the loop gives on the upstream without
that `WAITING` round. -/
theorem skipRowsLoop_resume (k : Nat) (p : List (Option Row)) (e : LimitExecutor Row)
    (st : LimitStats) (sk : Nat)
    (hw : (LimitExecutor.skipRowsLoop k p e st sk).state = ExecutionState.WAITING) :
    LimitExecutor.skipRowsLoop k
        (LimitExecutor.skipRowsLoop k p e st sk).executor._fetcher.pending
        (LimitExecutor.skipRowsLoop k p e st sk).executor
        (LimitExecutor.skipRowsLoop k p e st sk).stats
        (LimitExecutor.skipRowsLoop k p e st sk).skipped =
      LimitExecutor.skipRowsLoop k (dropFirstWaiting p) e st sk := by
  induction p generalizing e st sk with
  | nil => exact absurd hw (skipRowsLoop_nil k e st sk).2.2.2
  | cons a rest ih =>
    cases hst : e.currentState with
    | LIMIT_REACHED => rw [skipRowsLoop_limit _ _ _ _ _ hst] at hw; cases hw
    | SKIPPING =>
      cases a with
      | none =>
        rw [skipRowsLoop_waiting _ _ _ _ _ (Or.inl hst)]
        exact skipRowsLoop_withPending k rest rest e st sk
      | some r =>
        rw [skipRowsLoop_skipping _ _ _ _ _ _ hst] at hw ⊢
        rw [ih e.incrCounter st sk hw]
        show _ = LimitExecutor.skipRowsLoop k (some r :: dropFirstWaiting rest) e st sk
        rw [skipRowsLoop_skipping _ _ _ _ _ _ hst]
    | COUNTING =>
      cases a with
      | none =>
        rw [skipRowsLoop_waiting _ _ _ _ _ (Or.inr (Or.inl hst))]
        exact skipRowsLoop_withPending k rest rest e st sk
      | some r =>
        rw [skipRowsLoop_counting _ _ _ _ _ _ hst] at hw ⊢
        rw [ih e _ sk hw]
        show _ = LimitExecutor.skipRowsLoop k (some r :: dropFirstWaiting rest) e st sk
        rw [skipRowsLoop_counting _ _ _ _ _ _ hst]
    | RETURNING =>
      by_cases hk : sk < k
      · cases a with
        | none =>
          rw [skipRowsLoop_waiting _ _ _ _ _ (Or.inr (Or.inr ⟨Or.inl hst, hk⟩))]
          exact skipRowsLoop_withPending k rest rest e st sk
        | some r =>
          rw [skipRowsLoop_reporting _ _ _ _ _ _ (Or.inl hst) hk] at hw ⊢
          rw [ih e.incrCounter _ _ hw]
          show _ = LimitExecutor.skipRowsLoop k (some r :: dropFirstWaiting rest) e st sk
          rw [skipRowsLoop_reporting _ _ _ _ _ _ (Or.inl hst) hk]
      · rw [skipRowsLoop_enough _ _ _ _ _ (Or.inl hst) hk] at hw; cases hw
    | RETURNING_LAST_ROW =>
      by_cases hk : sk < k
      · cases a with
        | none =>
          rw [skipRowsLoop_waiting _ _ _ _ _ (Or.inr (Or.inr ⟨Or.inr hst, hk⟩))]
          exact skipRowsLoop_withPending k rest rest e st sk
        | some r =>
          rw [skipRowsLoop_reporting _ _ _ _ _ _ (Or.inr hst) hk] at hw ⊢
          rw [ih e.incrCounter _ _ hw]
          show _ = LimitExecutor.skipRowsLoop k (some r :: dropFirstWaiting rest) e st sk
          rw [skipRowsLoop_reporting _ _ _ _ _ _ (Or.inr hst) hk]
      · rw [skipRowsLoop_enough _ _ _ _ _ (Or.inr hst) hk] at hw; cases hw

/-- A `skipRows` loop that starts with `d` rows already reported, `d` more rows
requested and Stats already collected, gives the same state and executor, `d`
more rows reported and the Stats added. -/
theorem skipRowsLoop_shift (d k : Nat) (p : List (Option Row)) (e : LimitExecutor Row)
    (st0 st : LimitStats) (sk : Nat) :
    LimitExecutor.skipRowsLoop (k + d) p e (st0.merge st) (sk + d) =
      { LimitExecutor.skipRowsLoop k p e st sk with
        stats := st0.merge (LimitExecutor.skipRowsLoop k p e st sk).stats
        skipped := (LimitExecutor.skipRowsLoop k p e st sk).skipped + d } := by
  have hlt : ∀ s : Nat, (s + d < k + d) = (s < k) := fun s => by simp
  induction p generalizing e st sk with
  | nil =>
    rw [LimitExecutor.skipRowsLoop, LimitExecutor.skipRowsLoop]
    cases e.currentState <;> simp only [hlt]
  | cons a rest ih =>
    cases hst : e.currentState with
    | LIMIT_REACHED =>
      rw [skipRowsLoop_limit _ _ _ _ _ hst, skipRowsLoop_limit _ _ _ _ _ hst]
    | SKIPPING =>
      cases a with
      | none =>
        rw [skipRowsLoop_waiting _ _ _ _ _ (Or.inl hst),
          skipRowsLoop_waiting _ _ _ _ _ (Or.inl hst)]
      | some r =>
        rw [skipRowsLoop_skipping _ _ _ _ _ _ hst, skipRowsLoop_skipping _ _ _ _ _ _ hst]
        exact ih e.incrCounter st sk
    | COUNTING =>
      cases a with
      | none =>
        rw [skipRowsLoop_waiting _ _ _ _ _ (Or.inr (Or.inl hst)),
          skipRowsLoop_waiting _ _ _ _ _ (Or.inr (Or.inl hst))]
      | some r =>
        rw [skipRowsLoop_counting _ _ _ _ _ _ hst, skipRowsLoop_counting _ _ _ _ _ _ hst,
          merge_incrFullCount]
        exact ih e _ sk
    | RETURNING =>
      by_cases hk : sk < k
      · have hk2 : sk + d < k + d := by omega
        cases a with
        | none =>
          rw [skipRowsLoop_waiting _ _ _ _ _ (Or.inr (Or.inr ⟨Or.inl hst, hk⟩)),
            skipRowsLoop_waiting _ _ _ _ _ (Or.inr (Or.inr ⟨Or.inl hst, hk2⟩))]
        | some r =>
          rw [skipRowsLoop_reporting _ _ _ _ _ _ (Or.inl hst) hk,
            skipRowsLoop_reporting _ _ _ _ _ _ (Or.inl hst) hk2, merge_incrFullCount,
            Nat.add_right_comm sk d 1]
          exact ih e.incrCounter _ _
      · have hk2 : ¬ sk + d < k + d := by omega
        rw [skipRowsLoop_enough _ _ _ _ _ (Or.inl hst) hk,
          skipRowsLoop_enough _ _ _ _ _ (Or.inl hst) hk2]
    | RETURNING_LAST_ROW =>
      by_cases hk : sk < k
      · have hk2 : sk + d < k + d := by omega
        cases a with
        | none =>
          rw [skipRowsLoop_waiting _ _ _ _ _ (Or.inr (Or.inr ⟨Or.inr hst, hk⟩)),
            skipRowsLoop_waiting _ _ _ _ _ (Or.inr (Or.inr ⟨Or.inr hst, hk2⟩))]
        | some r =>
          rw [skipRowsLoop_reporting _ _ _ _ _ _ (Or.inr hst) hk,
            skipRowsLoop_reporting _ _ _ _ _ _ (Or.inr hst) hk2, merge_incrFullCount,
            Nat.add_right_comm sk d 1]
          exact ih e.incrCounter _ _
      · have hk2 : ¬ sk + d < k + d := by omega
        rw [skipRowsLoop_enough _ _ _ _ _ (Or.inr hst) hk,
          skipRowsLoop_enough _ _ _ _ _ (Or.inr hst) hk2]

/-- The count `skipRows` reports never passes the number requested. -/
theorem skipRowsLoop_skipped_le (k : Nat) (p : List (Option Row)) (e : LimitExecutor Row)
    (st : LimitStats) (sk : Nat) (h : sk ≤ k) :
    (LimitExecutor.skipRowsLoop k p e st sk).skipped ≤ k := by
  induction p generalizing e st sk with
  | nil => rw [(skipRowsLoop_nil k e st sk).2.1]; exact h
  | cons a rest ih =>
    cases hst : e.currentState with
    | LIMIT_REACHED => rw [skipRowsLoop_limit _ _ _ _ _ hst]; exact h
    | SKIPPING =>
      cases a with
      | none => rw [skipRowsLoop_waiting _ _ _ _ _ (Or.inl hst)]; exact h
      | some r => rw [skipRowsLoop_skipping _ _ _ _ _ _ hst]; exact ih _ _ _ h
    | COUNTING =>
      cases a with
      | none => rw [skipRowsLoop_waiting _ _ _ _ _ (Or.inr (Or.inl hst))]; exact h
      | some r => rw [skipRowsLoop_counting _ _ _ _ _ _ hst]; exact ih _ _ _ h
    | RETURNING =>
      by_cases hk : sk < k
      · cases a with
        | none =>
          rw [skipRowsLoop_waiting _ _ _ _ _ (Or.inr (Or.inr ⟨Or.inl hst, hk⟩))]; exact h
        | some r =>
          rw [skipRowsLoop_reporting _ _ _ _ _ _ (Or.inl hst) hk]; exact ih _ _ _ hk
      · rw [skipRowsLoop_enough _ _ _ _ _ (Or.inl hst) hk]; exact h
    | RETURNING_LAST_ROW =>
      by_cases hk : sk < k
      · cases a with
        | none =>
          rw [skipRowsLoop_waiting _ _ _ _ _ (Or.inr (Or.inr ⟨Or.inr hst, hk⟩))]; exact h
        | some r =>
          rw [skipRowsLoop_reporting _ _ _ _ _ _ (Or.inr hst) hk]; exact ih _ _ _ hk
      · rw [skipRowsLoop_enough _ _ _ _ _ (Or.inr hst) hk]; exact h


/-! ### The assertion of `maxRowsLeftToFetch` -/

/-- Without overflow of offset + limit, `maxRowsLeftToFetch` asserts
counter <= offset + limit and returns the rows left up to the limit. -/
theorem rowsLeftToFetch_without_overflow (e : LimitExecutor Row)
    (hs : e._infos._offset + e._infos._limit < 2 ^ 64) :
    (e.maxRowsLeftToFetch = none ↔ e._infos._offset + e._infos._limit < e._counter) ∧
    (e._counter ≤ e._infos._offset + e._infos._limit →
      e.maxRowsLeftToFetch = some (e._infos._offset + e._infos._limit - e._counter)) := by
  have hsum : e.infos.getLimitPlusOffset = e._infos._offset + e._infos._limit :=
    Nat.mod_eq_of_lt hs
  unfold LimitExecutor.maxRowsLeftToFetch
  rw [hsum]
  constructor
  · split_ifs with h
    · simp; omega
    · simp; omega
  · intro hle
    rw [if_pos hle]

/-- The state is `RETURNING_LAST_ROW` exactly when the offset is passed and the
`size_t` sums `_counter + 1` and `_offset + _limit` agree. -/
theorem state_LAST_ROW_iff_sums (e : LimitExecutor Row) :
    e.currentState = LimitState.RETURNING_LAST_ROW ↔
      (e._infos._offset ≤ e._counter ∧
        (e._counter + 1) % 2 ^ 64 = (e._infos._offset + e._infos._limit) % 2 ^ 64) := by
  rw [currentState_unfold]
  split_ifs <;> simp <;> omega


/-! ### One call of the enumeration executor -/

theorem stateAfterRow_done_iff (rest : List (Option Row)) :
    Fetcher.stateAfterRow rest = ExecutionState.DONE ↔ rest = [] := by
  cases rest <;> simp [Fetcher.stateAfterRow]

/-- One `produceRows` call with the replicated copies ready: when it answers
`DONE` it has written all the output there was to come; otherwise it has written
the next row of the output to come, or none, and moved on. -/
theorem enumerate_produceRows_step {Doc : Type} (e : EnumerateCollectionExecutor Row Doc)
    (h : e.Consistent) :
    ((e.produceRows true).state = ExecutionState.DONE →
      (e.produceRows true).output.toList = e.outputToCome) ∧
    ((e.produceRows true).state ≠ ExecutionState.DONE →
      (e.produceRows true).executor.Consistent ∧
      e.outputToCome =
        (e.produceRows true).output.toList ++ (e.produceRows true).executor.outputToCome ∧
      (e.produceRows true).executor._fetcher.pending.length +
          (e.produceRows true).executor.outputToCome.length <
        e._fetcher.pending.length + e.outputToCome.length) := by
  obtain ⟨infos, ⟨pending⟩, st, hasMore, input, ⟨remaining, opened⟩⟩ := e
  cases hasMore with
  | true =>
    obtain ⟨h1, h2, h3⟩ := h rfl
    cases input with
    | none => simp at h1
    | some row =>
      cases remaining with
      | nil => simp at h2
      | cons d ds =>
        cases ds with
        | nil =>
          simp only [EnumerateCollectionExecutor.produceRows,
            EnumerateCollectionExecutor.produceDocument, OperationCursor.next,
            OperationCursor.hasMore, EnumerateCollectionExecutor.outputToCome,
            EnumerateCollectionExecutor.Consistent]
          constructor
          · intro hd
            have hp : pending = [] := h3 (by simpa using hd)
            subst hp
            simp [joinWithDocuments]
          · intro _
            simp
        | cons d2 ds2 =>
          simp [EnumerateCollectionExecutor.produceRows,
            EnumerateCollectionExecutor.produceDocument, OperationCursor.next,
            OperationCursor.hasMore, EnumerateCollectionExecutor.outputToCome,
            EnumerateCollectionExecutor.Consistent]
          intro hd
          exact h3 hd
  | false =>
    cases pending with
    | nil =>
      simp [EnumerateCollectionExecutor.produceRows,
        EnumerateCollectionExecutor.waitForSatellites,
        EnumerateCollectionExecutor.outputToCome, joinWithDocuments]
    | cons a rest =>
      cases a with
      | none =>
        simp [EnumerateCollectionExecutor.produceRows,
          EnumerateCollectionExecutor.waitForSatellites,
          EnumerateCollectionExecutor.outputToCome, joinWithDocuments,
          EnumerateCollectionExecutor.Consistent]
      | some row =>
        generalize hsc : infos._collection.scan infos._random opened = sc
        cases sc with
        | nil =>
          simp [EnumerateCollectionExecutor.produceRows,
            EnumerateCollectionExecutor.waitForSatellites,
            EnumerateCollectionExecutor.initializeCursor, OperationCursor.reset,
            OperationCursor.hasMore, EnumerateCollectionExecutorInfos.getCollection,
            EnumerateCollectionExecutorInfos.getRandom,
            EnumerateCollectionExecutor.outputToCome, joinWithDocuments,
            EnumerateCollectionExecutor.Consistent, hsc, stateAfterRow_done_iff]
          intro hr
          subst hr
          simp [joinWithDocuments]
        | cons d ds =>
          cases ds with
          | nil =>
            simp [EnumerateCollectionExecutor.produceRows,
              EnumerateCollectionExecutor.waitForSatellites,
              EnumerateCollectionExecutor.initializeCursor, OperationCursor.reset,
              OperationCursor.hasMore, EnumerateCollectionExecutorInfos.getCollection,
              EnumerateCollectionExecutorInfos.getRandom,
              EnumerateCollectionExecutor.produceDocument, OperationCursor.next,
              EnumerateCollectionExecutor.outputToCome, joinWithDocuments,
              EnumerateCollectionExecutor.Consistent, hsc, stateAfterRow_done_iff]
            constructor
            · intro hr
              subst hr
              simp [joinWithDocuments]
            · intro _
              omega
          | cons d2 ds2 =>
            simp [EnumerateCollectionExecutor.produceRows,
              EnumerateCollectionExecutor.waitForSatellites,
              EnumerateCollectionExecutor.initializeCursor, OperationCursor.reset,
              OperationCursor.hasMore, EnumerateCollectionExecutorInfos.getCollection,
              EnumerateCollectionExecutorInfos.getRandom,
              EnumerateCollectionExecutor.produceDocument, OperationCursor.next,
              EnumerateCollectionExecutor.outputToCome, joinWithDocuments,
              EnumerateCollectionExecutor.Consistent, hsc, stateAfterRow_done_iff]
            omega


/-! ### The whole run of the enumeration executor -/

/-- With enough calls the driver reaches `DONE` and has written exactly the
output that was to come. -/
theorem enumerate_drive_all {Doc : Type} (calls : Nat) (e : EnumerateCollectionExecutor Row Doc)
    (h : e.Consistent)
    (hb : e._fetcher.pending.length + e.outputToCome.length < calls) :
    e.drive calls = (e.outputToCome, ExecutionState.DONE) := by
  induction calls generalizing e with
  | zero => omega
  | succ n ih =>
    obtain ⟨s1, s2⟩ := enumerate_produceRows_step e h
    rw [EnumerateCollectionExecutor.drive]
    cases hst : (e.produceRows true).state with
    | DONE =>
      simp only
      rw [s1 hst]
    | HASMORE =>
      obtain ⟨c1, c2, c3⟩ := s2 (by rw [hst]; exact ExecutionState.noConfusion)
      simp only
      rw [ih _ c1 (by omega), ← c2]
    | WAITING =>
      obtain ⟨c1, c2, c3⟩ := s2 (by rw [hst]; exact ExecutionState.noConfusion)
      simp only
      rw [ih _ c1 (by omega), ← c2]

theorem scan_perm {Doc : Type} (c : Collection Doc) (random : Bool) (i : Nat) :
    List.Perm (c.scan random i) c.documents := by
  unfold Collection.scan
  cases random
  · exact List.Perm.refl _
  · exact c.anyOrder_perm i

theorem scan_sequential {Doc : Type} (c : Collection Doc) (i : Nat) :
    c.scan false i = c.documents := rfl

theorem rowsLeft_eq_rows_length (f : Fetcher Row) : f.rowsLeft = f.rows.length := by
  obtain ⟨p⟩ := f
  unfold Fetcher.rowsLeft Fetcher.rows
  induction p with
  | nil => rfl
  | cons a rest ih =>
    cases a with
    | none => simpa using ih
    | some r => simpa using ih

/-- The join has one row per input row and document. -/
theorem joinWithDocuments_length {Doc : Type} (scan : Nat → List Doc) (m : Nat)
    (hm : ∀ i, (scan i).length = m) (i : Nat) (p : List (Option Row)) :
    (joinWithDocuments scan i p).length = (p.filterMap id).length * m := by
  induction p generalizing i with
  | nil => simp [joinWithDocuments]
  | cons a rest ih =>
    cases a with
    | none => simpa [joinWithDocuments] using ih i
    | some r =>
      simp only [joinWithDocuments, List.length_append, List.length_map, hm, ih (i + 1),
        List.filterMap_cons_some (f := id) (a := some r) (b := r) rfl, List.length_cons]
      rw [Nat.succ_mul]
      omega

/-- The join is, group by group in the order of the input rows, each input row
joined with the documents of the cursor opened for it. -/
theorem joinWithDocuments_groups {Doc : Type} (scan : Nat → List Doc) (i : Nat)
    (p : List (Option Row)) :
    joinWithDocuments scan i p =
      (((p.filterMap id).zip
          ((List.range (p.filterMap id).length).map (fun k => scan (i + k)))).map
        (fun rg => rg.2.map (fun d => (rg.1, d)))).flatten := by
  induction p generalizing i with
  | nil => simp [joinWithDocuments]
  | cons a rest ih =>
    cases a with
    | none => simpa [joinWithDocuments] using ih i
    | some r =>
      rw [joinWithDocuments, ih (i + 1),
        List.filterMap_cons_some (f := id) (a := some r) (b := r) rfl, List.length_cons,
        List.range_succ_eq_map, List.map_cons, List.zip_cons_cons, List.map_cons,
        List.flatten_cons, List.map_map]
      have hfun : (fun k => scan (i + k)) ∘ Nat.succ = fun k => scan (i + 1 + k) := by
        funext k
        show scan (i + (k + 1)) = scan (i + 1 + k)
        rw [Nat.add_right_comm, Nat.add_assoc]
      rw [hfun]
      rfl

theorem init_consistent {Doc : Type} (infos : EnumerateCollectionExecutorInfos Doc)
    (f : Fetcher Row) : (EnumerateCollectionExecutor.init infos f).Consistent := by
  intro h
  cases h

theorem init_outputToCome {Doc : Type} (infos : EnumerateCollectionExecutorInfos Doc)
    (f : Fetcher Row) :
    (EnumerateCollectionExecutor.init infos f).outputToCome =
      joinWithDocuments (infos._collection.scan infos._random) 0 f.pending := rfl


/-! ### The derived state away from the wraparound of `_counter + 1` -/

/-- For a `size_t` counter and a sum offset + limit that does not wrap, the
checks of `currentState` compare the exact sums, except at counter
`2 ^ 64 - 1` with offset + limit = 0. -/
theorem currentState_exact_but_corner (e : LimitExecutor Row) (hc : e._counter < 2 ^ 64)
    (hs : e._infos._offset + e._infos._limit < 2 ^ 64)
    (hcorner : ¬ (e._counter = 2 ^ 64 - 1 ∧ e._infos._offset + e._infos._limit = 0)) :
    e.currentState =
      if e._counter < e._infos._offset then LimitState.SKIPPING
      else if e._counter + 1 = e._infos._offset + e._infos._limit then
        LimitState.RETURNING_LAST_ROW
      else if e._counter < e._infos._offset + e._infos._limit then LimitState.RETURNING
      else if e._infos._fullCount then LimitState.COUNTING
      else LimitState.LIMIT_REACHED := by
  rcases Nat.lt_or_ge (e._counter + 1) (2 ^ 64) with h | h
  · exact currentState_exact e h hs
  · have h4 : e._counter + 1 = 2 ^ 64 := by omega
    rw [currentState_unfold, Nat.mod_eq_of_lt hs, h4, Nat.mod_self]
    have n1 : ¬ (0 = e._infos._offset + e._infos._limit) := by omega
    have n2 : ¬ (2 ^ 64 = e._infos._offset + e._infos._limit) := by omega
    rw [if_neg n1, if_neg n2]


/-! ### The derived state within the asserted invariant -/

/-- A counter within the invariant asserted by `maxRowsLeftToFetch`, or below
the largest `size_t` value, is not the counter `2 ^ 64 - 1` at offset + limit
= 0, and is a `size_t` value. -/
theorem counter_not_corner (e : LimitExecutor Row)
    (hc : e._counter ≤ e.infos.getLimitPlusOffset ∨ e._counter + 1 < 2 ^ 64) :
    e._counter < 2 ^ 64 ∧
    ¬ (e._counter = 2 ^ 64 - 1 ∧ e._infos._offset + e._infos._limit = 0) := by
  have hlt : e.infos.getLimitPlusOffset < 2 ^ 64 := Nat.mod_lt _ (by norm_num)
  rcases hc with h | h
  · refine ⟨by omega, ?_⟩
    rintro ⟨h1, h2⟩
    have h3 : e.infos.getLimitPlusOffset = 0 := by
      show (e._infos._offset + e._infos._limit) % 2 ^ 64 = 0
      rw [h2]; rfl
    omega
  · exact ⟨by omega, by omega⟩

/-- The checks of `currentState` compare the exact sums for every counter
within the asserted invariant or below the largest `size_t` value. -/
theorem currentState_within (e : LimitExecutor Row)
    (hs : e._infos._offset + e._infos._limit < 2 ^ 64)
    (hc : e._counter ≤ e.infos.getLimitPlusOffset ∨ e._counter + 1 < 2 ^ 64) :
    e.currentState =
      if e._counter < e._infos._offset then LimitState.SKIPPING
      else if e._counter + 1 = e._infos._offset + e._infos._limit then
        LimitState.RETURNING_LAST_ROW
      else if e._counter < e._infos._offset + e._infos._limit then LimitState.RETURNING
      else if e._infos._fullCount then LimitState.COUNTING
      else LimitState.LIMIT_REACHED :=
  currentState_exact_but_corner e (counter_not_corner e hc).1 hs (counter_not_corner e hc).2

/-- Outside the asserted invariant: at counter `2 ^ 64 - 1` with offset 0 and
limit 0 the assertion of `maxRowsLeftToFetch` fails, and `_counter + 1` wraps to
`0 = _offset + _limit`, so that `currentState` is `RETURNING_LAST_ROW`. -/
theorem currentState_outside_invariant :
    ((LimitExecutor.init ⟨0, 0, true⟩ ⟨[]⟩ : LimitExecutor Nat).atCounter
      (2 ^ 64 - 1)).maxRowsLeftToFetch = none ∧
    ((LimitExecutor.init ⟨0, 0, true⟩ ⟨[]⟩ : LimitExecutor Nat).atCounter
      (2 ^ 64 - 1)).currentState = LimitState.RETURNING_LAST_ROW := by
  decide

theorem state_COUNTING_fullCount (e : LimitExecutor Row)
    (h : e.currentState = LimitState.COUNTING) : e._infos._fullCount = true := by
  rw [currentState_unfold] at h
  split_ifs at h with h1 h2 h3 h4
  exact h4

theorem state_LIMIT_REACHED_fullCount (e : LimitExecutor Row)
    (h : e.currentState = LimitState.LIMIT_REACHED) : e._infos._fullCount = false := by
  rw [currentState_unfold] at h
  split_ifs at h with h1 h2 h3 h4
  simpa using h4

/-- With no wraparound and the counter at most offset + limit, what each
derived state says about the counter. -/
theorem currentState_bounds (e : LimitExecutor Row)
    (hs : e._infos._offset + e._infos._limit < 2 ^ 64)
    (hc : e._counter ≤ e._infos._offset + e._infos._limit) :
    (e.currentState = LimitState.SKIPPING → e._counter < e._infos._offset) ∧
    (e.currentState = LimitState.RETURNING →
      e._infos._offset ≤ e._counter ∧ e._counter + 1 < e._infos._offset + e._infos._limit) ∧
    (e.currentState = LimitState.RETURNING_LAST_ROW →
      e._infos._offset ≤ e._counter ∧ e._counter + 1 = e._infos._offset + e._infos._limit) ∧
    (e.currentState = LimitState.COUNTING →
      e._counter = e._infos._offset + e._infos._limit ∧ e._infos._fullCount = true) ∧
    (e.currentState = LimitState.LIMIT_REACHED →
      e._counter = e._infos._offset + e._infos._limit ∧ e._infos._fullCount = false) := by
  have hle : e._counter ≤ e.infos.getLimitPlusOffset := by
    show e._counter ≤ (e._infos._offset + e._infos._limit) % 2 ^ 64
    rw [Nat.mod_eq_of_lt hs]; exact hc
  rw [currentState_within e hs (Or.inl hle)]
  clear hle
  by_cases h1 : e._counter < e._infos._offset
  · simp [h1]
  by_cases h2 : e._counter + 1 = e._infos._offset + e._infos._limit
  · simp only [h1, h2, if_false, if_true]
    simp
    omega
  by_cases h3 : e._counter < e._infos._offset + e._infos._limit
  · simp only [h1, h2, h3, if_false, if_true]
    simp
    omega
  have h4 : e._counter = e._infos._offset + e._infos._limit := by omega
  cases hfc : e._infos._fullCount <;> simp [h1, h2, h3, h4]


/-! ### One `produceRows` call, against the rows still to come -/

@[simp] theorem rows_nil : Fetcher.rows ({ pending := [] } : Fetcher Row) = [] := rfl

@[simp] theorem rows_cons_none (rest : List (Option Row)) :
    Fetcher.rows { pending := none :: rest } = Fetcher.rows { pending := rest } := rfl

@[simp] theorem rows_cons_some (r : Row) (rest : List (Option Row)) :
    Fetcher.rows { pending := some r :: rest } = r :: Fetcher.rows { pending := rest } := rfl

@[simp] theorem withPending_rows (e : LimitExecutor Row) (q : List (Option Row)) :
    Fetcher.rows (e.withPending q)._fetcher = Fetcher.rows { pending := q } := rfl

theorem incrFullCount_fullCount (st : LimitStats) (enabled : Bool) :
    (st.incrFullCount enabled)._fullCount = st._fullCount + (if enabled then 1 else 0) := by
  cases enabled <;> rfl

/-- A `produceRows` loop that does not end with `DONE` has consumed at least
one answer of the upstream; one that ends with `DONE` under fullCount has
exhausted the upstream. -/
theorem produceRowsLoop_consumes (p : List (Option Row)) (e : LimitExecutor Row)
    (st : LimitStats) :
    ((LimitExecutor.produceRowsLoop p e st).state ≠ ExecutionState.DONE →
      (LimitExecutor.produceRowsLoop p e st).executor._fetcher.pending.length < p.length) ∧
    ((LimitExecutor.produceRowsLoop p e st).state = ExecutionState.DONE →
      e._infos._fullCount = true →
      (LimitExecutor.produceRowsLoop p e st).executor._fetcher.pending = []) := by
  induction p generalizing e st with
  | nil =>
    rw [produceRowsLoop_nil]
    exact ⟨fun h => absurd rfl h, fun _ _ => rfl⟩
  | cons a rest ih =>
    cases a with
    | none =>
      by_cases h : e.currentState = LimitState.LIMIT_REACHED
      · rw [produceRowsLoop_limit _ _ _ h]
        refine ⟨fun h => absurd rfl h, fun _ hfc => ?_⟩
        rw [state_LIMIT_REACHED_fullCount e h] at hfc
        cases hfc
      · rw [produceRowsLoop_waiting _ _ _ h]
        refine ⟨fun _ => ?_, fun h => ?_⟩
        · simp
        · cases h
    | some r =>
      cases hst : e.currentState with
      | LIMIT_REACHED =>
        rw [produceRowsLoop_limit _ _ _ hst]
        refine ⟨fun h => absurd rfl h, fun _ hfc => ?_⟩
        rw [state_LIMIT_REACHED_fullCount e hst] at hfc
        cases hfc
      | SKIPPING =>
        rw [produceRowsLoop_skipping _ _ _ _ hst]
        obtain ⟨h1, h2⟩ := ih e.incrCounter st
        refine ⟨fun h => ?_, fun h hfc => h2 h hfc⟩
        have := h1 h
        simp only [List.length_cons]
        omega
      | COUNTING =>
        rw [produceRowsLoop_counting _ _ _ _ hst]
        obtain ⟨h1, h2⟩ := ih e (st.incrFullCount e._infos._fullCount)
        refine ⟨fun h => ?_, fun h hfc => h2 h hfc⟩
        have := h1 h
        simp only [List.length_cons]
        omega
      | RETURNING =>
        rw [produceRowsLoop_returning _ _ _ _ hst]
        refine ⟨fun _ => by simp, fun h _ => ?_⟩
        have h' : Fetcher.stateAfterRow rest = ExecutionState.DONE := h
        unfold Fetcher.stateAfterRow at h'
        split_ifs at h' with hr
        simpa using hr
      | RETURNING_LAST_ROW =>
        rw [produceRowsLoop_last_row _ _ _ _ hst]
        refine ⟨fun _ => by simp, fun h hfc => ?_⟩
        have h' : (if e._infos._fullCount then ExecutionState.HASMORE
            else ExecutionState.DONE) = ExecutionState.DONE := h
        rw [hfc] at h'
        cases h'

/-- The full-count statistic of a `produceRows` loop: what the loop counts and
what is still to be counted after it add up to what was to be counted before
it, as long as the counter cannot wrap on the rows in sight. -/
theorem produceRowsLoop_fullCount (p : List (Option Row)) (e : LimitExecutor Row)
    (st : LimitStats)
    (hb : e._counter + (Fetcher.rows { pending := p }).length < 2 ^ 64) :
    (LimitExecutor.produceRowsLoop p e st).stats._fullCount +
        fullCountInWindow e._infos._offset (LimitExecutor.produceRowsLoop p e st).executor._counter
          e._infos._fullCount
          (Fetcher.rows (LimitExecutor.produceRowsLoop p e st).executor._fetcher) =
      st._fullCount +
        fullCountInWindow e._infos._offset e._counter e._infos._fullCount
          (Fetcher.rows { pending := p }) ∧
    (LimitExecutor.produceRowsLoop p e st).executor._counter +
        (Fetcher.rows (LimitExecutor.produceRowsLoop p e st).executor._fetcher).length ≤
      e._counter + (Fetcher.rows { pending := p }).length := by
  induction p generalizing e st with
  | nil =>
    rw [produceRowsLoop_nil]
    exact ⟨rfl, le_refl _⟩
  | cons a rest ih =>
    cases a with
    | none =>
      by_cases h : e.currentState = LimitState.LIMIT_REACHED
      · rw [produceRowsLoop_limit _ _ _ h]
        exact ⟨rfl, le_refl _⟩
      · rw [produceRowsLoop_waiting _ _ _ h]
        exact ⟨rfl, le_refl _⟩
    | some r =>
      have hb' : e._counter + ((Fetcher.rows { pending := rest }).length + 1) < 2 ^ 64 := hb
      have hinc : e.incrCounter._counter = e._counter + 1 :=
        incrCounter_counter e (by omega)
      have hskip := state_SKIPPING_iff_lt e
      cases hst : e.currentState with
      | LIMIT_REACHED =>
        rw [produceRowsLoop_limit _ _ _ hst]
        exact ⟨rfl, le_refl _⟩
      | SKIPPING =>
        rw [produceRowsLoop_skipping _ _ _ _ hst]
        have hlt : e._counter < e._infos._offset := hskip.mp hst
        obtain ⟨h1, h2⟩ := ih e.incrCounter st (by rw [hinc]; omega)
        rw [hinc] at h1 h2
        simp only [incrCounter_infos] at h1
        refine ⟨?_, ?_⟩
        · rw [h1]
          simp only [fullCountInWindow, rows_cons_some, List.length_cons]
          split_ifs <;> omega
        · simp only [rows_cons_some, List.length_cons]
          omega
      | COUNTING =>
        rw [produceRowsLoop_counting _ _ _ _ hst]
        have hge : ¬ e._counter < e._infos._offset := fun h => by
          rw [hskip.mpr h] at hst; cases hst
        have hfc := state_COUNTING_fullCount e hst
        obtain ⟨h1, h2⟩ := ih e (st.incrFullCount e._infos._fullCount) (by omega)
        refine ⟨?_, ?_⟩
        · rw [h1, incrFullCount_fullCount]
          simp only [fullCountInWindow, rows_cons_some, List.length_cons, hfc, if_true]
          omega
        · simp only [rows_cons_some, List.length_cons]
          omega
      | RETURNING =>
        rw [produceRowsLoop_returning _ _ _ _ hst]
        have hge : ¬ e._counter < e._infos._offset := fun h => by
          rw [hskip.mpr h] at hst; cases hst
        refine ⟨?_, ?_⟩
        · simp only [withPending_counter, withPending_rows, hinc, incrFullCount_fullCount,
            fullCountInWindow, rows_cons_some, List.length_cons]
          split_ifs <;> omega
        · simp only [withPending_counter, withPending_rows, hinc, rows_cons_some,
            List.length_cons]
          omega
      | RETURNING_LAST_ROW =>
        rw [produceRowsLoop_last_row _ _ _ _ hst]
        have hge : ¬ e._counter < e._infos._offset := fun h => by
          rw [hskip.mpr h] at hst; cases hst
        refine ⟨?_, ?_⟩
        · simp only [withPending_counter, withPending_rows, hinc, incrFullCount_fullCount,
            fullCountInWindow, rows_cons_some, List.length_cons]
          split_ifs <;> omega
        · simp only [withPending_counter, withPending_rows, hinc, rows_cons_some,
            List.length_cons]
          omega

theorem rowsInWindow_nil (o l c : Nat) : rowsInWindow o l c ([] : List Row) = [] := by
  simp [rowsInWindow]

theorem rowsInWindow_past (o l c : Nat) (rows : List Row) (h : o + l ≤ c) :
    rowsInWindow o l c rows = [] := by
  have : o + l - max c o = 0 := by omega
  simp [rowsInWindow, this]

theorem rowsInWindow_skip (o l c : Nat) (r : Row) (rows : List Row) (h : c < o) :
    rowsInWindow o l c (r :: rows) = rowsInWindow o l (c + 1) rows := by
  have h1 : o - c = (o - (c + 1)) + 1 := by omega
  have h2 : max (c + 1) o = max c o := by omega
  simp only [rowsInWindow, h1, h2, List.drop_succ_cons]

theorem rowsInWindow_emit (o l c : Nat) (r : Row) (rows : List Row) (h1 : o ≤ c)
    (h2 : c < o + l) :
    rowsInWindow o l c (r :: rows) = r :: rowsInWindow o l (c + 1) rows := by
  have e1 : o - c = 0 := by omega
  have e2 : o - (c + 1) = 0 := by omega
  have e3 : o + l - max c o = (o + l - max (c + 1) o) + 1 := by omega
  simp only [rowsInWindow, e1, e2, e3, List.drop_zero, List.take_succ_cons]

/-- The rows of a `produceRows` loop: the row the loop writes and the rows still
to be written after it are the rows that were to be written before it, for a
counter within offset + limit, a sum that does not wrap. -/
theorem produceRowsLoop_window (p : List (Option Row)) (e : LimitExecutor Row)
    (st : LimitStats) (hs : e._infos._offset + e._infos._limit < 2 ^ 64)
    (hc : e._counter ≤ e._infos._offset + e._infos._limit) :
    (LimitExecutor.produceRowsLoop p e st).executor._counter ≤
      e._infos._offset + e._infos._limit ∧
    (LimitExecutor.produceRowsLoop p e st).output.toList ++
        rowsInWindow e._infos._offset e._infos._limit
          (LimitExecutor.produceRowsLoop p e st).executor._counter
          (Fetcher.rows (LimitExecutor.produceRowsLoop p e st).executor._fetcher) =
      rowsInWindow e._infos._offset e._infos._limit e._counter
        (Fetcher.rows { pending := p }) ∧
    ((LimitExecutor.produceRowsLoop p e st).state = ExecutionState.DONE →
      rowsInWindow e._infos._offset e._infos._limit
        (LimitExecutor.produceRowsLoop p e st).executor._counter
        (Fetcher.rows (LimitExecutor.produceRowsLoop p e st).executor._fetcher) = []) ∧
    (e._infos._fullCount = false →
      (LimitExecutor.produceRowsLoop p e st).executor._counter +
          (Fetcher.rows (LimitExecutor.produceRowsLoop p e st).executor._fetcher).length =
        e._counter + (Fetcher.rows { pending := p }).length) ∧
    ((LimitExecutor.produceRowsLoop p e st).output.isSome = true →
      (LimitExecutor.produceRowsLoop p e st).state ≠ ExecutionState.DONE →
      e._infos._fullCount = false →
      e._infos._offset ≤ (LimitExecutor.produceRowsLoop p e st).executor._counter ∧
      (LimitExecutor.produceRowsLoop p e st).executor._counter <
        e._infos._offset + e._infos._limit) := by
  induction p generalizing e st with
  | nil =>
    rw [produceRowsLoop_nil]
    refine ⟨hc, ?_, fun _ => ?_, fun _ => rfl, fun h => ?_⟩
    · simp [rowsInWindow_nil]
    · simp [rowsInWindow_nil]
    · cases h
  | cons a rest ih =>
    obtain ⟨b1, b2, b3, b4, b5⟩ := currentState_bounds e hs hc
    cases a with
    | none =>
      by_cases h : e.currentState = LimitState.LIMIT_REACHED
      · rw [produceRowsLoop_limit _ _ _ h]
        refine ⟨hc, ?_, fun _ => ?_, fun _ => rfl, fun h => ?_⟩
        · simp
        · exact rowsInWindow_past _ _ _ _ (by have := (b5 h).1; simp only [withPending_counter]; omega)
        · cases h
      · rw [produceRowsLoop_waiting _ _ _ h]
        refine ⟨hc, ?_, fun h => ?_, fun _ => rfl, fun h => ?_⟩
        · simp
        · cases h
        · cases h
    | some r =>
      cases hst : e.currentState with
      | LIMIT_REACHED =>
        rw [produceRowsLoop_limit _ _ _ hst]
        refine ⟨hc, ?_, fun _ => ?_, fun _ => rfl, fun h => ?_⟩
        · simp
        · exact rowsInWindow_past _ _ _ _ (by have := (b5 hst).1; simp only [withPending_counter]; omega)
        · cases h
      | SKIPPING =>
        rw [produceRowsLoop_skipping _ _ _ _ hst]
        have hlt := b1 hst
        have hinc : e.incrCounter._counter = e._counter + 1 :=
          incrCounter_counter e (by omega)
        obtain ⟨h1, h2, h3, h4, h5⟩ := ih e.incrCounter st (by simpa using hs)
          (by rw [hinc]; simp only [incrCounter_infos]; omega)
        simp only [incrCounter_infos, hinc] at h1 h2 h3 h4 h5
        refine ⟨h1, ?_, h3, fun hfc => ?_, h5⟩
        · rw [h2, rows_cons_some, rowsInWindow_skip _ _ _ _ _ hlt]
        · rw [h4 hfc, rows_cons_some, List.length_cons]
          omega
      | COUNTING =>
        rw [produceRowsLoop_counting _ _ _ _ hst]
        obtain ⟨hceq, hfc⟩ := b4 hst
        obtain ⟨h1, h2, h3, h4, h5⟩ := ih e (st.incrFullCount e._infos._fullCount) hs hc
        refine ⟨h1, ?_, h3, fun hf => ?_, h5⟩
        · rw [h2, rowsInWindow_past _ _ _ _ (by omega), rowsInWindow_past _ _ _ _ (by omega)]
        · rw [hfc] at hf; cases hf
      | RETURNING =>
        rw [produceRowsLoop_returning _ _ _ _ hst]
        obtain ⟨hge, hlt⟩ := b2 hst
        have hinc : e.incrCounter._counter = e._counter + 1 :=
          incrCounter_counter e (by omega)
        refine ⟨?_, ?_, fun h => ?_, fun _ => ?_, fun _ _ _ => ?_⟩
        · simp only [withPending_counter, hinc]; omega
        · simp only [withPending_counter, withPending_rows, hinc, rows_cons_some,
            Option.toList_some, List.singleton_append]
          rw [rowsInWindow_emit _ _ _ _ _ hge (by omega)]
        · have h' : Fetcher.stateAfterRow rest = ExecutionState.DONE := h
          unfold Fetcher.stateAfterRow at h'
          split_ifs at h' with hr
          have hnil : rest = [] := by simpa using hr
          simp only [withPending_rows, hnil, rows_nil, rowsInWindow_nil]
        · simp only [withPending_counter, withPending_rows, hinc, rows_cons_some,
            List.length_cons]
          omega
        · simp only [withPending_counter, hinc]
          omega
      | RETURNING_LAST_ROW =>
        rw [produceRowsLoop_last_row _ _ _ _ hst]
        obtain ⟨hge, heq⟩ := b3 hst
        have hinc : e.incrCounter._counter = e._counter + 1 :=
          incrCounter_counter e (by omega)
        refine ⟨?_, ?_, fun _ => ?_, fun _ => ?_, fun _ hnd hfc => ?_⟩
        · simp only [withPending_counter, hinc]; omega
        · simp only [withPending_counter, withPending_rows, hinc, rows_cons_some,
            Option.toList_some, List.singleton_append]
          rw [rowsInWindow_emit _ _ _ _ _ hge (by omega)]
        · simp only [withPending_counter, hinc]
          exact rowsInWindow_past _ _ _ _ (by omega)
        · simp only [withPending_counter, withPending_rows, hinc, rows_cons_some,
            List.length_cons]
          omega
        · exfalso
          apply hnd
          show (if e._infos._fullCount then ExecutionState.HASMORE
            else ExecutionState.DONE) = ExecutionState.DONE
          rw [hfc]
          rfl


/-! ### The run of the driver on the limiting executor -/

theorem run_succ (calls : Nat) (e : LimitExecutor Row) :
    LimitExecutor.run (calls + 1) e =
      if e.produceRows.state = ExecutionState.DONE then [e.produceRows]
      else e.produceRows :: LimitExecutor.run calls e.produceRows.executor := rfl

theorem getLast?_cons_of_some (a b : ProduceResult Row) (l : List (ProduceResult Row))
    (h : l.getLast? = some b) : (a :: l).getLast? = some b := by
  cases l with
  | nil => cases h
  | cons c t => rw [List.getLast?_cons_cons]; exact h

/-- With more calls than the upstream has answers, the run ends with a call
that returns `DONE`, and no call before it returns `DONE`. -/
theorem run_last_done (calls : Nat) (e : LimitExecutor Row)
    (hn : e._fetcher.pending.length < calls) :
    (∃ r, (LimitExecutor.run calls e).getLast? = some r ∧ r.state = ExecutionState.DONE ∧
      (e._infos._fullCount = true → r.executor._fetcher.pending = [])) ∧
    (∀ r, r ∈ (LimitExecutor.run calls e).dropLast → r.state ≠ ExecutionState.DONE) := by
  induction calls generalizing e with
  | zero => omega
  | succ calls ih =>
    rw [run_succ]
    obtain ⟨c1, c2⟩ := produceRowsLoop_consumes e._fetcher.pending e { _fullCount := 0 }
    have i1 : e.produceRows.executor._infos = e._infos :=
      (produceRowsLoop_inv e._fetcher.pending e { _fullCount := 0 }).1
    by_cases hd : e.produceRows.state = ExecutionState.DONE
    · rw [if_pos hd]
      refine ⟨⟨e.produceRows, rfl, hd, fun hfc => c2 hd hfc⟩, ?_⟩
      intro r hr
      simp at hr
    · rw [if_neg hd]
      have hlt : e.produceRows.executor._fetcher.pending.length < e._fetcher.pending.length :=
        c1 hd
      obtain ⟨⟨r, hr1, hr2, hr3⟩, hrest⟩ := ih e.produceRows.executor (by omega)
      refine ⟨⟨r, getLast?_cons_of_some _ _ _ hr1, hr2, fun hfc => hr3 (by rw [i1]; exact hfc)⟩,
        ?_⟩
      intro x hx
      have hne : LimitExecutor.run calls e.produceRows.executor ≠ [] := by
        intro hnil
        rw [hnil] at hr1
        cases hr1
      rw [List.dropLast_cons_of_ne_nil hne] at hx
      rcases List.mem_cons.mp hx with hx | hx
      · rw [hx]; exact hd
      · exact hrest x hx

theorem emittedRows_cons (r : ProduceResult Row) (l : List (ProduceResult Row)) :
    emittedRows (r :: l) = r.output.toList ++ emittedRows l := by
  unfold emittedRows
  rw [List.filterMap_cons]
  cases r.output <;> rfl

/-- The rows the run writes are the rows that were to be written, in order. -/
theorem run_emitted (calls : Nat) (e : LimitExecutor Row)
    (hs : e._infos._offset + e._infos._limit < 2 ^ 64)
    (hc : e._counter ≤ e._infos._offset + e._infos._limit)
    (hn : e._fetcher.pending.length < calls) :
    emittedRows (LimitExecutor.run calls e) =
      rowsInWindow e._infos._offset e._infos._limit e._counter (Fetcher.rows e._fetcher) := by
  induction calls generalizing e with
  | zero => omega
  | succ calls ih =>
    rw [run_succ]
    obtain ⟨c1, -⟩ := produceRowsLoop_consumes e._fetcher.pending e { _fullCount := 0 }
    obtain ⟨w1, w2, w3, -, -⟩ :=
      produceRowsLoop_window e._fetcher.pending e { _fullCount := 0 } hs hc
    have i1 : e.produceRows.executor._infos = e._infos :=
      (produceRowsLoop_inv e._fetcher.pending e { _fullCount := 0 }).1
    have w2' : e.produceRows.output.toList ++
        rowsInWindow e._infos._offset e._infos._limit e.produceRows.executor._counter
          (Fetcher.rows e.produceRows.executor._fetcher) =
        rowsInWindow e._infos._offset e._infos._limit e._counter (Fetcher.rows e._fetcher) := w2
    by_cases hd : e.produceRows.state = ExecutionState.DONE
    · rw [if_pos hd, emittedRows_cons, ← w2']
      have w3' : rowsInWindow e._infos._offset e._infos._limit e.produceRows.executor._counter
          (Fetcher.rows e.produceRows.executor._fetcher) = [] := w3 hd
      rw [w3']
      rfl
    · rw [if_neg hd, emittedRows_cons, ← w2']
      have hlt : e.produceRows.executor._fetcher.pending.length < e._fetcher.pending.length :=
        c1 hd
      rw [ih e.produceRows.executor (by rw [i1]; exact hs) (by rw [i1]; exact w1) (by omega), i1]

/-- The merged full-count statistic of the run is what was to be counted. -/
theorem run_fullCount (calls : Nat) (e : LimitExecutor Row)
    (hb : e._counter + (Fetcher.rows e._fetcher).length < 2 ^ 64)
    (hn : e._fetcher.pending.length < calls) :
    (mergedStats (LimitExecutor.run calls e))._fullCount =
      fullCountInWindow e._infos._offset e._counter e._infos._fullCount
        (Fetcher.rows e._fetcher) := by
  induction calls generalizing e with
  | zero => omega
  | succ calls ih =>
    rw [run_succ]
    obtain ⟨c1, c2⟩ := produceRowsLoop_consumes e._fetcher.pending e { _fullCount := 0 }
    obtain ⟨f1, f2⟩ := produceRowsLoop_fullCount e._fetcher.pending e { _fullCount := 0 } hb
    have i1 : e.produceRows.executor._infos = e._infos :=
      (produceRowsLoop_inv e._fetcher.pending e { _fullCount := 0 }).1
    have f1' : e.produceRows.stats._fullCount +
        fullCountInWindow e._infos._offset e.produceRows.executor._counter e._infos._fullCount
          (Fetcher.rows e.produceRows.executor._fetcher) =
        0 + fullCountInWindow e._infos._offset e._counter e._infos._fullCount
          (Fetcher.rows e._fetcher) := f1
    have f2' : e.produceRows.executor._counter +
        (Fetcher.rows e.produceRows.executor._fetcher).length ≤
        e._counter + (Fetcher.rows e._fetcher).length := f2
    rw [Nat.zero_add] at f1'
    by_cases hd : e.produceRows.state = ExecutionState.DONE
    · rw [if_pos hd, ← f1']
      have hz : fullCountInWindow e._infos._offset e.produceRows.executor._counter
          e._infos._fullCount (Fetcher.rows e.produceRows.executor._fetcher) = 0 := by
        unfold fullCountInWindow
        split_ifs with hfc
        · have hnil : e.produceRows.executor._fetcher.pending = [] := c2 hd hfc
          have : Fetcher.rows e.produceRows.executor._fetcher = [] := by
            unfold Fetcher.rows
            rw [hnil]
            rfl
          rw [this]
          exact Nat.zero_sub _
        · rfl
      rw [hz]
      rfl
    · rw [if_neg hd, ← f1']
      have hlt : e.produceRows.executor._fetcher.pending.length < e._fetcher.pending.length :=
        c1 hd
      have := ih e.produceRows.executor (by omega) (by omega)
      rw [i1] at this
      show e.produceRows.stats._fullCount +
        (mergedStats (LimitExecutor.run calls e.produceRows.executor))._fullCount = _
      rw [this]

/-- Without fullCount and with enough rows upstream to reach offset + limit,
the last call of the run returns `DONE` and writes the last of the rows that
were to be written. -/
theorem run_last_output (calls : Nat) (e : LimitExecutor Row)
    (hs : e._infos._offset + e._infos._limit < 2 ^ 64)
    (hc : e._counter ≤ e._infos._offset + e._infos._limit)
    (hfc : e._infos._fullCount = false)
    (hrows : e._infos._offset + e._infos._limit ≤ e._counter + (Fetcher.rows e._fetcher).length)
    (hn : e._fetcher.pending.length < calls) :
    ∃ r, (LimitExecutor.run calls e).getLast? = some r ∧ r.state = ExecutionState.DONE ∧
      r.output = (rowsInWindow e._infos._offset e._infos._limit e._counter
        (Fetcher.rows e._fetcher)).getLast? := by
  induction calls generalizing e with
  | zero => omega
  | succ calls ih =>
    rw [run_succ]
    obtain ⟨c1, -⟩ := produceRowsLoop_consumes e._fetcher.pending e { _fullCount := 0 }
    obtain ⟨w1, w2, w3, w4, w5⟩ :=
      produceRowsLoop_window e._fetcher.pending e { _fullCount := 0 } hs hc
    have i1 : e.produceRows.executor._infos = e._infos :=
      (produceRowsLoop_inv e._fetcher.pending e { _fullCount := 0 }).1
    have w1' : e.produceRows.executor._counter ≤ e._infos._offset + e._infos._limit := w1
    have w2' : e.produceRows.output.toList ++
        rowsInWindow e._infos._offset e._infos._limit e.produceRows.executor._counter
          (Fetcher.rows e.produceRows.executor._fetcher) =
        rowsInWindow e._infos._offset e._infos._limit e._counter (Fetcher.rows e._fetcher) := w2
    have w4' : e.produceRows.executor._counter +
        (Fetcher.rows e.produceRows.executor._fetcher).length =
        e._counter + (Fetcher.rows e._fetcher).length := w4 hfc
    by_cases hd : e.produceRows.state = ExecutionState.DONE
    · rw [if_pos hd]
      refine ⟨e.produceRows, rfl, hd, ?_⟩
      have w3' : rowsInWindow e._infos._offset e._infos._limit e.produceRows.executor._counter
          (Fetcher.rows e.produceRows.executor._fetcher) = [] := w3 hd
      rw [← w2', w3', List.append_nil]
      cases e.produceRows.output <;> rfl
    · rw [if_neg hd]
      have hlt : e.produceRows.executor._fetcher.pending.length < e._fetcher.pending.length :=
        c1 hd
      obtain ⟨r, hr1, hr2, hr3⟩ := ih e.produceRows.executor (by rw [i1]; exact hs)
        (by rw [i1]; exact w1') (by rw [i1]; exact hfc) (by rw [i1]; omega) (by omega)
      rw [i1] at hr3
      refine ⟨r, getLast?_cons_of_some _ _ _ hr1, hr2, ?_⟩
      rw [hr3, ← w2']
      cases hout : e.produceRows.output with
      | none => rfl
      | some x =>
        have w5' : e._infos._offset ≤ e.produceRows.executor._counter ∧
            e.produceRows.executor._counter < e._infos._offset + e._infos._limit :=
          w5 (by
            show e.produceRows.output.isSome = true
            rw [hout]; rfl) hd hfc
        have hne : rowsInWindow e._infos._offset e._infos._limit
            e.produceRows.executor._counter
            (Fetcher.rows e.produceRows.executor._fetcher) ≠ [] := by
          intro hnil
          have hlen := congrArg List.length hnil
          simp only [rowsInWindow, List.length_take, List.length_drop, List.length_nil] at hlen
          omega
        rw [List.getLast?_append_of_ne_nil _ hne]

/-! ### The asserted invariant holds in every state the driver reaches -/

theorem counterAfterRows_le_sum (j : Nat) (e : LimitExecutor Row)
    (hs : e._infos._offset + e._infos._limit < 2 ^ 64)
    (hc : e._counter ≤ e._infos._offset + e._infos._limit) :
    e.counterAfterRows j ≤ e._infos._offset + e._infos._limit := by
  induction j generalizing e with
  | zero => exact hc
  | succ j ih =>
    obtain ⟨b1, b2, b3, -, -⟩ := currentState_bounds e hs hc
    have hstep : e._counter < e._infos._offset + e._infos._limit →
        e.incrCounter.counterAfterRows j ≤ e._infos._offset + e._infos._limit := by
      intro hlt
      have hinc : e.incrCounter._counter = e._counter + 1 := incrCounter_counter e (by omega)
      exact ih e.incrCounter (by simpa using hs) (by rw [hinc]; simp only [incrCounter_infos]; omega)
    cases hst : e.currentState with
    | COUNTING => rw [counterAfterRows_terminal _ e (Or.inl hst)]; exact hc
    | LIMIT_REACHED => rw [counterAfterRows_terminal _ e (Or.inr hst)]; exact hc
    | SKIPPING =>
      rw [counterAfterRows_step _ e (Or.inl hst)]
      exact hstep (by have := b1 hst; omega)
    | RETURNING =>
      rw [counterAfterRows_step _ e (Or.inr (Or.inl hst))]
      exact hstep (by have := b2 hst; omega)
    | RETURNING_LAST_ROW =>
      rw [counterAfterRows_step _ e (Or.inr (Or.inr hst))]
      exact hstep (by have := b3 hst; omega)

/-- Every state the driver reaches from a freshly constructed executor, by
`produceRows` and `skipRows` calls in any order and on any upstream, keeps the
configuration and satisfies the invariant that `maxRowsLeftToFetch` asserts:
`getLimitPlusOffset() >= _counter`. -/
theorem afterCalls_invariant (calls : List LimitCall) (e : LimitExecutor Row)
    (hs : e._infos._offset + e._infos._limit < 2 ^ 64)
    (hc : e._counter ≤ e._infos._offset + e._infos._limit) :
    (e.afterCalls calls)._infos = e._infos ∧
    (e.afterCalls calls)._counter ≤ e.infos.getLimitPlusOffset := by
  have hsum : e.infos.getLimitPlusOffset = e._infos._offset + e._infos._limit :=
    Nat.mod_eq_of_lt hs
  rw [hsum]
  clear hsum
  induction calls generalizing e with
  | nil => exact ⟨rfl, hc⟩
  | cons call rest ih =>
    have hstep : (e.afterCall call)._infos = e._infos ∧
        (e.afterCall call)._counter ≤ e._infos._offset + e._infos._limit := by
      cases call with
      | produceRows =>
        obtain ⟨p1, -, -, p4⟩ := produceRowsLoop_inv e._fetcher.pending e { _fullCount := 0 }
        refine ⟨p1, ?_⟩
        show (LimitExecutor.produceRowsLoop e._fetcher.pending e _).executor._counter ≤ _
        rw [p4]
        exact counterAfterRows_le_sum _ e hs hc
      | skipRows k =>
        obtain ⟨p1, -, -, p4⟩ := skipRowsLoop_inv k e._fetcher.pending e { _fullCount := 0 } 0
        refine ⟨p1, ?_⟩
        show (LimitExecutor.skipRowsLoop k e._fetcher.pending e _ 0).executor._counter ≤ _
        rw [p4]
        exact counterAfterRows_le_sum _ e hs hc
    obtain ⟨s1, s2⟩ := hstep
    obtain ⟨h1, h2⟩ := ih (e.afterCall call) (by rw [s1]; exact hs) (by rw [s1]; exact s2)
    rw [s1] at h1 h2
    exact ⟨h1, h2⟩

/-- The invariant from a freshly constructed executor. -/
theorem reachable_counter_le (infos : LimitExecutorInfos) (fetcher : Fetcher Row)
    (calls : List LimitCall) (hs : infos._offset + infos._limit < 2 ^ 64) :
    ((LimitExecutor.init infos fetcher).afterCalls calls)._infos = infos ∧
    ((LimitExecutor.init infos fetcher).afterCalls calls)._counter ≤
      infos.getLimitPlusOffset :=
  afterCalls_invariant calls (LimitExecutor.init infos fetcher) hs (Nat.zero_le _)

/-- With limit 0 the derived state is `SKIPPING` below the offset and
`COUNTING` or `LIMIT_REACHED` from the offset on, for every counter within the
asserted invariant or below the largest `size_t` value. -/
theorem currentState_of_limit_zero (e : LimitExecutor Row)
    (hL : e._infos._limit = 0) (hO : e._infos._offset < 2 ^ 64)
    (hc : e._counter ≤ e.infos.getLimitPlusOffset ∨ e._counter + 1 < 2 ^ 64) :
    e.currentState =
      if e._counter < e._infos._offset then LimitState.SKIPPING
      else if e._infos._fullCount then LimitState.COUNTING else LimitState.LIMIT_REACHED := by
  have hs : e._infos._offset + e._infos._limit < 2 ^ 64 := by omega
  rw [currentState_within e hs hc]
  by_cases h1 : e._counter < e._infos._offset
  · simp [h1]
  · have h2 : ¬ e._counter + 1 = e._infos._offset + e._infos._limit := by omega
    have h3 : ¬ e._counter < e._infos._offset + e._infos._limit := by omega
    simp only [h1, h2, h3, if_false]

/-- With limit 0 a `produceRows` loop writes no row. -/
theorem produceRowsLoop_limit_zero (p : List (Option Row)) (e : LimitExecutor Row)
    (st : LimitStats) (hL : e._infos._limit = 0) (hO : e._infos._offset < 2 ^ 64)
    (hc : e._counter ≤ e.infos.getLimitPlusOffset ∨ e._counter + 1 < 2 ^ 64) :
    (LimitExecutor.produceRowsLoop p e st).output = none := by
  induction p generalizing e st with
  | nil => rw [produceRowsLoop_nil]
  | cons a rest ih =>
    cases a with
    | none =>
      by_cases h : e.currentState = LimitState.LIMIT_REACHED
      · rw [produceRowsLoop_limit _ _ _ h]
      · rw [produceRowsLoop_waiting _ _ _ h]
    | some r =>
      by_cases h1 : e._counter < e._infos._offset
      · have hst : e.currentState = LimitState.SKIPPING := by
          rw [currentState_of_limit_zero e hL hO hc, if_pos h1]
        rw [produceRowsLoop_skipping _ _ _ _ hst]
        have hinc : e.incrCounter._counter = e._counter + 1 := incrCounter_counter e (by omega)
        refine ih e.incrCounter st hL hO (Or.inl ?_)
        show e.incrCounter._counter ≤ (e._infos._offset + e._infos._limit) % 2 ^ 64
        rw [hinc, Nat.mod_eq_of_lt (by omega)]
        omega
      · cases hfc : e._infos._fullCount with
        | true =>
          have hst : e.currentState = LimitState.COUNTING := by
            rw [currentState_of_limit_zero e hL hO hc, if_neg h1, hfc]; rfl
          rw [produceRowsLoop_counting _ _ _ _ hst]
          exact ih e _ hL hO hc
        | false =>
          have hst : e.currentState = LimitState.LIMIT_REACHED := by
            rw [currentState_of_limit_zero e hL hO hc, if_neg h1, hfc]; rfl
          rw [produceRowsLoop_limit _ _ _ hst]

/-- The last of the rows at positions `[O, O + L)` is the row at position
`O + L - 1`. -/
theorem getLast?_drop_take (rows : List Row) (o l : Nat) (hl : 1 ≤ l)
    (hn : o + l ≤ rows.length) :
    ((rows.drop o).take l).getLast? = rows[o + l - 1]? := by
  rw [List.getLast?_eq_getElem?, List.length_take, List.length_drop]
  have h1 : min l (rows.length - o) - 1 = l - 1 := by omega
  rw [h1, List.getElem?_take_of_lt (by omega), List.getElem?_drop]
  congr 1
  omega


/-! ### The counter only advances -/

theorem counterAfterRows_ge (j : Nat) (e : LimitExecutor Row)
    (hs : e._infos._offset + e._infos._limit < 2 ^ 64)
    (hc : e._counter ≤ e._infos._offset + e._infos._limit) :
    e._counter ≤ e.counterAfterRows j := by
  induction j generalizing e with
  | zero => exact le_refl _
  | succ j ih =>
    obtain ⟨b1, b2, b3, -, -⟩ := currentState_bounds e hs hc
    have hstep : e._counter < e._infos._offset + e._infos._limit →
        e._counter ≤ e.incrCounter.counterAfterRows j := by
      intro hlt
      have hinc : e.incrCounter._counter = e._counter + 1 := incrCounter_counter e (by omega)
      have := ih e.incrCounter (by simpa using hs)
        (by rw [hinc]; simp only [incrCounter_infos]; omega)
      omega
    cases hst : e.currentState with
    | COUNTING => rw [counterAfterRows_terminal _ e (Or.inl hst)]
    | LIMIT_REACHED => rw [counterAfterRows_terminal _ e (Or.inr hst)]
    | SKIPPING =>
      rw [counterAfterRows_step _ e (Or.inl hst)]
      exact hstep (by have := b1 hst; omega)
    | RETURNING =>
      rw [counterAfterRows_step _ e (Or.inr (Or.inl hst))]
      exact hstep (by have := b2 hst; omega)
    | RETURNING_LAST_ROW =>
      rw [counterAfterRows_step _ e (Or.inr (Or.inr hst))]
      exact hstep (by have := b3 hst; omega)

theorem afterCalls_append (l1 l2 : List LimitCall) (e : LimitExecutor Row) :
    e.afterCalls (l1 ++ l2) = (e.afterCalls l1).afterCalls l2 := by
  induction l1 generalizing e with
  | nil => rfl
  | cons call rest ih => exact ih (e.afterCall call)

/-- No call of the driver moves `_counter` back. -/
theorem afterCalls_counter_mono (calls : List LimitCall) (e : LimitExecutor Row)
    (hs : e._infos._offset + e._infos._limit < 2 ^ 64)
    (hc : e._counter ≤ e._infos._offset + e._infos._limit) :
    e._counter ≤ (e.afterCalls calls)._counter := by
  induction calls generalizing e with
  | nil => exact le_refl _
  | cons call rest ih =>
    have hinv := afterCalls_invariant [call] e hs hc
    have hsum : e.infos.getLimitPlusOffset = e._infos._offset + e._infos._limit :=
      Nat.mod_eq_of_lt hs
    rw [hsum] at hinv
    obtain ⟨s1, s2⟩ := hinv
    have s1' : (e.afterCall call)._infos = e._infos := s1
    have s2' : (e.afterCall call)._counter ≤ e._infos._offset + e._infos._limit := s2
    have hstep : e._counter ≤ (e.afterCall call)._counter := by
      cases call with
      | produceRows =>
        obtain ⟨-, -, -, p4⟩ := produceRowsLoop_inv e._fetcher.pending e { _fullCount := 0 }
        show _ ≤ (LimitExecutor.produceRowsLoop e._fetcher.pending e _).executor._counter
        rw [p4]
        exact counterAfterRows_ge _ e hs hc
      | skipRows k =>
        obtain ⟨-, -, -, p4⟩ := skipRowsLoop_inv k e._fetcher.pending e { _fullCount := 0 } 0
        show _ ≤ (LimitExecutor.skipRowsLoop k e._fetcher.pending e _ 0).executor._counter
        rw [p4]
        exact counterAfterRows_ge _ e hs hc
    have := ih (e.afterCall call) (by rw [s1']; exact hs) (by rw [s1']; exact s2')
    exact le_trans hstep this


/-! ### The full count when the counter stays within offset + limit -/

/-- The full-count statistic of a `produceRows` loop for a counter within
offset + limit, a sum that does not wrap: no bound on the number of rows
upstream is needed, since the counter stops at offset + limit. -/
theorem produceRowsLoop_fullCount_within (p : List (Option Row)) (e : LimitExecutor Row)
    (st : LimitStats) (hs : e._infos._offset + e._infos._limit < 2 ^ 64)
    (hc : e._counter ≤ e._infos._offset + e._infos._limit) :
    (LimitExecutor.produceRowsLoop p e st).stats._fullCount +
        fullCountInWindow e._infos._offset (LimitExecutor.produceRowsLoop p e st).executor._counter
          e._infos._fullCount
          (Fetcher.rows (LimitExecutor.produceRowsLoop p e st).executor._fetcher) =
      st._fullCount +
        fullCountInWindow e._infos._offset e._counter e._infos._fullCount
          (Fetcher.rows { pending := p }) := by
  induction p generalizing e st with
  | nil =>
    rw [produceRowsLoop_nil]
    rfl
  | cons a rest ih =>
    obtain ⟨b1, b2, b3, b4, b5⟩ := currentState_bounds e hs hc
    cases a with
    | none =>
      by_cases h : e.currentState = LimitState.LIMIT_REACHED
      · rw [produceRowsLoop_limit _ _ _ h]
        rfl
      · rw [produceRowsLoop_waiting _ _ _ h]
        rfl
    | some r =>
      cases hst : e.currentState with
      | LIMIT_REACHED =>
        rw [produceRowsLoop_limit _ _ _ hst]
        rfl
      | SKIPPING =>
        rw [produceRowsLoop_skipping _ _ _ _ hst]
        have hlt := b1 hst
        have hinc : e.incrCounter._counter = e._counter + 1 :=
          incrCounter_counter e (by omega)
        have h1 := ih e.incrCounter st (by simpa using hs)
          (by rw [hinc]; simp only [incrCounter_infos]; omega)
        rw [hinc] at h1
        simp only [incrCounter_infos] at h1
        rw [h1]
        simp only [fullCountInWindow, rows_cons_some, List.length_cons]
        split_ifs <;> omega
      | COUNTING =>
        rw [produceRowsLoop_counting _ _ _ _ hst]
        obtain ⟨hceq, hfc⟩ := b4 hst
        have h1 := ih e (st.incrFullCount e._infos._fullCount) hs hc
        rw [h1, incrFullCount_fullCount]
        simp only [fullCountInWindow, rows_cons_some, List.length_cons, hfc, if_true]
        omega
      | RETURNING =>
        rw [produceRowsLoop_returning _ _ _ _ hst]
        obtain ⟨hge, hlt⟩ := b2 hst
        have hinc : e.incrCounter._counter = e._counter + 1 :=
          incrCounter_counter e (by omega)
        simp only [withPending_counter, withPending_rows, hinc, incrFullCount_fullCount,
          fullCountInWindow, rows_cons_some, List.length_cons]
        split_ifs <;> omega
      | RETURNING_LAST_ROW =>
        rw [produceRowsLoop_last_row _ _ _ _ hst]
        obtain ⟨hge, heq⟩ := b3 hst
        have hinc : e.incrCounter._counter = e._counter + 1 :=
          incrCounter_counter e (by omega)
        simp only [withPending_counter, withPending_rows, hinc, incrFullCount_fullCount,
          fullCountInWindow, rows_cons_some, List.length_cons]
        split_ifs <;> omega

/-- The merged full-count statistic of the run for a counter within
offset + limit, a sum that does not wrap. -/
theorem run_fullCount_within (calls : Nat) (e : LimitExecutor Row)
    (hs : e._infos._offset + e._infos._limit < 2 ^ 64)
    (hc : e._counter ≤ e._infos._offset + e._infos._limit)
    (hn : e._fetcher.pending.length < calls) :
    (mergedStats (LimitExecutor.run calls e))._fullCount =
      fullCountInWindow e._infos._offset e._counter e._infos._fullCount
        (Fetcher.rows e._fetcher) := by
  induction calls generalizing e with
  | zero => omega
  | succ calls ih =>
    rw [run_succ]
    obtain ⟨c1, c2⟩ := produceRowsLoop_consumes e._fetcher.pending e { _fullCount := 0 }
    have f1 := produceRowsLoop_fullCount_within e._fetcher.pending e { _fullCount := 0 } hs hc
    have w1 := (produceRowsLoop_window e._fetcher.pending e { _fullCount := 0 } hs hc).1
    have i1 : e.produceRows.executor._infos = e._infos :=
      (produceRowsLoop_inv e._fetcher.pending e { _fullCount := 0 }).1
    have f1' : e.produceRows.stats._fullCount +
        fullCountInWindow e._infos._offset e.produceRows.executor._counter e._infos._fullCount
          (Fetcher.rows e.produceRows.executor._fetcher) =
        0 + fullCountInWindow e._infos._offset e._counter e._infos._fullCount
          (Fetcher.rows e._fetcher) := f1
    have w1' : e.produceRows.executor._counter ≤ e._infos._offset + e._infos._limit := w1
    rw [Nat.zero_add] at f1'
    by_cases hd : e.produceRows.state = ExecutionState.DONE
    · rw [if_pos hd, ← f1']
      have hz : fullCountInWindow e._infos._offset e.produceRows.executor._counter
          e._infos._fullCount (Fetcher.rows e.produceRows.executor._fetcher) = 0 := by
        unfold fullCountInWindow
        split_ifs with hfc
        · have hnil : e.produceRows.executor._fetcher.pending = [] := c2 hd hfc
          have : Fetcher.rows e.produceRows.executor._fetcher = [] := by
            unfold Fetcher.rows
            rw [hnil]
            rfl
          rw [this]
          exact Nat.zero_sub _
        · rfl
      rw [hz]
      rfl
    · rw [if_neg hd, ← f1']
      have hlt : e.produceRows.executor._fetcher.pending.length < e._fetcher.pending.length :=
        c1 hd
      have := ih e.produceRows.executor (by rw [i1]; exact hs) (by rw [i1]; exact w1')
        (by omega)
      rw [i1] at this
      show e.produceRows.stats._fullCount +
        (mergedStats (LimitExecutor.run calls e.produceRows.executor))._fullCount = _
      rw [this]

end Lemmas

/-! ## The derived state of the limiting executor -/

section DerivedState

variable {Row : Type}

/-- The counters in `[0, N)` at which a row is returned: for `N < 2 ^ 64` and
`O + L` not overflowing, the counter values at which `currentState` is
`RETURNING` or `RETURNING_LAST_ROW` number `max(0, min(L, N - O))`. -/
theorem returning_counters_count (e : LimitExecutor Row) (N : Nat) (hN : N < 2 ^ 64)
    (hs : e._infos._offset + e._infos._limit < 2 ^ 64) :
    ((((List.range N).filter (fun c =>
        decide ((e.atCounter c).currentState = LimitState.RETURNING ∨
          (e.atCounter c).currentState = LimitState.RETURNING_LAST_ROW))).length : Nat) : Int) =
      max 0 (min (e._infos._limit : Int) ((N : Int) - (e._infos._offset : Int))) := by
  have hfilter : (List.range N).filter (fun c =>
        decide ((e.atCounter c).currentState = LimitState.RETURNING ∨
          (e.atCounter c).currentState = LimitState.RETURNING_LAST_ROW)) =
      (List.range N).filter (fun c =>
        decide (e._infos._offset ≤ c ∧ c < e._infos._offset + e._infos._limit)) := by
    apply List.filter_congr
    intro c hcN
    have hcN : c < N := List.mem_range.mp hcN
    have := returning_iff_window (e.atCounter c) (by simp; omega) (by simpa using hs)
    simp only [atCounter_counter, atCounter_infos] at this
    simp only [this]
  rw [hfilter, filter_range_window, List.length_range']
  omega

/-- The counters in `[0, N)` at which a row is counted: with fullCount enabled
the counter values at which `currentState` is `RETURNING`,
`RETURNING_LAST_ROW` or `COUNTING` number `max(0, N - O)`, whatever `L` is. -/
theorem counted_counters_count (e : LimitExecutor Row) (N : Nat)
    (hfc : e._infos._fullCount = true) :
    ((((List.range N).filter (fun c =>
        decide ((e.atCounter c).currentState = LimitState.RETURNING ∨
          (e.atCounter c).currentState = LimitState.RETURNING_LAST_ROW ∨
          (e.atCounter c).currentState = LimitState.COUNTING))).length : Nat) : Int) =
      max 0 ((N : Int) - (e._infos._offset : Int)) := by
  have hfilter : (List.range N).filter (fun c =>
        decide ((e.atCounter c).currentState = LimitState.RETURNING ∨
          (e.atCounter c).currentState = LimitState.RETURNING_LAST_ROW ∨
          (e.atCounter c).currentState = LimitState.COUNTING)) =
      (List.range N).filter (fun c => decide (e._infos._offset ≤ c ∧ c < N)) := by
    apply List.filter_congr
    intro c hcN
    have hcN : c < N := List.mem_range.mp hcN
    rw [currentState_unfold]
    simp only [atCounter_counter, atCounter_infos, hfc]
    split_ifs <;> simp <;> omega
  rw [hfilter, filter_range_window, List.length_range']
  omega

/-- The derived state by counter, for `L >= 1`, `O + L <= N < 2 ^ 64` and
fullCount disabled: `SKIPPING` on `[0, O)`, `RETURNING` on `[O, O + L - 1)`,
`RETURNING_LAST_ROW` at `O + L - 1`, `LIMIT_REACHED` from `O + L` on, and the
counters below `N` at which a row is returned are `O, ..., O + L - 1` in
order. -/
theorem states_by_counter (e : LimitExecutor Row) (N : Nat) (hN : N < 2 ^ 64)
    (hL : 1 ≤ e._infos._limit) (hNOL : e._infos._offset + e._infos._limit ≤ N)
    (hfc : e._infos._fullCount = false) :
    (∀ c, c < e._infos._offset → (e.atCounter c).currentState = LimitState.SKIPPING) ∧
    (∀ c, e._infos._offset ≤ c → c + 1 < e._infos._offset + e._infos._limit →
      (e.atCounter c).currentState = LimitState.RETURNING) ∧
    (e.atCounter (e._infos._offset + e._infos._limit - 1)).currentState
      = LimitState.RETURNING_LAST_ROW ∧
    (∀ c, e._infos._offset + e._infos._limit ≤ c → c < 2 ^ 64 →
      (e.atCounter c).currentState = LimitState.LIMIT_REACHED) ∧
    (List.range N).filter (fun c =>
        decide ((e.atCounter c).currentState = LimitState.RETURNING ∨
          (e.atCounter c).currentState = LimitState.RETURNING_LAST_ROW)) =
      List.range' e._infos._offset e._infos._limit := by
  have hs : e._infos._offset + e._infos._limit < 2 ^ 64 := by omega
  refine ⟨?_, ?_, ?_, ?_, ?_⟩
  · intro c hc
    rw [currentState_unfold]
    simp [hc]
  · intro c h1 h2
    rw [currentState_exact _ (by simp; omega) (by simpa using hs)]
    simp only [atCounter_counter, atCounter_infos]
    split_ifs <;> first | rfl | omega
  · rw [currentState_exact _ (by simp; omega) (by simpa using hs)]
    simp only [atCounter_counter, atCounter_infos]
    split_ifs <;> first | rfl | omega
  · intro c h1 h2
    rw [currentState_unfold]
    simp only [atCounter_counter, atCounter_infos, hfc, Nat.mod_eq_of_lt hs]
    have h3 : (c + 1) % 2 ^ 64 ≠ e._infos._offset + e._infos._limit := by
      rcases Nat.lt_or_ge (c + 1) (2 ^ 64) with h | h
      · rw [Nat.mod_eq_of_lt h]; omega
      · have h4 : c + 1 = 2 ^ 64 := by omega
        rw [h4, Nat.mod_self]; omega
    split_ifs <;> first | rfl | omega | contradiction
  · have hfilter : (List.range N).filter (fun c =>
          decide ((e.atCounter c).currentState = LimitState.RETURNING ∨
            (e.atCounter c).currentState = LimitState.RETURNING_LAST_ROW)) =
        (List.range N).filter (fun c =>
          decide (e._infos._offset ≤ c ∧ c < e._infos._offset + e._infos._limit)) := by
      apply List.filter_congr
      intro c hcN
      have hcN : c < N := List.mem_range.mp hcN
      have := returning_iff_window (e.atCounter c) (by simp; omega) (by simpa using hs)
      simp only [atCounter_counter, atCounter_infos] at this
      simp only [this]
    rw [hfilter, filter_range_window]
    congr 1
    omega

/-- C1: for every upstream of `N` input rows, with `WAITING` rounds anywhere
among its answers, and all offsets `O` and limits `L` with `O + L` not
overflowing `size_t`, the run of `produceRows` calls up to `DONE` ends and the
rows the limiting executor emits in it number `max(0, min(L, N - O))`; in terms
of the derived state, for every `N < 2 ^ 64` the number of counter values `c`
in `[0, N)` at which `currentState` is `RETURNING` or `RETURNING_LAST_ROW` is
`max(0, min(L, N - O))`. -/
theorem emitted_row_count (infos : LimitExecutorInfos) (pending : List (Option Row))
    (calls : Nat) (hs : infos._offset + infos._limit < 2 ^ 64)
    (hcalls : pending.length < calls) :
    (∃ r, ((LimitExecutor.init infos (Fetcher.mk pending)).run calls).getLast? = some r ∧
      r.state = ExecutionState.DONE) ∧
    (((emittedRows ((LimitExecutor.init infos (Fetcher.mk pending)).run calls)).length : Nat)
        : Int) =
      max 0 (min (infos._limit : Int)
        (((Fetcher.rows (Fetcher.mk pending)).length : Int) - (infos._offset : Int))) ∧
    (∀ N, N < 2 ^ 64 →
      ((((List.range N).filter (fun c =>
          decide (((LimitExecutor.init infos (Fetcher.mk pending)).atCounter c).currentState
              = LimitState.RETURNING ∨
            ((LimitExecutor.init infos (Fetcher.mk pending)).atCounter c).currentState
              = LimitState.RETURNING_LAST_ROW))).length : Nat) : Int) =
        max 0 (min (infos._limit : Int) ((N : Int) - (infos._offset : Int)))) := by
  refine ⟨?_, ?_, ?_⟩
  · obtain ⟨⟨r, h1, h2, -⟩, -⟩ :=
      run_last_done calls (LimitExecutor.init infos (Fetcher.mk pending)) hcalls
    exact ⟨r, h1, h2⟩
  · rw [run_emitted calls (LimitExecutor.init infos (Fetcher.mk pending)) hs (Nat.zero_le _)
      hcalls]
    show ((List.length (rowsInWindow infos._offset infos._limit 0
      (Fetcher.rows (Fetcher.mk pending))) : Nat) : Int) = _
    simp only [rowsInWindow, List.length_take, List.length_drop]
    omega
  · intro N hN
    exact returning_counters_count (LimitExecutor.init infos (Fetcher.mk pending)) N hN hs

/-- Witness for C1: offset 2, limit 3, seven input rows with two `WAITING`
rounds among them, three rows emitted. -/
theorem emitted_row_count_witness :
    (((emittedRows ((LimitExecutor.init ⟨2, 3, false⟩ (Fetcher.mk sampleUpstream)).run
        10)).length : Nat) : Int) =
      max 0 (min ((3 : Nat) : Int)
        (((Fetcher.rows (Fetcher.mk sampleUpstream)).length : Int) - ((2 : Nat) : Int))) :=
  (emitted_row_count ⟨2, 3, false⟩ sampleUpstream 10 (by decide)
    (by decide : sampleUpstream.length < 10)).2.1

/-- C2: with fullCount enabled, for every upstream of `N` input rows, with
`WAITING` rounds anywhere among its answers, and all `O` and `L` (`N` a `size_t`
count, `N < 2 ^ 64`, or else `O + L` not overflowing), the run of `produceRows`
calls up to `DONE` ends with the upstream exhausted, and the full-count
statistic merged over its calls is `max(0, N - O)`, the same for every other
limit; in terms of the derived state, for every `N` the number of counter
values `c` in `[0, N)` at which `currentState` is `RETURNING`,
`RETURNING_LAST_ROW` or `COUNTING` is `max(0, N - O)`. -/
theorem full_count_total (infos : LimitExecutorInfos) (pending : List (Option Row))
    (calls : Nat) (hfc : infos._fullCount = true)
    (hN : (Fetcher.rows (Fetcher.mk pending)).length < 2 ^ 64 ∨
      infos._offset + infos._limit < 2 ^ 64)
    (hcalls : pending.length < calls) :
    (∃ r, ((LimitExecutor.init infos (Fetcher.mk pending)).run calls).getLast? = some r ∧
      r.state = ExecutionState.DONE ∧ r.executor._fetcher.pending = []) ∧
    (((mergedStats ((LimitExecutor.init infos (Fetcher.mk pending)).run calls))._fullCount
        : Nat) : Int) =
      max 0 (((Fetcher.rows (Fetcher.mk pending)).length : Int) - (infos._offset : Int)) ∧
    (∀ limit2 : Nat,
      ((Fetcher.rows (Fetcher.mk pending)).length < 2 ^ 64 ∨
        infos._offset + limit2 < 2 ^ 64) →
      (mergedStats ((LimitExecutor.init { infos with _limit := limit2 }
        (Fetcher.mk pending)).run calls))._fullCount =
      (mergedStats ((LimitExecutor.init infos (Fetcher.mk pending)).run calls))._fullCount) ∧
    (∀ N,
      ((((List.range N).filter (fun c =>
          decide (((LimitExecutor.init infos (Fetcher.mk pending)).atCounter c).currentState
              = LimitState.RETURNING ∨
            ((LimitExecutor.init infos (Fetcher.mk pending)).atCounter c).currentState
              = LimitState.RETURNING_LAST_ROW ∨
            ((LimitExecutor.init infos (Fetcher.mk pending)).atCounter c).currentState
              = LimitState.COUNTING))).length : Nat) : Int) =
        max 0 ((N : Int) - (infos._offset : Int))) := by
  have hcount : ∀ i : LimitExecutorInfos, i._offset = infos._offset → i._fullCount = true →
      ((Fetcher.rows (Fetcher.mk pending)).length < 2 ^ 64 ∨
        i._offset + i._limit < 2 ^ 64) →
      (mergedStats ((LimitExecutor.init i (Fetcher.mk pending)).run calls))._fullCount =
        (Fetcher.rows (Fetcher.mk pending)).length - infos._offset := by
    intro i ho hf hb
    have hrun : (mergedStats ((LimitExecutor.init i (Fetcher.mk pending)).run calls))._fullCount =
        fullCountInWindow i._offset 0 i._fullCount (Fetcher.rows (Fetcher.mk pending)) := by
      rcases hb with h | h
      · exact run_fullCount calls (LimitExecutor.init i (Fetcher.mk pending))
          (by show 0 + (Fetcher.rows (Fetcher.mk pending)).length < 2 ^ 64; omega) hcalls
      · exact run_fullCount_within calls (LimitExecutor.init i (Fetcher.mk pending)) h
          (Nat.zero_le _) hcalls
    rw [hrun, ho, hf]
    rfl
  refine ⟨?_, ?_, ?_, ?_⟩
  · obtain ⟨⟨r, h1, h2, h3⟩, -⟩ :=
      run_last_done calls (LimitExecutor.init infos (Fetcher.mk pending)) hcalls
    exact ⟨r, h1, h2, h3 hfc⟩
  · rw [hcount infos rfl hfc hN]
    omega
  · intro limit2 h2
    rw [hcount infos rfl hfc hN, hcount { infos with _limit := limit2 } rfl hfc h2]
  · intro N
    exact counted_counters_count (LimitExecutor.init infos (Fetcher.mk pending)) N hfc

/-- Witness for C2: offset 0, limit 0, fullCount, five input rows with a
`WAITING` round among them, full count 5. -/
theorem full_count_total_witness :
    (((mergedStats ((LimitExecutor.init ⟨0, 0, true⟩
        (Fetcher.mk [some 1, some 2, none, some 3, some 4, some 5])).run 7))._fullCount
        : Nat) : Int) =
      max 0 (((Fetcher.rows (Fetcher.mk [some 1, some 2, none, some 3, some 4,
        some 5])).length : Int) - ((0 : Nat) : Int)) :=
  (full_count_total ⟨0, 0, true⟩ [some 1, some 2, none, some 3, some 4, some 5] 7 rfl
    (Or.inl (by decide :
      (Fetcher.rows (Fetcher.mk [some 1, some 2, none, some 3, some 4, some 5])).length
        < 2 ^ 64))
    (by decide : [some 1, some 2, none, some 3, some 4, some 5].length < 7)).2.1

/-- C3: for every offset `O`, limit `L >= 1` and upstream of `N >= O + L` input
rows (`N < 2 ^ 64`, `WAITING` rounds anywhere among its answers) with fullCount
disabled, the rows the limiting executor emits in the run of `produceRows`
calls are exactly the input rows at positions `[O, O + L)` in input order; the
last call of the run emits the row at position `O + L - 1` and returns `DONE`,
and no call before it returns `DONE`.  In terms of the derived state:
`currentState` is `SKIPPING` for counters in `[0, O)`, `RETURNING` for counters
in `[O, O + L - 1)`, `RETURNING_LAST_ROW` at counter `O + L - 1` and
`LIMIT_REACHED` from counter `O + L` on, and the counters below `N` at which a
row is emitted are `O, O + 1, ..., O + L - 1`, in that order. -/
theorem window_states (infos : LimitExecutorInfos) (pending : List (Option Row))
    (calls : Nat) (hN : (Fetcher.rows (Fetcher.mk pending)).length < 2 ^ 64)
    (hL : 1 ≤ infos._limit)
    (hNOL : infos._offset + infos._limit ≤ (Fetcher.rows (Fetcher.mk pending)).length)
    (hfc : infos._fullCount = false) (hcalls : pending.length < calls) :
    emittedRows ((LimitExecutor.init infos (Fetcher.mk pending)).run calls) =
      ((Fetcher.rows (Fetcher.mk pending)).drop infos._offset).take infos._limit ∧
    (∃ r, ((LimitExecutor.init infos (Fetcher.mk pending)).run calls).getLast? = some r ∧
      r.state = ExecutionState.DONE ∧
      r.output = (Fetcher.rows (Fetcher.mk pending))[infos._offset + infos._limit - 1]?) ∧
    (∀ r, r ∈ ((LimitExecutor.init infos (Fetcher.mk pending)).run calls).dropLast →
      r.state ≠ ExecutionState.DONE) ∧
    (∀ c, c < infos._offset →
      ((LimitExecutor.init infos (Fetcher.mk pending)).atCounter c).currentState
        = LimitState.SKIPPING) ∧
    (∀ c, infos._offset ≤ c → c + 1 < infos._offset + infos._limit →
      ((LimitExecutor.init infos (Fetcher.mk pending)).atCounter c).currentState
        = LimitState.RETURNING) ∧
    ((LimitExecutor.init infos (Fetcher.mk pending)).atCounter
      (infos._offset + infos._limit - 1)).currentState = LimitState.RETURNING_LAST_ROW ∧
    (∀ c, infos._offset + infos._limit ≤ c → c < 2 ^ 64 →
      ((LimitExecutor.init infos (Fetcher.mk pending)).atCounter c).currentState
        = LimitState.LIMIT_REACHED) ∧
    (List.range (Fetcher.rows (Fetcher.mk pending)).length).filter (fun c =>
        decide (((LimitExecutor.init infos (Fetcher.mk pending)).atCounter c).currentState
            = LimitState.RETURNING ∨
          ((LimitExecutor.init infos (Fetcher.mk pending)).atCounter c).currentState
            = LimitState.RETURNING_LAST_ROW)) =
      List.range' infos._offset infos._limit := by
  have hs : infos._offset + infos._limit < 2 ^ 64 := by omega
  have hwin : rowsInWindow infos._offset infos._limit 0 (Fetcher.rows (Fetcher.mk pending)) =
      ((Fetcher.rows (Fetcher.mk pending)).drop infos._offset).take infos._limit := by
    have h1 : infos._offset + infos._limit - max 0 infos._offset = infos._limit := by omega
    simp only [rowsInWindow, Nat.sub_zero, h1]
  obtain ⟨s1, s2, s3, s4, s5⟩ :=
    states_by_counter (LimitExecutor.init infos (Fetcher.mk pending))
      (Fetcher.rows (Fetcher.mk pending)).length hN hL hNOL hfc
  refine ⟨?_, ?_, ?_, s1, s2, s3, s4, s5⟩
  · rw [run_emitted calls (LimitExecutor.init infos (Fetcher.mk pending)) hs (Nat.zero_le _)
      hcalls]
    exact hwin
  · obtain ⟨r, h1, h2, h3⟩ :=
      run_last_output calls (LimitExecutor.init infos (Fetcher.mk pending)) hs (Nat.zero_le _)
        hfc (by
          show infos._offset + infos._limit ≤ 0 + (Fetcher.rows (Fetcher.mk pending)).length
          omega) hcalls
    refine ⟨r, h1, h2, ?_⟩
    rw [h3]
    show (rowsInWindow infos._offset infos._limit 0
      (Fetcher.rows (Fetcher.mk pending))).getLast? = _
    rw [hwin]
    exact getLast?_drop_take _ _ _ hL hNOL
  · exact (run_last_done calls (LimitExecutor.init infos (Fetcher.mk pending)) hcalls).2

/-- Witness for C3: offset 2, limit 3, fullCount off, seven input rows 10, ...,
16 with two `WAITING` rounds among them.  The rows emitted are those at
positions 2, 3, 4, and the last call emits the row at position 4 and returns
`DONE`. -/
theorem window_states_witness :
    emittedRows ((LimitExecutor.init ⟨2, 3, false⟩ (Fetcher.mk sampleUpstream)).run 10) =
      ((Fetcher.rows (Fetcher.mk sampleUpstream)).drop 2).take 3 ∧
    (∃ r, ((LimitExecutor.init ⟨2, 3, false⟩ (Fetcher.mk sampleUpstream)).run 10).getLast?
        = some r ∧
      r.state = ExecutionState.DONE ∧
      r.output = (Fetcher.rows (Fetcher.mk sampleUpstream))[2 + 3 - 1]?) :=
  ⟨(window_states ⟨2, 3, false⟩ sampleUpstream 10
      (by decide : (Fetcher.rows (Fetcher.mk sampleUpstream)).length < 2 ^ 64)
      (by decide : 1 ≤ 3)
      (by decide : 2 + 3 ≤ (Fetcher.rows (Fetcher.mk sampleUpstream)).length) rfl
      (by decide : sampleUpstream.length < 10)).1,
   (window_states ⟨2, 3, false⟩ sampleUpstream 10
      (by decide : (Fetcher.rows (Fetcher.mk sampleUpstream)).length < 2 ^ 64)
      (by decide : 1 ≤ 3)
      (by decide : 2 + 3 ≤ (Fetcher.rows (Fetcher.mk sampleUpstream)).length) rfl
      (by decide : sampleUpstream.length < 10)).2.1⟩

/-- C4: when limit = 0 the limiting executor emits no row, for every offset,
either fullCount setting and every counter value the executor can hold (the
counter is within the invariant `getLimitPlusOffset() >= _counter` asserted by
`maxRowsLeftToFetch`, which every state the driver reaches satisfies) and, besides,
every counter value below `2 ^ 64 - 1`: `currentState` is neither `RETURNING`
nor `RETURNING_LAST_ROW`, it is `SKIPPING` while counter < offset, and
afterwards `COUNTING` with fullCount and `LIMIT_REACHED` without, and a
`produceRows` call writes no row; with offset 0, limit 0 and fullCount the state
is `COUNTING` at every such counter. -/
theorem limit_zero_emits_nothing (e : LimitExecutor Row)
    (hL : e._infos._limit = 0) (hO : e._infos._offset < 2 ^ 64)
    (hc : e._counter ≤ e.infos.getLimitPlusOffset ∨ e._counter + 1 < 2 ^ 64) :
    e.currentState ≠ LimitState.RETURNING ∧
    e.currentState ≠ LimitState.RETURNING_LAST_ROW ∧
    (e._counter < e._infos._offset → e.currentState = LimitState.SKIPPING) ∧
    (e._infos._offset ≤ e._counter →
      e.currentState =
        if e._infos._fullCount then LimitState.COUNTING else LimitState.LIMIT_REACHED) ∧
    (e._infos._offset = 0 → e._infos._fullCount = true →
      e.currentState = LimitState.COUNTING) ∧
    e.produceRows.output = none ∧
    (∀ (fetcher : Fetcher Row) (calls : List LimitCall),
      ((LimitExecutor.init e._infos fetcher).afterCalls calls)._counter ≤
        e.infos.getLimitPlusOffset) := by
  have key := currentState_of_limit_zero e hL hO hc
  rw [key]
  refine ⟨?_, ?_, ?_, ?_, ?_, ?_, ?_⟩
  · split_ifs <;> simp
  · split_ifs <;> simp
  · intro h; simp [h]
  · intro h
    have h1 : ¬ e._counter < e._infos._offset := by omega
    simp [h1]
  · intro h0 hfc
    have h1 : ¬ e._counter < e._infos._offset := by omega
    simp [h1, hfc]
  · exact produceRowsLoop_limit_zero e._fetcher.pending e { _fullCount := 0 } hL hO hc
  · intro fetcher calls
    exact (reachable_counter_le e._infos fetcher calls (by omega)).2

/-- Witness for C4: offset 0, limit 0, fullCount, counter 3. -/
theorem limit_zero_emits_nothing_witness :
    ((LimitExecutor.init ⟨0, 0, true⟩ ⟨[]⟩ : LimitExecutor Nat).atCounter 3).currentState
      ≠ LimitState.RETURNING ∧
    ((LimitExecutor.init ⟨0, 0, true⟩ ⟨[]⟩ : LimitExecutor Nat).atCounter 3).currentState
      ≠ LimitState.RETURNING_LAST_ROW :=
  ⟨(limit_zero_emits_nothing
      ((LimitExecutor.init ⟨0, 0, true⟩ ⟨[]⟩ : LimitExecutor Nat).atCounter 3)
      rfl (by decide) (by decide)).1,
   (limit_zero_emits_nothing
      ((LimitExecutor.init ⟨0, 0, true⟩ ⟨[]⟩ : LimitExecutor Nat).atCounter 3)
      rfl (by decide) (by decide)).2.1⟩

/-- C5: for every counter, offset, limit and fullCount flag, `currentState`
returns `SKIPPING` if and only if counter < offset. -/
theorem skipping_iff (e : LimitExecutor Row) :
    e.currentState = LimitState.SKIPPING ↔ e._counter < e._infos._offset := by
  rw [currentState_unfold]
  split_ifs <;> simp <;> omega

/-- C6, as stated, fails: at counter 0, offset 1, limit 0 the equation
`counter + 1 == offset + limit` holds, yet `currentState` is `SKIPPING`, because
the offset check comes first. -/
theorem last_row_equation_while_skipping :
    ((LimitExecutor.init ⟨1, 0, false⟩ ⟨[]⟩ : LimitExecutor Nat).atCounter 0)._counter + 1
      = (1 : Nat) + 0 ∧
    ((LimitExecutor.init ⟨1, 0, false⟩ ⟨[]⟩ : LimitExecutor Nat).atCounter 0).currentState
      = LimitState.SKIPPING ∧
    ¬ (((LimitExecutor.init ⟨1, 0, false⟩ ⟨[]⟩ : LimitExecutor Nat).atCounter 0).currentState
        = LimitState.RETURNING_LAST_ROW ↔
      ((LimitExecutor.init ⟨1, 0, false⟩ ⟨[]⟩ : LimitExecutor Nat).atCounter 0)._counter + 1
        = (LimitExecutor.init ⟨1, 0, false⟩ ⟨[]⟩ : LimitExecutor Nat)._infos._offset
          + (LimitExecutor.init ⟨1, 0, false⟩ ⟨[]⟩ : LimitExecutor Nat)._infos._limit) := by
  decide

/-- C6 (amended): for every counter, offset, limit and fullCount flag,
`currentState` is `RETURNING_LAST_ROW` if and only if counter >= offset and
`counter + 1 == offset + limit`, both sums computed in `size_t`. -/
theorem returning_last_row_iff (e : LimitExecutor Row) :
    e.currentState = LimitState.RETURNING_LAST_ROW ↔
      (e._infos._offset ≤ e._counter ∧
        (e._counter + 1) % 2 ^ 64 = (e._infos._offset + e._infos._limit) % 2 ^ 64) := by
  rw [currentState_unfold]
  split_ifs <;> simp <;> omega

/-- C7: for every offset and limit whose exact sum does not wrap, and every
counter value the executor can hold (the counter is within the invariant
`getLimitPlusOffset() >= _counter` asserted by `maxRowsLeftToFetch`, which every
state the driver reaches satisfies) and, besides, every counter value below
`2 ^ 64 - 1`: `currentState` returns `COUNTING` if and only if counter >=
offset + limit and fullCount is enabled, and `LIMIT_REACHED` if and only if
counter >= offset + limit and fullCount is disabled. -/
theorem past_limit_iff (e : LimitExecutor Row)
    (hs : e._infos._offset + e._infos._limit < 2 ^ 64)
    (hc : e._counter ≤ e.infos.getLimitPlusOffset ∨ e._counter + 1 < 2 ^ 64) :
    (e.currentState = LimitState.COUNTING ↔
      (e._infos._offset + e._infos._limit ≤ e._counter ∧ e._infos._fullCount = true)) ∧
    (e.currentState = LimitState.LIMIT_REACHED ↔
      (e._infos._offset + e._infos._limit ≤ e._counter ∧ e._infos._fullCount = false)) ∧
    (∀ (fetcher : Fetcher Row) (calls : List LimitCall),
      ((LimitExecutor.init e._infos fetcher).afterCalls calls)._counter ≤
        e.infos.getLimitPlusOffset) := by
  refine ⟨?_, ?_, fun fetcher calls => (reachable_counter_le e._infos fetcher calls hs).2⟩
  · rw [currentState_within e hs hc]
    by_cases h1 : e._counter < e._infos._offset
    · have h2 : ¬ e._infos._offset + e._infos._limit ≤ e._counter := by omega
      simp [h1, h2]
    · by_cases h2 : e._infos._offset + e._infos._limit ≤ e._counter
      · have h3 : ¬ e._counter < e._infos._offset + e._infos._limit := by omega
        have h4 : ¬ e._counter + 1 = e._infos._offset + e._infos._limit := by omega
        simp only [h1, h3, h4, h2, if_false, true_and]
        cases e._infos._fullCount <;> simp
      · have h3 : e._counter < e._infos._offset + e._infos._limit := by omega
        simp only [h1, h2, h3, if_false, if_true, false_and, iff_false]
        split_ifs <;> simp
  · rw [currentState_within e hs hc]
    by_cases h1 : e._counter < e._infos._offset
    · have h2 : ¬ e._infos._offset + e._infos._limit ≤ e._counter := by omega
      simp [h1, h2]
    · by_cases h2 : e._infos._offset + e._infos._limit ≤ e._counter
      · have h3 : ¬ e._counter < e._infos._offset + e._infos._limit := by omega
        have h4 : ¬ e._counter + 1 = e._infos._offset + e._infos._limit := by omega
        simp only [h1, h3, h4, h2, if_false, true_and]
        cases e._infos._fullCount <;> simp
      · have h3 : e._counter < e._infos._offset + e._infos._limit := by omega
        simp only [h1, h2, h3, if_false, if_true, false_and, iff_false]
        split_ifs <;> simp

/-- Witness for C7: offset 2, limit 3, counter 5, fullCount off. -/
theorem past_limit_iff_witness :
    ((LimitExecutor.init ⟨2, 3, false⟩ ⟨[]⟩ : LimitExecutor Nat).atCounter 5).currentState
      = LimitState.LIMIT_REACHED :=
  (past_limit_iff ((LimitExecutor.init ⟨2, 3, false⟩ ⟨[]⟩ : LimitExecutor Nat).atCounter 5)
    (by decide) (by decide)).2.1.mpr ⟨by decide, rfl⟩

end DerivedState


/-! ## Skipping and producing, on the modelled operations -/

section PullOperations

variable {Row : Type}

/-- C8: for every `skipRows(toSkipRequested)` call on an upstream with fewer
than `2 ^ 64` rows in sight, the reported count is at most
`min(toSkipRequested, limit)`; the counter only advances, every row that
advanced it was consumed while `SKIPPING`, `RETURNING` or `RETURNING_LAST_ROW`,
the reported count is the number of rows consumed while `RETURNING` or
`RETURNING_LAST_ROW` (at or past the offset and below offset + limit), and the
rows consumed while `SKIPPING` advance the counter without being reported. -/
theorem skipRows_reported_count (e : LimitExecutor Row) (toSkipRequested : Nat)
    (hb : e._counter + e._fetcher.pending.length < 2 ^ 64) :
    (e.skipRows toSkipRequested).skipped ≤ min toSkipRequested e._infos._limit ∧
    e._counter ≤ (e.skipRows toSkipRequested).executor._counter ∧
    (e.skipRows toSkipRequested).skipped =
      ((List.range' e._counter ((e.skipRows toSkipRequested).executor._counter - e._counter)).filter
        (fun c => decide ((e.atCounter c).currentState = LimitState.RETURNING ∨
          (e.atCounter c).currentState = LimitState.RETURNING_LAST_ROW))).length ∧
    (e.skipRows toSkipRequested).executor._counter - e._counter =
      ((List.range' e._counter ((e.skipRows toSkipRequested).executor._counter - e._counter)).filter
        (fun c => decide ((e.atCounter c).currentState = LimitState.SKIPPING))).length
      + (e.skipRows toSkipRequested).skipped := by
  obtain ⟨h1, h2, h3, h4, h5⟩ :=
    skipRowsLoop_count toSkipRequested e._fetcher.pending e { _fullCount := 0 } 0 hb
  have hsum := getLimitPlusOffset_le e._infos
  have hret : (List.range' e._counter
        ((e.skipRows toSkipRequested).executor._counter - e._counter)).filter
        (fun c => decide ((e.atCounter c).currentState = LimitState.RETURNING ∨
          (e.atCounter c).currentState = LimitState.RETURNING_LAST_ROW)) =
      (List.range' e._counter
        ((e.skipRows toSkipRequested).executor._counter - e._counter)).filter
        (fun c => decide (e._infos._offset ≤ c ∧ c < e._infos.getLimitPlusOffset)) := by
    apply List.filter_congr
    intro c hc
    have hc2 := (List.mem_range'_1.mp hc).2
    have hlt : c + 1 < 2 ^ 64 := by
      have : (e.skipRows toSkipRequested).executor._counter ≤
          e._counter + e._fetcher.pending.length := by
        show (LimitExecutor.skipRowsLoop toSkipRequested e._fetcher.pending e
          { _fullCount := 0 } 0).executor._counter ≤ _
        omega
      omega
    have := returning_iff_below_sum (e.atCounter c) (by simpa using hlt)
    simp only [atCounter_counter, atCounter_infos] at this
    simp only [this]
  have hskip : (List.range' e._counter
        ((e.skipRows toSkipRequested).executor._counter - e._counter)).filter
        (fun c => decide ((e.atCounter c).currentState = LimitState.SKIPPING)) =
      (List.range' e._counter
        ((e.skipRows toSkipRequested).executor._counter - e._counter)).filter
        (fun c => decide (0 ≤ c ∧ c < e._infos._offset)) := by
    apply List.filter_congr
    intro c _
    have := state_SKIPPING_iff_lt (e.atCounter c)
    simp only [atCounter_counter, atCounter_infos] at this
    simp only [this, Nat.zero_le, true_and]
  rw [hret, hskip, filter_shifted_window, filter_shifted_window]
  have h3' : (e.skipRows toSkipRequested).skipped =
      0 + (min (e.skipRows toSkipRequested).executor._counter e._infos.getLimitPlusOffset
        - max e._counter e._infos._offset) := h3
  have h1' : e._counter ≤ (e.skipRows toSkipRequested).executor._counter := h1
  have h4' : (e.skipRows toSkipRequested).skipped ≤ toSkipRequested := h4 (Nat.zero_le _)
  have h5' : (e.skipRows toSkipRequested).executor._counter ≤
      max e._counter (max e._infos._offset e._infos.getLimitPlusOffset) := h5
  refine ⟨?_, h1', ?_, ?_⟩ <;> omega

/-- Witness for C8: offset 2, limit 3, seven rows upstream, `skipRows(2)`; two
rows are reported and the counter is 4. -/
theorem skipRows_reported_count_witness :
    ((LimitExecutor.init ⟨2, 3, false⟩
        ⟨[some 10, some 11, some 12, some 13, some 14, some 15, some 16]⟩ :
      LimitExecutor Nat).skipRows 2).skipped ≤ min 2 3 ∧
    ((LimitExecutor.init ⟨2, 3, false⟩
        ⟨[some 10, some 11, some 12, some 13, some 14, some 15, some 16]⟩ :
      LimitExecutor Nat).skipRows 2).skipped = 2 ∧
    ((LimitExecutor.init ⟨2, 3, false⟩
        ⟨[some 10, some 11, some 12, some 13, some 14, some 15, some 16]⟩ :
      LimitExecutor Nat).skipRows 2).executor._counter = 4 :=
  ⟨(skipRows_reported_count (LimitExecutor.init ⟨2, 3, false⟩
      ⟨[some 10, some 11, some 12, some 13, some 14, some 15, some 16]⟩ :
      LimitExecutor Nat) 2 (by decide)).1, by decide, by decide⟩

end PullOperations


section SkipThenProduce

variable {Row : Type}

/-- C9: for every `k` and every upstream, what `skipRows(k)` followed by
`produceRows` leaves behind is reached by a sequence of plain `produceRows`
calls (same counter, same rows consumed), and every sequence of plain
`produceRows` calls that consumes the same input rows ends with the same
`_counter`: skipping and producing advance `_counter` identically. -/
theorem skip_then_produce_counter (e : LimitExecutor Row) (k : Nat) :
    (∃ n, e.afterProduceCalls n = (e.skipRows k).executor.produceRows.executor) ∧
    (∀ n, (e.afterProduceCalls n)._fetcher.rowsLeft =
        (e.skipRows k).executor.produceRows.executor._fetcher.rowsLeft →
      (e.afterProduceCalls n)._counter =
        (e.skipRows k).executor.produceRows.executor._counter) := by
  constructor
  · obtain ⟨n, hn⟩ := skip_then_produce_reachable k e._fetcher.pending e { _fullCount := 0 } 0
    exact ⟨n + 1, hn⟩
  · intro n hrows
    rw [(afterProduceCalls_inv n e).2.2, (skip_then_produce_inv k e).2, hrows]

/-- Witness for C9: offset 2, limit 3, seven rows upstream; `skipRows(2)` then
`produceRows` and three plain `produceRows` calls both leave two rows upstream
and the counter at 5. -/
theorem skip_then_produce_counter_witness :
    ((LimitExecutor.init ⟨2, 3, false⟩
        ⟨[some 10, some 11, some 12, some 13, some 14, some 15, some 16]⟩ :
      LimitExecutor Nat).afterProduceCalls 3)._counter =
    ((LimitExecutor.init ⟨2, 3, false⟩
        ⟨[some 10, some 11, some 12, some 13, some 14, some 15, some 16]⟩ :
      LimitExecutor Nat).skipRows 2).executor.produceRows.executor._counter ∧
    ((LimitExecutor.init ⟨2, 3, false⟩
        ⟨[some 10, some 11, some 12, some 13, some 14, some 15, some 16]⟩ :
      LimitExecutor Nat).afterProduceCalls 3)._counter = 5 :=
  ⟨(skip_then_produce_counter (LimitExecutor.init ⟨2, 3, false⟩
      ⟨[some 10, some 11, some 12, some 13, some 14, some 15, some 16]⟩ :
      LimitExecutor Nat) 2).2 3 (by decide), by decide⟩

end SkipThenProduce


section WaitingRound

variable {Row : Type}

/-- On the modelled loops a call keeps pulling while `SKIPPING`, so it can
return `WAITING` after it has discarded offset rows: with offset 2 and an
upstream that gives one row and then answers `WAITING`, both `produceRows` and
`skipRows(1)` return `WAITING` after the first row has been discarded, with
`_counter` 1 after the call where it was 0 before.  The bodies of the two
members are not part of the sources; this is one reading of section 4.3. -/
theorem waiting_call_advances_counter :
    (LimitExecutor.init ⟨2, 3, false⟩ ⟨[some 10, none, some 12, some 13]⟩ :
      LimitExecutor Nat).produceRows.state = ExecutionState.WAITING ∧
    (LimitExecutor.init ⟨2, 3, false⟩ ⟨[some 10, none, some 12, some 13]⟩ :
      LimitExecutor Nat)._counter = 0 ∧
    (LimitExecutor.init ⟨2, 3, false⟩ ⟨[some 10, none, some 12, some 13]⟩ :
      LimitExecutor Nat).produceRows.executor._counter = 1 ∧
    ((LimitExecutor.init ⟨2, 3, false⟩ ⟨[some 10, none, some 12, some 13]⟩ :
      LimitExecutor Nat).skipRows 1).state = ExecutionState.WAITING ∧
    ((LimitExecutor.init ⟨2, 3, false⟩ ⟨[some 10, none, some 12, some 13]⟩ :
      LimitExecutor Nat).skipRows 1).executor._counter = 1 := by
  decide

/-- A `WAITING` round on the modelled loops: a `produceRows` or `skipRows` call
that returns `WAITING` loses no progress and counts no row twice.  The call has
written no output row; `_counter` after it is the counter after exactly the
input rows the call consumed before the `WAITING` answer; when `WAITING` answers
the first pull of the call, nothing but the position in the upstream has
changed.  Re-invoking `produceRows` gives the state, output row and executor
that the call would have given on the same upstream without the `WAITING` round,
and the Stats of the two calls add up to its Stats; the same holds for
`skipRows` re-invoked for the rows still to be skipped, with the two reported
counts adding up. -/
theorem waiting_round_resumes (e : LimitExecutor Row) (toSkipRequested : Nat) :
    (e.produceRows.state = ExecutionState.WAITING →
      e.produceRows.output = none ∧
      e.produceRows.executor._counter =
        e.counterAfterRows (e._fetcher.rowsLeft - e.produceRows.executor._fetcher.rowsLeft) ∧
      (∀ rest, e._fetcher.pending = none :: rest →
        e.produceRows.executor = e.withPending rest) ∧
      e.produceRows.executor.produceRows.state =
        (e.withPending (dropFirstWaiting e._fetcher.pending)).produceRows.state ∧
      e.produceRows.executor.produceRows.output =
        (e.withPending (dropFirstWaiting e._fetcher.pending)).produceRows.output ∧
      e.produceRows.executor.produceRows.executor =
        (e.withPending (dropFirstWaiting e._fetcher.pending)).produceRows.executor ∧
      e.produceRows.stats.merge e.produceRows.executor.produceRows.stats =
        (e.withPending (dropFirstWaiting e._fetcher.pending)).produceRows.stats) ∧
    ((e.skipRows toSkipRequested).state = ExecutionState.WAITING →
      (e.skipRows toSkipRequested).executor._counter =
        e.counterAfterRows (e._fetcher.rowsLeft -
          (e.skipRows toSkipRequested).executor._fetcher.rowsLeft) ∧
      (∀ rest, e._fetcher.pending = none :: rest →
        (e.skipRows toSkipRequested).executor = e.withPending rest ∧
        (e.skipRows toSkipRequested).skipped = 0) ∧
      ((e.skipRows toSkipRequested).executor.skipRows
          (toSkipRequested - (e.skipRows toSkipRequested).skipped)).state =
        ((e.withPending (dropFirstWaiting e._fetcher.pending)).skipRows toSkipRequested).state ∧
      (e.skipRows toSkipRequested).skipped +
          ((e.skipRows toSkipRequested).executor.skipRows
            (toSkipRequested - (e.skipRows toSkipRequested).skipped)).skipped =
        ((e.withPending (dropFirstWaiting e._fetcher.pending)).skipRows
          toSkipRequested).skipped ∧
      ((e.skipRows toSkipRequested).executor.skipRows
          (toSkipRequested - (e.skipRows toSkipRequested).skipped)).executor =
        ((e.withPending (dropFirstWaiting e._fetcher.pending)).skipRows
          toSkipRequested).executor ∧
      (e.skipRows toSkipRequested).stats.merge
          ((e.skipRows toSkipRequested).executor.skipRows
            (toSkipRequested - (e.skipRows toSkipRequested).skipped)).stats =
        ((e.withPending (dropFirstWaiting e._fetcher.pending)).skipRows
          toSkipRequested).stats) := by
  constructor
  · intro hw
    obtain ⟨hout, hres⟩ := produceRowsLoop_resume e._fetcher.pending e { _fullCount := 0 } hw
    have hinv := (produceRowsLoop_inv e._fetcher.pending e { _fullCount := 0 }).2.2.2
    have hshift := produceRowsLoop_stats e.produceRows.executor._fetcher.pending
      e.produceRows.executor e.produceRows.stats { _fullCount := 0 }
    rw [merge_zero] at hshift
    have hr0 : (e.withPending (dropFirstWaiting e._fetcher.pending)).produceRows =
        LimitExecutor.produceRowsLoop (dropFirstWaiting e._fetcher.pending) e
          { _fullCount := 0 } := produceRows_withPending _ e
    have hres' : LimitExecutor.produceRowsLoop e.produceRows.executor._fetcher.pending
        e.produceRows.executor e.produceRows.stats =
        LimitExecutor.produceRowsLoop (dropFirstWaiting e._fetcher.pending) e
          { _fullCount := 0 } := hres
    rw [hshift] at hres'
    refine ⟨hout, hinv, ?_, ?_, ?_, ?_, ?_⟩
    · intro rest hp
      have hne : e.currentState ≠ LimitState.LIMIT_REACHED := by
        intro hlr
        have : e.produceRows.state = ExecutionState.DONE := by
          show (LimitExecutor.produceRowsLoop e._fetcher.pending e _).state = _
          rw [produceRowsLoop_limit _ _ _ hlr]
        rw [this] at hw; cases hw
      show (LimitExecutor.produceRowsLoop e._fetcher.pending e _).executor = _
      rw [hp, produceRowsLoop_waiting _ _ _ hne]
    · rw [hr0, ← hres']; rfl
    · rw [hr0, ← hres']; rfl
    · rw [hr0, ← hres']; rfl
    · rw [hr0, ← hres']; rfl
  · intro hw
    have hres := skipRowsLoop_resume toSkipRequested e._fetcher.pending e { _fullCount := 0 } 0 hw
    have hinv := (skipRowsLoop_inv toSkipRequested e._fetcher.pending e
      { _fullCount := 0 } 0).2.2.2
    have hle : (e.skipRows toSkipRequested).skipped ≤ toSkipRequested :=
      skipRowsLoop_skipped_le toSkipRequested e._fetcher.pending e _ 0 (Nat.zero_le _)
    have hshift := skipRowsLoop_shift (e.skipRows toSkipRequested).skipped
      (toSkipRequested - (e.skipRows toSkipRequested).skipped)
      (e.skipRows toSkipRequested).executor._fetcher.pending
      (e.skipRows toSkipRequested).executor (e.skipRows toSkipRequested).stats
      { _fullCount := 0 } 0
    rw [merge_zero, Nat.zero_add, Nat.sub_add_cancel hle] at hshift
    have hr0 : (e.withPending (dropFirstWaiting e._fetcher.pending)).skipRows toSkipRequested =
        LimitExecutor.skipRowsLoop toSkipRequested (dropFirstWaiting e._fetcher.pending) e
          { _fullCount := 0 } 0 := skipRowsLoop_withPending _ _ _ e _ _
    have hres' : LimitExecutor.skipRowsLoop toSkipRequested
        (e.skipRows toSkipRequested).executor._fetcher.pending
        (e.skipRows toSkipRequested).executor (e.skipRows toSkipRequested).stats
        (e.skipRows toSkipRequested).skipped =
        LimitExecutor.skipRowsLoop toSkipRequested (dropFirstWaiting e._fetcher.pending) e
          { _fullCount := 0 } 0 := hres
    rw [hshift] at hres'
    refine ⟨hinv, ?_, ?_, ?_, ?_, ?_⟩
    · intro rest hp
      have hw' : (LimitExecutor.skipRowsLoop toSkipRequested e._fetcher.pending e
          { _fullCount := 0 } 0).state = ExecutionState.WAITING := hw
      show (LimitExecutor.skipRowsLoop toSkipRequested e._fetcher.pending e
          { _fullCount := 0 } 0).executor = _ ∧
        (LimitExecutor.skipRowsLoop toSkipRequested e._fetcher.pending e
          { _fullCount := 0 } 0).skipped = 0
      rw [hp] at hw' ⊢
      rw [LimitExecutor.skipRowsLoop] at hw' ⊢
      revert hw'
      cases e.currentState <;> simp <;> split_ifs <;> simp
    · rw [hr0, ← hres']; rfl
    · rw [hr0, ← hres', Nat.add_comm]; rfl
    · rw [hr0, ← hres']; rfl
    · rw [hr0, ← hres']; rfl

/-- An instance of the resumption: offset 2, limit 3, upstream row, `WAITING`,
row, row.  The first `produceRows` call returns `WAITING` with no output and
counter 1; the second returns the row 13, as one call on the upstream without
the `WAITING` round does. -/
theorem waiting_round_resumes_witness :
    (LimitExecutor.init ⟨2, 3, false⟩ ⟨[some 10, none, some 12, some 13]⟩ :
      LimitExecutor Nat).produceRows.output = none ∧
    (LimitExecutor.init ⟨2, 3, false⟩ ⟨[some 10, none, some 12, some 13]⟩ :
      LimitExecutor Nat).produceRows.executor.produceRows.output =
    ((LimitExecutor.init ⟨2, 3, false⟩ ⟨[some 10, none, some 12, some 13]⟩ :
      LimitExecutor Nat).withPending (dropFirstWaiting [some 10, none, some 12, some 13])).produceRows.output :=
  ⟨((waiting_round_resumes (LimitExecutor.init ⟨2, 3, false⟩
      ⟨[some 10, none, some 12, some 13]⟩ : LimitExecutor Nat) 1).1 (by decide)).1,
   ((waiting_round_resumes (LimitExecutor.init ⟨2, 3, false⟩
      ⟨[some 10, none, some 12, some 13]⟩ : LimitExecutor Nat) 1).1 (by decide)).2.2.2.2.1⟩

end WaitingRound


/-! ## Static properties, the assertion of `maxRowsLeftToFetch`, and more on the derived state -/

section StaticAndDerived

variable {Row : Type}

/-- C15: each executor selects its fetcher variant from its own
`allowsBlockPassthrough`: `LimitExecutor` declares `allowsBlockPassthrough =
true` and uses `SingleRowFetcher<true>`, `EnumerateCollectionExecutor` declares
`allowsBlockPassthrough = false` and uses `SingleRowFetcher<false>`; both
declare `preservesOrder = true`. -/
theorem fetcher_variant_selection (SingleRowFetcher : Bool → Type) :
    LimitExecutor.Properties.allowsBlockPassthrough = true ∧
    LimitExecutor.FetcherVariant SingleRowFetcher = SingleRowFetcher true ∧
    EnumerateCollectionExecutor.Properties.allowsBlockPassthrough = false ∧
    EnumerateCollectionExecutor.FetcherVariant SingleRowFetcher = SingleRowFetcher false ∧
    LimitExecutor.Properties.preservesOrder = true ∧
    EnumerateCollectionExecutor.Properties.preservesOrder = true :=
  ⟨rfl, rfl, rfl, rfl, rfl, rfl⟩

/-- C16, as stated, fails when `offset + limit` overflows `size_t`: with offset
`2 ^ 64 - 1`, limit 1 and counter 1 the counter does not exceed offset + limit,
yet `getLimitPlusOffset()` is 0 and the assertion of `maxRowsLeftToFetch`
fails; with limit 2 and counter 0 the assertion holds and the value returned is
1, not offset + limit - counter. -/
theorem maxRowsLeftToFetch_wraps :
    ¬ ((2 ^ 64 - 1 : Nat) + 1 < 1) ∧
    ((LimitExecutor.init ⟨2 ^ 64 - 1, 1, false⟩ ⟨[]⟩ : LimitExecutor Nat).atCounter
      1).maxRowsLeftToFetch = none ∧
    ((LimitExecutor.init ⟨2 ^ 64 - 1, 2, false⟩ ⟨[]⟩ : LimitExecutor Nat).atCounter
      0).maxRowsLeftToFetch = some 1 ∧
    (2 ^ 64 - 1 : Nat) + 2 - 0 ≠ 1 := by
  decide

/-- C16 (amended): for every counter, offset and limit with offset + limit not
overflowing `size_t`, `maxRowsLeftToFetch` fails its assertion if and only if
counter > offset + limit, and otherwise returns exactly offset + limit -
counter, a subtraction that does not underflow. -/
theorem maxRowsLeftToFetch_exact (e : LimitExecutor Row)
    (hs : e._infos._offset + e._infos._limit < 2 ^ 64) :
    (e.maxRowsLeftToFetch = none ↔ e._infos._offset + e._infos._limit < e._counter) ∧
    (e._counter ≤ e._infos._offset + e._infos._limit →
      e.maxRowsLeftToFetch = some (e._infos._offset + e._infos._limit - e._counter) ∧
      e._counter + (e._infos._offset + e._infos._limit - e._counter) =
        e._infos._offset + e._infos._limit) := by
  obtain ⟨h1, h2⟩ := rowsLeftToFetch_without_overflow e hs
  exact ⟨h1, fun hle => ⟨h2 hle, by omega⟩⟩

/-- Witness for C16 (amended): offset 2, limit 3, counter 4 leaves one row to
fetch. -/
theorem maxRowsLeftToFetch_exact_witness :
    ((LimitExecutor.init ⟨2, 3, false⟩ ⟨[]⟩ : LimitExecutor Nat).atCounter
      4).maxRowsLeftToFetch = some (2 + 3 - 4) :=
  ((maxRowsLeftToFetch_exact
    ((LimitExecutor.init ⟨2, 3, false⟩ ⟨[]⟩ : LimitExecutor Nat).atCounter 4)
    (by decide)).2 (by decide)).1

/-- C17: for every counter, offset and limit with offset + limit not
overflowing, `currentState` returns `RETURNING` if and only if offset <=
counter and counter + 1 < offset + limit; whenever the state is `RETURNING`,
counter < offset + limit and `maxRowsLeftToFetch` returns at least 2. -/
theorem state_RETURNING_iff (e : LimitExecutor Row) (hc : e._counter < 2 ^ 64)
    (hs : e._infos._offset + e._infos._limit < 2 ^ 64) :
    (e.currentState = LimitState.RETURNING ↔
      (e._infos._offset ≤ e._counter ∧
        e._counter + 1 < e._infos._offset + e._infos._limit)) ∧
    (e.currentState = LimitState.RETURNING →
      e._counter < e._infos._offset + e._infos._limit ∧
      ∃ n, e.maxRowsLeftToFetch = some n ∧ 2 ≤ n) := by
  have hiff : e.currentState = LimitState.RETURNING ↔
      (e._infos._offset ≤ e._counter ∧
        e._counter + 1 < e._infos._offset + e._infos._limit) := by
    rw [currentState_unfold, Nat.mod_eq_of_lt hs]
    rcases Nat.lt_or_ge (e._counter + 1) (2 ^ 64) with h | h
    · rw [Nat.mod_eq_of_lt h]
      split_ifs <;> simp <;> omega
    · have h4 : e._counter + 1 = 2 ^ 64 := by omega
      rw [h4, Nat.mod_self]
      split_ifs <;> simp <;> omega
  refine ⟨hiff, fun hst => ?_⟩
  obtain ⟨h1, h2⟩ := hiff.mp hst
  refine ⟨by omega, e._infos._offset + e._infos._limit - e._counter, ?_, by omega⟩
  exact ((rowsLeftToFetch_without_overflow e hs).2 (by omega))

/-- Witness for C17: offset 2, limit 3, counter 2 is `RETURNING`. -/
theorem state_RETURNING_iff_witness :
    ((LimitExecutor.init ⟨2, 3, false⟩ ⟨[]⟩ : LimitExecutor Nat).atCounter 2).currentState =
      LimitState.RETURNING :=
  (state_RETURNING_iff ((LimitExecutor.init ⟨2, 3, false⟩ ⟨[]⟩ : LimitExecutor Nat).atCounter 2)
    (by decide) (by decide)).1.mpr ⟨by decide, by decide⟩

/-- C18, as stated, fails when `offset + limit` overflows `size_t`: with counter
0, offset 5 and limit `2 ^ 64 - 4` (a limit >= 1) the sum wraps to 1, both
checks hold, `currentState` returns `SKIPPING` and the other order of the two
checks returns `RETURNING_LAST_ROW`. -/
theorem first_two_checks_clash_when_sum_wraps :
    1 ≤ (LimitExecutor.init ⟨5, 2 ^ 64 - 4, false⟩ ⟨[]⟩ : LimitExecutor Nat)._infos._limit ∧
    (LimitExecutor.init ⟨5, 2 ^ 64 - 4, false⟩ ⟨[]⟩ : LimitExecutor Nat)._counter <
      (LimitExecutor.init ⟨5, 2 ^ 64 - 4, false⟩ ⟨[]⟩ : LimitExecutor Nat).infos.getOffset ∧
    ((LimitExecutor.init ⟨5, 2 ^ 64 - 4, false⟩ ⟨[]⟩ : LimitExecutor Nat)._counter + 1) % 2 ^ 64 =
      (LimitExecutor.init ⟨5, 2 ^ 64 - 4, false⟩ ⟨[]⟩ :
        LimitExecutor Nat).infos.getLimitPlusOffset ∧
    (LimitExecutor.init ⟨5, 2 ^ 64 - 4, false⟩ ⟨[]⟩ : LimitExecutor Nat).currentState =
      LimitState.SKIPPING ∧
    (LimitExecutor.init ⟨5, 2 ^ 64 - 4, false⟩ ⟨[]⟩ :
      LimitExecutor Nat).currentStateLastRowCheckFirst = LimitState.RETURNING_LAST_ROW := by
  decide

/-- C18 (amended): the order of the first two checks in `currentState` is
significant because limit can be zero: at counter 0, offset 1, limit 0 both
counter < offset and counter + 1 == offset + limit hold, `currentState` returns
`SKIPPING`, and evaluating the `RETURNING_LAST_ROW` check first returns
`RETURNING_LAST_ROW`; whenever limit >= 1 and offset + limit does not overflow
`size_t`, the two conditions exclude each other and the order of the two checks
does not matter. -/
theorem check_order (e : LimitExecutor Row) :
    ((LimitExecutor.init ⟨1, 0, false⟩ ⟨[]⟩ : LimitExecutor Nat)._counter <
        (LimitExecutor.init ⟨1, 0, false⟩ ⟨[]⟩ : LimitExecutor Nat).infos.getOffset ∧
      ((LimitExecutor.init ⟨1, 0, false⟩ ⟨[]⟩ : LimitExecutor Nat)._counter + 1) % 2 ^ 64 =
        (LimitExecutor.init ⟨1, 0, false⟩ ⟨[]⟩ : LimitExecutor Nat).infos.getLimitPlusOffset ∧
      (LimitExecutor.init ⟨1, 0, false⟩ ⟨[]⟩ : LimitExecutor Nat).currentState =
        LimitState.SKIPPING ∧
      (LimitExecutor.init ⟨1, 0, false⟩ ⟨[]⟩ :
        LimitExecutor Nat).currentStateLastRowCheckFirst = LimitState.RETURNING_LAST_ROW) ∧
    (1 ≤ e._infos._limit → e._infos._offset + e._infos._limit < 2 ^ 64 →
      ¬ (e._counter < e.infos.getOffset ∧
        (e._counter + 1) % 2 ^ 64 = e.infos.getLimitPlusOffset) ∧
      e.currentStateLastRowCheckFirst = e.currentState) := by
  refine ⟨by decide, fun hl hs => ?_⟩
  have hsum : e.infos.getLimitPlusOffset = e._infos._offset + e._infos._limit :=
    Nat.mod_eq_of_lt hs
  have hoff : e.infos.getOffset = e._infos._offset := rfl
  have hexcl : ¬ (e._counter < e._infos._offset ∧
      (e._counter + 1) % 2 ^ 64 = e._infos._offset + e._infos._limit) := by
    rintro ⟨h1, h2⟩
    rw [Nat.mod_eq_of_lt (by omega)] at h2
    omega
  rw [hsum, hoff]
  refine ⟨hexcl, ?_⟩
  unfold LimitExecutor.currentStateLastRowCheckFirst
  rw [currentState_unfold, hsum, hoff, Nat.mod_eq_of_lt hs]
  show (if _ then _ else if _ then _ else if _ then _
      else if e._infos._fullCount = true then _ else _) = _
  by_cases h1 : e._counter < e._infos._offset
  · have h2 : ¬ (e._counter + 1) % 2 ^ 64 = e._infos._offset + e._infos._limit :=
      fun h => hexcl ⟨h1, h⟩
    rw [if_neg h2, if_pos h1, if_pos h1]
  · by_cases h2 : (e._counter + 1) % 2 ^ 64 = e._infos._offset + e._infos._limit
    · rw [if_pos h2, if_neg h1, if_pos h2]
    · rw [if_neg h2, if_neg h1, if_neg h1, if_neg h2]

/-- Witness for C18 (amended): offset 2, limit 3, counter 4; the two orders of
the checks agree. -/
theorem check_order_witness :
    ((LimitExecutor.init ⟨2, 3, false⟩ ⟨[]⟩ : LimitExecutor Nat).atCounter
        4).currentStateLastRowCheckFirst =
      ((LimitExecutor.init ⟨2, 3, false⟩ ⟨[]⟩ : LimitExecutor Nat).atCounter 4).currentState :=
  ((check_order ((LimitExecutor.init ⟨2, 3, false⟩ ⟨[]⟩ : LimitExecutor Nat).atCounter 4)).2
    (by decide) (by decide)).2

/-- C19: for every offset, limit and counter with offset + limit not
overflowing at which `currentState` is `RETURNING_LAST_ROW`, the state after
the last row is counted (`_counter++`) is `LIMIT_REACHED` when fullCount is
disabled and `COUNTING` when fullCount is enabled; the same holds at the
counter value `_counter + 1`. -/
theorem after_last_row (e : LimitExecutor Row) (hc : e._counter < 2 ^ 64)
    (hs : e._infos._offset + e._infos._limit < 2 ^ 64)
    (hst : e.currentState = LimitState.RETURNING_LAST_ROW) :
    (e._infos._fullCount = false → e.incrCounter.currentState = LimitState.LIMIT_REACHED) ∧
    (e._infos._fullCount = true → e.incrCounter.currentState = LimitState.COUNTING) ∧
    (e._infos._fullCount = false →
      (e.atCounter (e._counter + 1)).currentState = LimitState.LIMIT_REACHED) ∧
    (e._infos._fullCount = true →
      (e.atCounter (e._counter + 1)).currentState = LimitState.COUNTING) := by
  have hlast := (state_LAST_ROW_iff_sums e).mp hst
  rw [Nat.mod_eq_of_lt hs] at hlast
  obtain ⟨h1, h2⟩ := hlast
  have key : ∀ c : Nat, (c = e._counter + 1 ∨ c = (e._counter + 1) % 2 ^ 64) →
      (e.atCounter c).currentState =
        if e._infos._fullCount then LimitState.COUNTING else LimitState.LIMIT_REACHED := by
    intro c hcc
    rw [currentState_unfold]
    simp only [atCounter_counter, atCounter_infos, Nat.mod_eq_of_lt hs]
    have a1 : ¬ c < e._infos._offset := by
      rcases Nat.lt_or_ge (e._counter + 1) (2 ^ 64) with h | h
      · rw [Nat.mod_eq_of_lt h] at h2 hcc; omega
      · have h4 : e._counter + 1 = 2 ^ 64 := by omega
        rw [h4, Nat.mod_self] at h2
        omega
    have a2 : ¬ (c + 1) % 2 ^ 64 = e._infos._offset + e._infos._limit := by
      rcases Nat.lt_or_ge (e._counter + 1) (2 ^ 64) with h | h
      · rw [Nat.mod_eq_of_lt h] at h2 hcc
        have hc1 : c = e._counter + 1 := by omega
        rcases Nat.lt_or_ge (c + 1) (2 ^ 64) with h' | h'
        · rw [Nat.mod_eq_of_lt h']; omega
        · have h5 : c + 1 = 2 ^ 64 := by omega
          rw [h5, Nat.mod_self]; omega
      · have h4 : e._counter + 1 = 2 ^ 64 := by omega
        rw [h4, Nat.mod_self] at h2 hcc
        rcases hcc with hcc | hcc
        · rw [hcc]
          have : (2 ^ 64 + 1) % 2 ^ 64 = 1 := by norm_num
          rw [this]; omega
        · rw [hcc]
          have : (0 + 1) % 2 ^ 64 = 1 := by norm_num
          rw [this]; omega
    have a3 : ¬ c < e._infos._offset + e._infos._limit := by
      rcases Nat.lt_or_ge (e._counter + 1) (2 ^ 64) with h | h
      · rw [Nat.mod_eq_of_lt h] at h2 hcc; omega
      · have h4 : e._counter + 1 = 2 ^ 64 := by omega
        rw [h4, Nat.mod_self] at h2
        omega
    rw [if_neg a1, if_neg a2, if_neg a3]
  have kincr : e.incrCounter.currentState =
      if e._infos._fullCount then LimitState.COUNTING else LimitState.LIMIT_REACHED :=
    (currentState_congr e.incrCounter (e.atCounter ((e._counter + 1) % 2 ^ 64)) rfl rfl).trans
      (key _ (Or.inr rfl))
  have kat := key (e._counter + 1) (Or.inl rfl)
  refine ⟨fun h => ?_, fun h => ?_, fun h => ?_, fun h => ?_⟩
  · rw [kincr, h]; rfl
  · rw [kincr, h]; rfl
  · rw [kat, h]; rfl
  · rw [kat, h]; rfl

/-- Witness for C19: offset 2, limit 3, counter 4 is `RETURNING_LAST_ROW`, and
after the row is counted the state is `LIMIT_REACHED`. -/
theorem after_last_row_witness :
    ((LimitExecutor.init ⟨2, 3, false⟩ ⟨[]⟩ : LimitExecutor Nat).atCounter
      4).incrCounter.currentState = LimitState.LIMIT_REACHED :=
  (after_last_row ((LimitExecutor.init ⟨2, 3, false⟩ ⟨[]⟩ : LimitExecutor Nat).atCounter 4)
    (by decide) (by decide) (by decide)).1 rfl

/-- C20: for every counter <= offset + limit (the sum not overflowing): if
`currentState` is `RETURNING_LAST_ROW` then `maxRowsLeftToFetch()` is 1;
`currentState` is `COUNTING` or `LIMIT_REACHED` if and only if
`maxRowsLeftToFetch()` is 0; and if counter >= offset and
`maxRowsLeftToFetch()` is 1 then `currentState` is `RETURNING_LAST_ROW`. -/
theorem state_and_rows_left (e : LimitExecutor Row)
    (hs : e._infos._offset + e._infos._limit < 2 ^ 64)
    (hle : e._counter ≤ e._infos._offset + e._infos._limit) :
    (e.currentState = LimitState.RETURNING_LAST_ROW → e.maxRowsLeftToFetch = some 1) ∧
    ((e.currentState = LimitState.COUNTING ∨ e.currentState = LimitState.LIMIT_REACHED) ↔
      e.maxRowsLeftToFetch = some 0) ∧
    (e._infos._offset ≤ e._counter → e.maxRowsLeftToFetch = some 1 →
      e.currentState = LimitState.RETURNING_LAST_ROW) := by
  have hmax := (rowsLeftToFetch_without_overflow e hs).2 hle
  rw [hmax]
  have hunf := currentState_unfold e
  rw [Nat.mod_eq_of_lt hs] at hunf
  rcases Nat.lt_or_ge (e._counter + 1) (2 ^ 64) with h | h
  · rw [Nat.mod_eq_of_lt h] at hunf
    rw [hunf]
    refine ⟨?_, ?_, ?_⟩
    · split_ifs <;> simp
      omega
    · split_ifs <;> simp <;> omega
    · intro h1 h2
      have h3 : e._counter + 1 = e._infos._offset + e._infos._limit := by
        simp only [Option.some.injEq] at h2; omega
      rw [if_neg (by omega), if_pos h3]
  · have h4 : e._counter + 1 = 2 ^ 64 := by omega
    rw [h4, Nat.mod_self] at hunf
    rw [hunf]
    refine ⟨?_, ?_, ?_⟩
    · split_ifs <;> simp
      omega
    · split_ifs <;> simp <;> omega
    · intro h1 h2
      simp only [Option.some.injEq] at h2
      omega

/-- Witness for C20: offset 2, limit 3, counter 5; no row is left to fetch and
the state is `LIMIT_REACHED`. -/
theorem state_and_rows_left_witness :
    ((LimitExecutor.init ⟨2, 3, false⟩ ⟨[]⟩ : LimitExecutor Nat).atCounter 5).currentState =
        LimitState.COUNTING ∨
      ((LimitExecutor.init ⟨2, 3, false⟩ ⟨[]⟩ : LimitExecutor Nat).atCounter 5).currentState =
        LimitState.LIMIT_REACHED :=
  (state_and_rows_left ((LimitExecutor.init ⟨2, 3, false⟩ ⟨[]⟩ : LimitExecutor Nat).atCounter 5)
    (by decide) (by decide)).2.1.mpr (by decide)

end StaticAndDerived


/-! ## The enumeration executor and block passthrough, on the modelled operations -/

section EnumerationAndPassthrough

variable {Row Doc : Type}

/-- C11: when the replicated copies of the collection are not yet ready and the
enumeration executor has to open a cursor (its cursor is exhausted),
`produceRows` returns `WAITING`, writes no row and leaves the executor as it
was, `_state`, `_cursorHasMore`, `_input` and `_cursor` included; the readiness
check `waitForSatellites`, a `const` member, hands back the executor it was
called on whatever its answer. -/
theorem not_ready_waits (e : EnumerateCollectionExecutor Row Doc)
    (hcur : e._cursorHasMore = false) :
    (e.produceRows false).state = ExecutionState.WAITING ∧
    (e.produceRows false).output = none ∧
    (e.produceRows false).executor = e ∧
    (e.produceRows false).executor._state = e._state ∧
    (e.produceRows false).executor._cursorHasMore = e._cursorHasMore ∧
    (e.produceRows false).executor._input = e._input ∧
    (e.produceRows false).executor._cursor = e._cursor ∧
    (∀ inSync, (e.waitForSatellites e._infos.getEngine e._infos.getCollection inSync).2 = e ∧
      (e.waitForSatellites e._infos.getEngine e._infos.getCollection inSync).1 = inSync) := by
  have hres : e.produceRows false =
      { state := ExecutionState.WAITING, output := none, executor := e } := by
    unfold EnumerateCollectionExecutor.produceRows
    rw [hcur]
    rfl
  rw [hres]
  exact ⟨rfl, rfl, rfl, rfl, rfl, rfl, rfl, fun _ => ⟨rfl, rfl⟩⟩

/-- Witness for C11: a fresh executor over the sample collection with one input
row upstream; the copies are not ready, the call waits and the input row stays
upstream. -/
theorem not_ready_waits_witness :
    ((EnumerateCollectionExecutor.init (sampleInfos false) ⟨[some 1]⟩ :
      EnumerateCollectionExecutor Nat Nat).produceRows false).state = ExecutionState.WAITING ∧
    ((EnumerateCollectionExecutor.init (sampleInfos false) ⟨[some 1]⟩ :
      EnumerateCollectionExecutor Nat Nat).produceRows false).executor._fetcher.pending =
        [some 1] :=
  ⟨(not_ready_waits (EnumerateCollectionExecutor.init (sampleInfos false) ⟨[some 1]⟩ :
      EnumerateCollectionExecutor Nat Nat) rfl).1, by decide⟩

/-- C12: for every collection of `M` documents and every upstream of `N` input
rows, with either setting of the random-order flag, the enumeration executor
driven until `DONE` (enough calls: more than the answers of the upstream plus
`N * M`) reaches `DONE` and has emitted exactly `N * M` output rows. -/
theorem enumeration_row_count (infos : EnumerateCollectionExecutorInfos Doc)
    (f : Fetcher Row) (calls : Nat)
    (hcalls : f.pending.length + f.rowsLeft * infos.getCollection.documents.length < calls) :
    ((EnumerateCollectionExecutor.init infos f).drive calls).2 = ExecutionState.DONE ∧
    ((EnumerateCollectionExecutor.init infos f).drive calls).1.length =
      f.rowsLeft * infos.getCollection.documents.length := by
  have hlen : (EnumerateCollectionExecutor.init infos f).outputToCome.length =
      f.rowsLeft * infos.getCollection.documents.length := by
    rw [init_outputToCome, rowsLeft_eq_rows_length]
    exact joinWithDocuments_length _ _
      (fun i => (scan_perm infos._collection infos._random i).length_eq) 0 f.pending
  rw [enumerate_drive_all calls _ (init_consistent infos f)
    (by rw [hlen]; exact hcalls)]
  exact ⟨rfl, hlen⟩

/-- Witness for C12: two input rows (and a `WAITING` round) over the sample
collection of two documents, random order on: four rows. -/
theorem enumeration_row_count_witness :
    ((EnumerateCollectionExecutor.init (sampleInfos true) ⟨[some 1, none, some 2]⟩ :
      EnumerateCollectionExecutor Nat Nat).drive 8).1.length = 2 * 2 :=
  (enumeration_row_count (sampleInfos true) ⟨[some 1, none, some 2]⟩ 8 (by decide)).2

/-- C13: the output of the enumeration executor driven until `DONE` is, for the
input rows in input order, one group per input row: the input row joined with
the documents of that group.  Each group is a permutation of the collection's
documents, and with random order disabled each group is the collection's
documents in natural order.  The groups follow each other in the order of the
input rows, so the output rows of an earlier input row precede those of a later
one. -/
theorem enumeration_order (infos : EnumerateCollectionExecutorInfos Doc)
    (f : Fetcher Row) (calls : Nat)
    (hcalls : f.pending.length + f.rowsLeft * infos.getCollection.documents.length < calls) :
    ∃ groups : List (List Doc),
      groups.length = f.rows.length ∧
      (∀ g ∈ groups, List.Perm g infos.getCollection.documents) ∧
      (infos.getRandom = false → ∀ g ∈ groups, g = infos.getCollection.documents) ∧
      ((EnumerateCollectionExecutor.init infos f).drive calls).1 =
        ((f.rows.zip groups).map (fun rg => rg.2.map (fun d => (rg.1, d)))).flatten := by
  have hlen : (EnumerateCollectionExecutor.init infos f).outputToCome.length =
      f.rowsLeft * infos.getCollection.documents.length := by
    rw [init_outputToCome, rowsLeft_eq_rows_length]
    exact joinWithDocuments_length _ _
      (fun i => (scan_perm infos._collection infos._random i).length_eq) 0 f.pending
  refine ⟨(List.range f.rows.length).map
    (fun k => infos._collection.scan infos._random (0 + k)), by simp, ?_, ?_, ?_⟩
  · intro g hg
    obtain ⟨k, -, rfl⟩ := List.mem_map.mp hg
    exact scan_perm _ _ _
  · intro hr g hg
    obtain ⟨k, -, rfl⟩ := List.mem_map.mp hg
    have hr' : infos._random = false := hr
    rw [hr']
    rfl
  · rw [enumerate_drive_all calls _ (init_consistent infos f) (by rw [hlen]; exact hcalls),
      init_outputToCome]
    exact joinWithDocuments_groups _ 0 f.pending

/-- Witness for C13: two input rows over the sample collection; sequential
order gives the documents 7, 8 for each row, row 1 first. -/
theorem enumeration_order_witness :
    (∃ groups : List (List Nat),
      groups.length = (⟨[some 1, none, some 2]⟩ : Fetcher Nat).rows.length ∧
      (∀ g ∈ groups, List.Perm g (sampleInfos false).getCollection.documents) ∧
      ((sampleInfos false).getRandom = false →
        ∀ g ∈ groups, g = (sampleInfos false).getCollection.documents) ∧
      ((EnumerateCollectionExecutor.init (sampleInfos false) ⟨[some 1, none, some 2]⟩ :
        EnumerateCollectionExecutor Nat Nat).drive 8).1 =
        (((⟨[some 1, none, some 2]⟩ : Fetcher Nat).rows.zip groups).map
          (fun rg => rg.2.map (fun d => (rg.1, d)))).flatten) ∧
    ((EnumerateCollectionExecutor.init (sampleInfos false) ⟨[some 1, none, some 2]⟩ :
      EnumerateCollectionExecutor Nat Nat).drive 8).1 = [(1, 7), (1, 8), (2, 7), (2, 8)] :=
  ⟨enumeration_order (sampleInfos false) ⟨[some 1, none, some 2]⟩ 8 (by decide), by decide⟩

/-- C14: when passthrough is allowed, no lookahead row is buffered and no
offset-skip is pending, and the assertion of `maxRowsLeftToFetch` holds,
`fetchBlockForPassthrough` hands back the state the Fetcher gave and the block
the Fetcher gave: the identical block object (same `id`), holding the first
`maxRowsLeftToFetch()` rows of it, so at most that many, and the very block,
rows included, when the Fetcher gave at most the rows asked for; a `nullptr`
from the Fetcher is handed back as `nullptr`.  In the states `RETURNING` and
`RETURNING_LAST_ROW` (below `2 ^ 64 - 1`) the assertion holds and at least one
row is left to fetch. -/
theorem passthrough_hands_back_block (e : LimitExecutor Row) (atMost : Nat)
    (fetcherAnswer : Nat → ExecutionState × Option (AqlItemBlock Row))
    (hbuf : e._lastRowToOutput = none) (hskip : e.currentState ≠ LimitState.SKIPPING) :
    (∀ left, e.maxRowsLeftToFetch = some left →
      ∃ r, e.fetchBlockForPassthrough atMost fetcherAnswer = some r ∧
        r.state = (fetcherAnswer (min atMost left)).1 ∧
        ((fetcherAnswer (min atMost left)).2 = none → r.block = none) ∧
        (∀ b, (fetcherAnswer (min atMost left)).2 = some b →
          ∃ b2, r.block = some b2 ∧ b2.id = b.id ∧ b2.rows = b.rows.take left ∧
            b2.rows.length ≤ left ∧
            (b.rows.length ≤ min atMost left → b2 = b))) ∧
    ((e.currentState = LimitState.RETURNING ∨
        e.currentState = LimitState.RETURNING_LAST_ROW) → e._counter + 1 < 2 ^ 64 →
      ∃ left, e.maxRowsLeftToFetch = some left ∧ 1 ≤ left) := by
  constructor
  · intro left hleft
    have hcond : LimitExecutor.Properties.allowsBlockPassthrough = true ∧
        e._lastRowToOutput.isNone = true ∧ e.currentState ≠ LimitState.SKIPPING :=
      ⟨rfl, by rw [hbuf]; rfl, hskip⟩
    refine ⟨_, by unfold LimitExecutor.fetchBlockForPassthrough; rw [if_pos hcond, hleft],
      rfl, ?_, ?_⟩
    · intro hnone
      show Option.map _ (fetcherAnswer (min atMost left)).2 = none
      rw [hnone]; rfl
    · intro b hb
      refine ⟨b.shrink left, ?_, rfl, rfl, ?_, ?_⟩
      · show Option.map _ (fetcherAnswer (min atMost left)).2 = _
        rw [hb]; rfl
      · show (b.rows.take left).length ≤ left
        rw [List.length_take]; omega
      · intro hle
        have : b.rows.take left = b.rows := List.take_of_length_le (by omega)
        show ({ b with rows := b.rows.take left } : AqlItemBlock Row) = b
        rw [this]
  · intro hst hc
    obtain ⟨-, f2, f3, -, -⟩ := currentState_facts e hc
    unfold LimitExecutor.maxRowsLeftToFetch
    show ∃ left, (if e._infos.getLimitPlusOffset ≥ e._counter then
      some (e._infos.getLimitPlusOffset - e._counter) else none) = some left ∧ 1 ≤ left
    rcases hst with hst | hst
    · have := f2 hst
      rw [if_pos (by omega)]
      exact ⟨_, rfl, by omega⟩
    · have := f3 hst
      rw [if_pos (by omega)]
      exact ⟨_, rfl, by omega⟩

/-- Witness for C14: offset 2, limit 3, counter 3 (two rows left), a Fetcher
that gives block 42 with the rows asked for; block 42 comes back as it is. -/
theorem passthrough_hands_back_block_witness :
    ((LimitExecutor.init ⟨2, 3, false⟩ ⟨[]⟩ : LimitExecutor Nat).atCounter
        3).fetchBlockForPassthrough 10
        (fun n => (ExecutionState.HASMORE, some ⟨42, (List.range 7).take n⟩)) =
      some { state := ExecutionState.HASMORE, stats := { _fullCount := 0 },
             block := some ⟨42, [0, 1]⟩ } ∧
    ∃ r, ((LimitExecutor.init ⟨2, 3, false⟩ ⟨[]⟩ : LimitExecutor Nat).atCounter
        3).fetchBlockForPassthrough 10
        (fun n => (ExecutionState.HASMORE, some ⟨42, (List.range 7).take n⟩)) = some r ∧
      r.state = ExecutionState.HASMORE :=
  ⟨by decide,
   ((passthrough_hands_back_block
      ((LimitExecutor.init ⟨2, 3, false⟩ ⟨[]⟩ : LimitExecutor Nat).atCounter 3) 10
      (fun n => (ExecutionState.HASMORE, some ⟨42, (List.range 7).take n⟩))
      rfl (by decide)).1 2 (by decide)).imp (fun _ h => ⟨h.1, h.2.1⟩)⟩

end EnumerationAndPassthrough


/-! ## Monotonicity, the fullCount flag, and the two assertions -/

section OrderAndAssertions

variable {Row : Type}

/-- C21: for fixed offset, limit and fullCount with offset + limit not
overflowing, the derived state never moves backwards as the counter grows.
With the ranking `SKIPPING < RETURNING < RETURNING_LAST_ROW < COUNTING =
LIMIT_REACHED`, for all counters `c <= c'` that the executor can hold (`c'` is
within the invariant `getLimitPlusOffset() >= _counter` asserted by
`maxRowsLeftToFetch`) and, besides, for all `c <= c'` below `2 ^ 64 - 1`, the
rank of `currentState` at `c` is at most the rank at `c'`; `COUNTING` and
`LIMIT_REACHED` are absorbing, and `SKIPPING` is never re-entered once left.
Along every sequence of `produceRows` and `skipRows` calls from a freshly
constructed executor the counter stays within the invariant and the rank of the
state never decreases. -/
theorem state_never_moves_back (e : LimitExecutor Row) (c c2 : Nat) (hcc : c ≤ c2)
    (hs : e._infos._offset + e._infos._limit < 2 ^ 64)
    (hc2 : c2 ≤ e.infos.getLimitPlusOffset ∨ c2 + 1 < 2 ^ 64) :
    (e.atCounter c).currentState.rank ≤ (e.atCounter c2).currentState.rank ∧
    ((e.atCounter c).currentState = LimitState.COUNTING →
      (e.atCounter c2).currentState = LimitState.COUNTING) ∧
    ((e.atCounter c).currentState = LimitState.LIMIT_REACHED →
      (e.atCounter c2).currentState = LimitState.LIMIT_REACHED) ∧
    ((e.atCounter c).currentState ≠ LimitState.SKIPPING →
      (e.atCounter c2).currentState ≠ LimitState.SKIPPING) ∧
    (∀ (fetcher : Fetcher Row) (calls more : List LimitCall),
      ((LimitExecutor.init e._infos fetcher).afterCalls (calls ++ more))._counter ≤
        e.infos.getLimitPlusOffset ∧
      ((LimitExecutor.init e._infos fetcher).afterCalls calls).currentState.rank ≤
        ((LimitExecutor.init e._infos fetcher).afterCalls (calls ++ more)).currentState.rank) := by
  have mono : ∀ (x : LimitExecutor Row) (a b : Nat), a ≤ b →
      x._infos._offset + x._infos._limit < 2 ^ 64 →
      (b ≤ x.infos.getLimitPlusOffset ∨ b + 1 < 2 ^ 64) →
      (x.atCounter a).currentState.rank ≤ (x.atCounter b).currentState.rank ∧
      ((x.atCounter a).currentState = LimitState.COUNTING →
        (x.atCounter b).currentState = LimitState.COUNTING) ∧
      ((x.atCounter a).currentState = LimitState.LIMIT_REACHED →
        (x.atCounter b).currentState = LimitState.LIMIT_REACHED) ∧
      ((x.atCounter a).currentState ≠ LimitState.SKIPPING →
        (x.atCounter b).currentState ≠ LimitState.SKIPPING) := by
    intro x a b hab hsx hb
    have ha : a ≤ x.infos.getLimitPlusOffset ∨ a + 1 < 2 ^ 64 := by
      rcases hb with h | h
      · exact Or.inl (le_trans hab h)
      · exact Or.inr (by omega)
    have h1 := currentState_within (x.atCounter a) (by simpa using hsx) ha
    have h2 := currentState_within (x.atCounter b) (by simpa using hsx) hb
    simp only [atCounter_counter, atCounter_infos] at h1 h2
    rw [h1, h2]
    refine ⟨?_, ?_, ?_, ?_⟩
    · split_ifs <;> simp only [LimitState.rank] <;> omega
    · split_ifs <;> simp <;> omega
    · split_ifs <;> simp <;> omega
    · split_ifs <;> simp <;> omega
  obtain ⟨m1, m2, m3, m4⟩ := mono e c c2 hcc hs hc2
  refine ⟨m1, m2, m3, m4, ?_⟩
  intro fetcher calls more
  obtain ⟨i1, i2⟩ := reachable_counter_le e._infos fetcher (calls ++ more) hs
  obtain ⟨j1, j2⟩ := reachable_counter_le e._infos fetcher calls hs
  refine ⟨i2, ?_⟩
  have hsum : e._infos.getLimitPlusOffset = e._infos._offset + e._infos._limit :=
    Nat.mod_eq_of_lt hs
  have hmono : ((LimitExecutor.init e._infos fetcher).afterCalls calls)._counter ≤
      ((LimitExecutor.init e._infos fetcher).afterCalls (calls ++ more))._counter := by
    rw [afterCalls_append]
    exact afterCalls_counter_mono more _ (by rw [j1]; exact hs) (by rw [j1, ← hsum]; exact j2)
  have := (mono (LimitExecutor.init e._infos fetcher) _ _ hmono hs (Or.inl i2)).1
  have e1 : ((LimitExecutor.init e._infos fetcher).atCounter
      ((LimitExecutor.init e._infos fetcher).afterCalls calls)._counter).currentState =
      ((LimitExecutor.init e._infos fetcher).afterCalls calls).currentState :=
    currentState_congr _ _ j1.symm rfl
  have e2 : ((LimitExecutor.init e._infos fetcher).atCounter
      ((LimitExecutor.init e._infos fetcher).afterCalls (calls ++ more))._counter).currentState =
      ((LimitExecutor.init e._infos fetcher).afterCalls (calls ++ more)).currentState :=
    currentState_congr _ _ i1.symm rfl
  rw [e1, e2] at this
  exact this

/-- Witness for C21: offset 2, limit 3, counters 1 and 4; `SKIPPING` comes
before `RETURNING_LAST_ROW`. -/
theorem state_never_moves_back_witness :
    ((LimitExecutor.init ⟨2, 3, false⟩ ⟨[]⟩ : LimitExecutor Nat).atCounter 1).currentState.rank ≤
      ((LimitExecutor.init ⟨2, 3, false⟩ ⟨[]⟩ : LimitExecutor Nat).atCounter
        4).currentState.rank :=
  (state_never_moves_back (LimitExecutor.init ⟨2, 3, false⟩ ⟨[]⟩ : LimitExecutor Nat) 1 4
    (by decide) (by decide) (by decide)).1

/-- C22: for every counter, offset and limit with counter < offset + limit and
the sum not overflowing, `currentState` returns the same state with fullCount
enabled as with fullCount disabled; and for any two executors, whatever their
Fetcher and lookahead fields and their row types, the same `_counter`,
`_offset`, `_limit` and `_fullCount` give the same state. -/
theorem fullCount_only_after_limit {Row2 : Type} (e1 : LimitExecutor Row)
    (e2 : LimitExecutor Row2) :
    (e1._counter = e2._counter → e1._infos._offset = e2._infos._offset →
      e1._infos._limit = e2._infos._limit →
      e1._infos._offset + e1._infos._limit < 2 ^ 64 →
      e1._counter < e1._infos._offset + e1._infos._limit →
      e1.currentState = e2.currentState) ∧
    (e1._counter = e2._counter → e1._infos._offset = e2._infos._offset →
      e1._infos._limit = e2._infos._limit → e1._infos._fullCount = e2._infos._fullCount →
      e1.currentState = e2.currentState) := by
  constructor
  · intro hc ho hl hs hlt
    rw [currentState_unfold, currentState_unfold, ← hc, ← ho, ← hl, Nat.mod_eq_of_lt hs]
    by_cases a1 : e1._counter < e1._infos._offset
    · rw [if_pos a1, if_pos a1]
    · by_cases a2 : (e1._counter + 1) % 2 ^ 64 = e1._infos._offset + e1._infos._limit
      · rw [if_neg a1, if_neg a1, if_pos a2, if_pos a2]
      · rw [if_neg a1, if_neg a1, if_neg a2, if_neg a2, if_pos hlt, if_pos hlt]
  · intro hc ho hl hf
    rw [currentState_unfold, currentState_unfold, hc, ho, hl, hf]

/-- Witness for C22: offset 2, limit 3, counter 4, with and without
fullCount. -/
theorem fullCount_only_after_limit_witness :
    ((LimitExecutor.init ⟨2, 3, true⟩ ⟨[]⟩ : LimitExecutor Nat).atCounter 4).currentState =
      ((LimitExecutor.init ⟨2, 3, false⟩ ⟨[some 1]⟩ : LimitExecutor Nat).atCounter
        4).currentState :=
  (fullCount_only_after_limit
    ((LimitExecutor.init ⟨2, 3, true⟩ ⟨[]⟩ : LimitExecutor Nat).atCounter 4)
    ((LimitExecutor.init ⟨2, 3, false⟩ ⟨[some 1]⟩ : LimitExecutor Nat).atCounter 4)).1
    rfl rfl rfl (by decide) (by decide)

/-- C23, as stated, fails: with offset `2 ^ 64 - 1` and limit 1, both `size_t`
values, `getLimitPlusOffset()` is 0, not the sum `2 ^ 64`; it is below
`getOffset()` and below `getLimit()`; at counter 1 <= offset the assertion of
`maxRowsLeftToFetch` fails, and counter 1 < offset is not below
`getLimitPlusOffset()`. -/
theorem getLimitPlusOffset_wraps :
    (2 ^ 64 - 1 : Nat) < 2 ^ 64 ∧ (1 : Nat) < 2 ^ 64 ∧
    (⟨2 ^ 64 - 1, 1, false⟩ : LimitExecutorInfos).getLimitPlusOffset = 0 ∧
    (⟨2 ^ 64 - 1, 1, false⟩ : LimitExecutorInfos).getLimitPlusOffset ≠ (2 ^ 64 - 1) + 1 ∧
    ¬ ((⟨2 ^ 64 - 1, 1, false⟩ : LimitExecutorInfos).getLimitPlusOffset ≥
      (⟨2 ^ 64 - 1, 1, false⟩ : LimitExecutorInfos).getOffset) ∧
    ¬ ((⟨2 ^ 64 - 1, 1, false⟩ : LimitExecutorInfos).getLimitPlusOffset ≥
      (⟨2 ^ 64 - 1, 1, false⟩ : LimitExecutorInfos).getLimit) ∧
    ((LimitExecutor.init ⟨2 ^ 64 - 1, 1, false⟩ ⟨[]⟩ : LimitExecutor Nat).atCounter
      1).maxRowsLeftToFetch = none ∧
    ¬ (1 < (⟨2 ^ 64 - 1, 1, false⟩ : LimitExecutorInfos).getLimitPlusOffset) := by
  decide

/-- C23 (amended): for every offset and limit of type `size_t` whose sum does
not overflow (offset + limit < `2 ^ 64`), `getLimitPlusOffset()` equals the
mathematical sum offset + limit and is therefore >= `getOffset()` and >=
`getLimit()`, so that counter <= offset implies the assertion of
`maxRowsLeftToFetch` holds and counter < offset implies counter <
`getLimitPlusOffset()`. -/
theorem getLimitPlusOffset_exact (e : LimitExecutor Row)
    (hs : e._infos._offset + e._infos._limit < 2 ^ 64) :
    e.infos.getLimitPlusOffset = e._infos._offset + e._infos._limit ∧
    e.infos.getLimitPlusOffset ≥ e.infos.getOffset ∧
    e.infos.getLimitPlusOffset ≥ e.infos.getLimit ∧
    (e._counter ≤ e.infos.getOffset → e.maxRowsLeftToFetch ≠ none) ∧
    (e._counter < e.infos.getOffset → e._counter < e.infos.getLimitPlusOffset) := by
  have hsum : e.infos.getLimitPlusOffset = e._infos._offset + e._infos._limit :=
    Nat.mod_eq_of_lt hs
  have hoff : e.infos.getOffset = e._infos._offset := rfl
  have hlim : e.infos.getLimit = e._infos._limit := rfl
  rw [hsum, hoff, hlim]
  refine ⟨rfl, by omega, by omega, ?_, by omega⟩
  intro hle
  rw [(rowsLeftToFetch_without_overflow e hs).2 (by omega)]
  exact Option.noConfusion

/-- Witness for C23 (amended): offset 2, limit 3. -/
theorem getLimitPlusOffset_exact_witness :
    (LimitExecutor.init ⟨2, 3, false⟩ ⟨[]⟩ : LimitExecutor Nat).infos.getLimitPlusOffset =
      2 + 3 :=
  (getLimitPlusOffset_exact (LimitExecutor.init ⟨2, 3, false⟩ ⟨[]⟩ : LimitExecutor Nat)
    (by decide)).1

/-- C24, as stated, fails where the offset has just been skipped: at counter 2
with offset 2 the assertion of `maxRowsLeftToSkip` holds, although
`currentState` is not `SKIPPING` any more, and the value returned is 0, which
is not positive. -/
theorem maxRowsLeftToSkip_at_offset :
    ((LimitExecutor.init ⟨2, 3, false⟩ ⟨[]⟩ : LimitExecutor Nat).atCounter
      2).maxRowsLeftToSkip = some 0 ∧
    ((LimitExecutor.init ⟨2, 3, false⟩ ⟨[]⟩ : LimitExecutor Nat).atCounter
      2).maxRowsLeftToSkip ≠ none ∧
    ((LimitExecutor.init ⟨2, 3, false⟩ ⟨[]⟩ : LimitExecutor Nat).atCounter 2).currentState ≠
      LimitState.SKIPPING ∧
    ¬ (0 < 0) := by
  decide

/-- C24 (amended): for every counter and offset the assertion of
`maxRowsLeftToSkip` holds if and only if counter <= offset, that is if and only
if `currentState` is `SKIPPING` or counter == offset (the offset has just been
skipped); when it holds the call returns offset - counter, which is the number
of offset rows still to be discarded: positive exactly when `currentState` is
`SKIPPING`, and 0 when counter == offset. -/
theorem maxRowsLeftToSkip_spec (e : LimitExecutor Row) :
    (e.maxRowsLeftToSkip ≠ none ↔ e._counter ≤ e._infos._offset) ∧
    (e.maxRowsLeftToSkip ≠ none ↔
      (e.currentState = LimitState.SKIPPING ∨ e._counter = e._infos._offset)) ∧
    (e._counter ≤ e._infos._offset →
      e.maxRowsLeftToSkip = some (e._infos._offset - e._counter) ∧
      e._counter + (e._infos._offset - e._counter) = e._infos._offset) ∧
    (e.currentState = LimitState.SKIPPING ↔
      ∃ n, e.maxRowsLeftToSkip = some n ∧ 0 < n) ∧
    (e._counter = e._infos._offset → e.maxRowsLeftToSkip = some 0) := by
  have hskip := state_SKIPPING_iff_lt e
  have hdef : e.maxRowsLeftToSkip =
      if e._infos._offset ≥ e._counter then some (e._infos._offset - e._counter)
      else none := rfl
  rw [hdef, hskip]
  refine ⟨?_, ?_, ?_, ?_, ?_⟩
  · split_ifs <;> simp <;> omega
  · split_ifs <;> simp <;> omega
  · intro hle
    rw [if_pos hle]
    exact ⟨rfl, by omega⟩
  · constructor
    · intro hlt
      refine ⟨e._infos._offset - e._counter, ?_, by omega⟩
      rw [if_pos (by omega)]
    · rintro ⟨n, hn, hpos⟩
      split_ifs at hn with h
      · simp only [Option.some.injEq] at hn
        omega
  · intro heq
    rw [if_pos (by omega), heq, Nat.sub_self]

end OrderAndAssertions
end aql
end arangodb
